import Mathlib

/-!
The job orchestration engine of v-transcribe (`api/main.go`).

A shallow embedding of the Go program: the `Job` record, the string helpers it
uses from the standard library, the submission and query handlers, and the
pipeline executor (`processJob`, `processJobResume`) with its chunked
transcription fallback, followed by theorems about them.
-/

namespace VTranscribe

/-! ## Strings -/

/-- Scan of `strings.Contains` over characters: does `sub` start at some
position of the text. -/
def hasSubstr : List Char → List Char → Bool
  | [], sub => sub.isPrefixOf []
  | c :: cs, sub => sub.isPrefixOf (c :: cs) || hasSubstr cs sub

/-- Go `strings.Contains(s, substr)`. -/
def stringsContains (s substr : String) : Bool :=
  hasSubstr s.toList substr.toList

/-- Source `isValidYouTubeURL` (main.go:700-704). -/
def isValidYouTubeURL (url : String) : Bool :=
  stringsContains url "youtube.com" ||
    stringsContains url "youtu.be" ||
    stringsContains url "m.youtube.com"

/-- Go `unicode.IsSpace`: the Latin-1 spaces and the code points with the
White_Space property. -/
def isSpace (c : Char) : Bool :=
  c = '\t' || c = '\n' || c.toNat = 0x0B || c.toNat = 0x0C || c = '\r' || c = ' ' ||
    c.toNat = 0x85 || c.toNat = 0xA0 || c.toNat = 0x1680 ||
    (0x2000 ≤ c.toNat && c.toNat ≤ 0x200A) || c.toNat = 0x2028 || c.toNat = 0x2029 ||
    c.toNat = 0x202F || c.toNat = 0x205F || c.toNat = 0x3000

/-- `strings.TrimSpace` on the characters of a string. -/
def trimSpaceChars (l : List Char) : List Char :=
  (l.dropWhile isSpace).rdropWhile isSpace

/-- Go `strings.TrimSpace(s)`. -/
def trimSpace (s : String) : String :=
  String.mk (trimSpaceChars s.toList)

/-- Go `strings.TrimSuffix(s, suffix)`. -/
def trimSuffix (s suffix : String) : String :=
  if suffix.toList.isSuffixOf s.toList then
    String.mk (s.toList.take (s.toList.length - suffix.toList.length))
  else s

/-- Go `strings.HasSuffix(s, suffix)`. -/
def hasSuffix (s suffix : String) : Bool :=
  suffix.toList.isSuffixOf s.toList

/-! ## Paths (package `path/filepath` on Unix) -/

/-- The elements of a path between its separators. -/
def splitSlash : List Char → List (List Char)
  | [] => [[]]
  | c :: cs =>
    if c = '/' then [] :: splitSlash cs
    else
      match splitSlash cs with
      | [] => [[c]]
      | h :: t => (c :: h) :: t

/-- One element of `filepath.Clean`: empty and "." elements are dropped, ".."
removes the element before it (at the root it is dropped, at the start of a
relative path it is kept), any other element is kept. `stack` holds the kept
elements, the last one first. -/
def cleanStep (rooted : Bool) (stack : List (List Char)) (elem : List Char) :
    List (List Char) :=
  if elem = [] || elem = ['.'] then stack
  else if elem = ['.', '.'] then
    match stack with
    | [] => if rooted then [] else [elem]
    | top :: rest => if top = ['.', '.'] then elem :: stack else rest
  else elem :: stack

/-- Go `filepath.Clean` on characters. -/
def cleanChars (path : List Char) : List Char :=
  let rooted := path.head? = some '/'
  let stack := (splitSlash path).foldl (cleanStep rooted) []
  let body := List.intercalate ['/'] stack.reverse
  if rooted then '/' :: body
  else if body = [] then ['.'] else body

/-- Go `filepath.Clean(path)`. -/
def filepathClean (path : String) : String :=
  String.mk (cleanChars path.toList)

/-- Go `filepath.Join(dir, name)`: empty leading elements are ignored, the
rest is joined with a separator and cleaned. -/
def filepathJoin (dir name : String) : String :=
  if dir ≠ "" then filepathClean (dir ++ "/" ++ name)
  else if name ≠ "" then filepathClean name
  else ""

/-- Go `filepath.Base(path)`: the last element, trailing separators removed. -/
def filepathBase (path : String) : String :=
  if path = "" then "."
  else
    let p := path.toList.rdropWhile (fun c => c = '/')
    let b := (p.reverse.takeWhile (fun c => c ≠ '/')).reverse
    if b = [] then "/" else String.mk b

/-- Go `filepath.Dir(path)`: all but the last element, cleaned. -/
def filepathDir (path : String) : String :=
  filepathClean (String.mk (path.toList.rdropWhile (fun c => c ≠ '/')))

/-! ## The job record -/

/-- Source `Job` (main.go:18-37). `Created` is the instant of the
`time.Time` value in nanoseconds; Go `int` fields are integers. -/
structure Job where
  ID : String
  Status : String
  URL : String
  File : String
  AudioFile : String
  Text : String
  Progress : Int
  AudioProgress : Int
  TranscriptProgress : Int
  Error : String
  Created : Int
  Title : String
  Description : String
  Thumbnail : String
  Duration : Int
  ChannelName : String
deriving DecidableEq, Repr, Inhabited

/-! ## Time -/

/-- Go `time.Hour` as a `Duration` (nanoseconds). -/
def timeHour : Int := 3600000000000

/-- Largest `time.Duration` (`1<<63 - 1`). -/
def maxDuration : Int := 9223372036854775807

/-- Smallest `time.Duration` (`-1 << 63`). -/
def minDuration : Int := -9223372036854775808

/-- Go `t.Before(u)` on instants. -/
def timeBefore (t u : Int) : Bool := decide (t < u)

/-- Go `t.Sub(u)`: the difference as an int64 `Duration`, saturating at
`minDuration` and `maxDuration`. -/
def timeSub (t u : Int) : Int :=
  if t - u < minDuration then minDuration
  else if maxDuration < t - u then maxDuration
  else t - u

/-- Go `time.Since(t)` = `time.Now().Sub(t)`, with the current instant made
explicit. -/
def timeSince (now t : Int) : Int := timeSub now t

/-- Go `Duration.Hours`: `hour := d / Hour; nsec := d % Hour;
float64(hour) + float64(nsec)/(60*60*1e9)` with Go's truncating division,
computed in exact rationals in place of float64; for an int64 duration the
float64 value is below 24 exactly when the rational one is. -/
def durationHours (d : Int) : ℚ :=
  (Int.tdiv d timeHour : ℚ) + (Int.tmod d timeHour : ℚ) / (60 * 60 * 1000000000)

/-! ## Query handlers

The job map `jobs` (a Go `map[string]*Job`) is the list of its entries in the
order in which `range` visits them; that order is chosen by the runtime, so
every theorem quantifies over it. -/

/-- Body of an HTTP response: an error line (`text s` is the line that
`http.Error(w, s, code)` writes, the message `s` followed by a line feed), an
encoded record, an encoded list of records, or nothing. -/
inductive Body where
  | text (s : String)
  | job (j : Job)
  | jobList (l : List Job)
  | empty
deriving DecidableEq, Repr

/-- Status code and body written to the `http.ResponseWriter`. -/
structure Response where
  code : Nat
  body : Body
deriving DecidableEq, Repr

/-- The `range jobs` loop of `handleGetActiveJobs` (main.go:180-191). -/
def activeJobsLoop (now : Int) : List (String × Job) → List Job → List Job
  | [], activeJobs => activeJobs
  | (_, job) :: rest, activeJobs =>
    if job.Status != "done" && job.Status != "error" then
      activeJobsLoop now rest (activeJobs ++ [job])
    else if decide (durationHours (timeSince now job.Created) < 24) then
      activeJobsLoop now rest (activeJobs ++ [job])
    else
      activeJobsLoop now rest activeJobs

/-- Source `handleGetActiveJobs` (main.go:170-195); `now` is the clock read by
`time.Since`. -/
def handleGetActiveJobs (method : String) (jobs : List (String × Job)) (now : Int) :
    Response :=
  if method != "GET" then ⟨405, .text "Method not allowed"⟩
  else ⟨200, .jobList (activeJobsLoop now jobs [])⟩

/-- The `range jobs` loop of `handleGetJobHistory` (main.go:207-213). -/
def historyLoop : List (String × Job) → List Job → List Job
  | [], historyJobs => historyJobs
  | (_, job) :: rest, historyJobs =>
    if job.Status == "done" then historyLoop rest (historyJobs ++ [job])
    else historyLoop rest historyJobs

/-- The statement `historyJobs[i], historyJobs[j] = historyJobs[j], historyJobs[i]`. -/
def swapAt (a : List Job) (i j : Nat) : List Job :=
  match a[i]?, a[j]? with
  | some x, some y => (a.set i y).set j x
  | _, _ => a

/-- Body of the inner loop of the sort (main.go:219-221) at indices `i`, `j`. -/
def sortStep (i : Nat) (a : List Job) (j : Nat) : List Job :=
  match a[i]?, a[j]? with
  | some x, some y => if timeBefore x.Created y.Created then swapAt a i j else a
  | _, _ => a

/-- Inner loop `for j := i + 1; j < len(historyJobs); j++` (main.go:218-222). -/
def sortInner (a : List Job) (i : Nat) : List Job :=
  (List.range' (i + 1) (a.length - (i + 1))).foldl (sortStep i) a

/-- Outer loop `for i := 0; i < len(historyJobs)-1; i++` (main.go:217-223). -/
def sortByCreatedDesc (a : List Job) : List Job :=
  (List.range (a.length - 1)).foldl sortInner a

/-- Source `handleGetJobHistory` (main.go:197-226). -/
def handleGetJobHistory (method : String) (jobs : List (String × Job)) : Response :=
  if method != "GET" then ⟨405, .text "Method not allowed"⟩
  else ⟨200, .jobList (sortByCreatedDesc (historyLoop jobs []))⟩

/-! ## The filesystem

File contents are text. `size` is what `os.Stat` reports for the file; the
audio files the external programs write are only ever sized and copied. -/

/-- One file: the size `os.Stat` reports and the data `os.ReadFile` returns. -/
structure File where
  size : Nat
  data : String
deriving DecidableEq, Repr

/-- The filesystem state: the file at each path, if any, and whether the
process may read, respectively create or overwrite, that path. -/
structure FileSys where
  file : String → Option File
  readable : String → Bool
  writable : String → Bool

/-- Go `os.Stat(path)`: the size of the file, or the error. -/
def osStat (fs : FileSys) (path : String) : Except String Nat :=
  match fs.file path with
  | some f => .ok f.size
  | none => .error ("stat " ++ path ++ ": no such file or directory")

/-- Go `os.ReadFile(path)`. -/
def osReadFile (fs : FileSys) (path : String) : Except String String :=
  match fs.file path with
  | some f =>
    if fs.readable path then .ok f.data
    else .error ("open " ++ path ++ ": permission denied")
  | none => .error ("open " ++ path ++ ": no such file or directory")

/-- Go `os.WriteFile(path, data, 0644)`: the error, if any, and the
filesystem afterwards. -/
def osWriteFile (fs : FileSys) (path : String) (data : String) :
    Option String × FileSys :=
  if fs.writable path then
    (none, { fs with file := fun p =>
      if p = path then some ⟨data.utf8ByteSize, data⟩ else fs.file p })
  else (some ("open " ++ path ++ ": permission denied"), fs)

/-- Go `os.Remove(path)`; the program ignores its error. -/
def osRemove (fs : FileSys) (path : String) : FileSys :=
  { fs with file := fun p => if p = path then none else fs.file p }

/-! ## Submission -/

/-- Lowercase hexadecimal digit, as `encoding/hex` writes it. -/
def hexDigit (n : Nat) : Char :=
  "0123456789abcdef".toList.getD n '0'

/-- Two hex digits of one byte (`hex.Encode`). -/
def hexByte (b : Nat) : List Char :=
  [hexDigit (b % 256 / 16), hexDigit (b % 16)]

/-- `uuid.NewString()` of github.com/google/uuid: sixteen random bytes
(`rnd i` is byte `i`), byte 6 forced to version 4 and byte 8 to the RFC 4122
variant, written as 8-4-4-4-12 hex digits. -/
def uuidNewString (rnd : Nat → Nat) : String :=
  let b : Nat → Nat := fun i =>
    if i = 6 then (rnd 6 % 256 &&& 0x0f) ||| 0x40
    else if i = 8 then (rnd 8 % 256 &&& 0x3f) ||| 0x80
    else rnd i % 256
  String.mk
    (hexByte (b 0) ++ hexByte (b 1) ++ hexByte (b 2) ++ hexByte (b 3) ++ ['-'] ++
      hexByte (b 4) ++ hexByte (b 5) ++ ['-'] ++
      hexByte (b 6) ++ hexByte (b 7) ++ ['-'] ++
      hexByte (b 8) ++ hexByte (b 9) ++ ['-'] ++
      hexByte (b 10) ++ hexByte (b 11) ++ hexByte (b 12) ++ hexByte (b 13) ++
      hexByte (b 14) ++ hexByte (b 15))

/-- An HTTP request to `/job`: the method and what
`json.NewDecoder(r.Body).Decode(&payload)` yields, the decoded `payload.URL`
or `none` when the body is not valid JSON. -/
structure Request where
  method : String
  payload : Option String

/-- The process state the submission handler acts on: the job map, the
buffered channel `jobQueue` (capacity 100), the goroutines started with
`go processJob(job, url)` (job identifier and url), and the disk. -/
structure Server where
  jobs : List (String × Job)
  jobQueue : List String
  spawned : List (String × String)
  fs : FileSys

/-- Go `jobs[id]`. -/
def mapLookup (jobs : List (String × Job)) (id : String) : Option Job :=
  (jobs.find? (fun e => e.1 == id)).map Prod.snd

/-- Go `jobs[id] = job`: any entry for `id` is replaced. Where the entry sits
in the list is immaterial, the order of `range` being unspecified. -/
def mapStore (jobs : List (String × Job)) (id : String) (job : Job) : List (String × Job) :=
  (id, job) :: jobs.filter (fun e => e.1 != id)

/-- The record built at main.go:123-129; the fields not named there have
their zero value. -/
def newJob (id url : String) (now : Int) : Job :=
  { ID := id, Status := "queued", URL := url, File := "", AudioFile := "",
    Text := "", Progress := 0, AudioProgress := 0, TranscriptProgress := 0,
    Error := "", Created := now, Title := "", Description := "",
    Thumbnail := "", Duration := 0, ChannelName := "" }

/-- The `select` of main.go:136-142: a non-blocking send of `id` on
`jobQueue`, and `go processJob(job, url)` when the buffer is full. -/
def enqueueOrSpawn (id url : String) (s : Server) : Server :=
  if s.jobQueue.length < 100 then { s with jobQueue := s.jobQueue ++ [id] }
  else { s with spawned := s.spawned ++ [(id, url)] }

/-- Source `handleJob` (main.go:88-146). `rnd` is the randomness read by
`uuid.NewString()` and `now` the value of `time.Now()`. -/
def handleJob (r : Request) (rnd : Nat → Nat) (now : Int) (s : Server) :
    Response × Server :=
  if r.method == "OPTIONS" then (⟨200, .empty⟩, s)
  else if r.method != "POST" then (⟨405, .text "Method not allowed"⟩, s)
  else
    match r.payload with
    | none => (⟨400, .text "Invalid JSON"⟩, s)
    | some url =>
      if url == "" then (⟨400, .text "URL is required"⟩, s)
      else if !isValidYouTubeURL url then (⟨400, .text "Invalid YouTube URL"⟩, s)
      else
        let id := uuidNewString rnd
        let job := newJob id url now
        let s1 := { s with jobs := mapStore s.jobs id job }
        (⟨200, .job job⟩, enqueueOrSpawn id url s1)

/-! ## The pipeline

The external programs (`yt-dlp`, `ffmpeg`, `whisper`) and `encoding/json` are
parameters: an `Env` fixes what each call does to the disk and what it
returns. A call may also raise a runtime panic, which is what the deferred
`recover` of `processJob` and `processJobResume` handles. -/

/-- What a run records: each write of the four lifecycle fields of the job
record (the values the record holds once written), each entry into a pipeline
stage, and each return from one with whether its error was nil. -/
inductive Event where
  | statusWrite (status : String) (progress audio transcript : Int)
  | invoke (stage : String)
  | result (stage : String) (ok : Bool)
deriving DecidableEq, Repr

/-- The world a run acts on: the disk and the record of the run so far. -/
structure World where
  fs : FileSys
  trace : List Event

/-- Append an event to the record of the run. -/
def World.log (w : World) (e : Event) : World :=
  { w with trace := w.trace ++ [e] }

/-- The lifecycle fields of a job record: Status, Progress, AudioProgress and
TranscriptProgress. -/
def Job.lifecycle (job : Job) : String × Int × Int × Int :=
  (job.Status, job.Progress, job.AudioProgress, job.TranscriptProgress)

/-- The event of a write to the lifecycle fields, read off the record that has
been written. -/
def Event.ofRecord (job : Job) : Event :=
  .statusWrite job.Status job.Progress job.AudioProgress job.TranscriptProgress

/-- What an external call does: it returns a value, or panics with a value
(shown by `%v` as the string `r`); either way it leaves a disk behind. -/
inductive Outcome (α : Type) where
  | returned (v : α) (fs : FileSys)
  | panicked (r : String) (fs : FileSys)

/-- The fields `extractVideoMetadata` decodes from the output of `yt-dlp`;
`Duration` is a JSON number. -/
structure Metadata where
  Title : String
  Description : String
  Thumbnail : String
  Duration : ℚ
  Channel : String
  Uploader : String

/-- How the `yt-dlp | ffmpeg` pipeline of `downloadAudio` ends: at the first
of its five error checks that fires, or with both programs done. -/
inductive PipeResult where
  | pipeErr (err : String)
  | ffmpegStartErr (err : String)
  | ytdlpStartErr (err : String)
  | ytdlpWaitErr (err : String)
  | ffmpegWaitErr (err : String)
  | success

/-- The environment of a run. -/
structure Env where
  /-- `json.MarshalIndent(job, "", "  ")`. -/
  jsonMarshalIndent : Job → Except String String
  /-- `exec.Command("yt-dlp", "--dump-json", "--no-download", url).Output()`. -/
  ytdlpDumpJson : String → FileSys → Outcome (Except String String)
  /-- `json.Unmarshal(output, &metadata)`. -/
  jsonUnmarshal : String → Except String Metadata
  /-- The `yt-dlp | ffmpeg` pipeline for a url writing to `tmpFile`. -/
  ytdlpFfmpeg : String → String → FileSys → Outcome PipeResult
  /-- `ffmpeg -i audioFile -ss startTime -t duration -c copy chunkFile -y`,
  with the error of `cmd.Run()`. -/
  ffmpegSegment : String → Nat → Nat → String → FileSys → Outcome (Option String)
  /-- `whisper audioFile --model tiny --output_format txt --output_dir dir`,
  with the error of `cmd.CombinedOutput()`. -/
  whisper : String → String → FileSys → Outcome (Option String)
  /-- `json.Unmarshal(data, &job)` for a `Job`. -/
  jsonUnmarshalJob : String → Except String Job := fun _ => .error "unexpected end of JSON input"
  /-- `os.ReadDir(dir)`: the names of the entries of the directory. -/
  osReadDir : String → FileSys → Except String (List String) := fun _ _ => .ok []

/-- What a function of the pipeline does: it returns, or a panic passes
through it. -/
inductive Res (α : Type) where
  | ret (v : α) (w : World)
  | panic (r : String) (w : World)

/-- Go `int(x)` for a float64 `x`: truncation toward zero; a value outside the
range of `int` gives the smallest `int` (the result of the conversion on
amd64). -/
def goInt (x : ℚ) : Int :=
  if -9223372036854775808 ≤ Int.tdiv x.num x.den ∧ Int.tdiv x.num x.den ≤ 9223372036854775807 then
    Int.tdiv x.num x.den
  else -9223372036854775808

/-- Source `saveJobToDisk` (main.go:707-718). -/
def saveJobToDisk (E : Env) (job : Job) (w : World) : World :=
  let jobFile := filepathJoin "/data/jobs" (job.ID ++ ".json")
  match E.jsonMarshalIndent job with
  | .error _ => w
  | .ok data => { w with fs := (osWriteFile w.fs jobFile data).2 }

/-- Source `updateJobStatusDetailed` (main.go:412-425). -/
def updateJobStatusDetailed (E : Env) (job : Job) (status : String)
    (overallProgress audioProgress transcriptProgress : Int) (error : String) (w : World) :
    Job × World :=
  let job1 : Job :=
    { job with
      Status := status
      Progress := overallProgress
      AudioProgress := audioProgress
      TranscriptProgress := transcriptProgress
      Error := if error != "" then error else job.Error }
  (job1, saveJobToDisk E job1 (w.log (Event.ofRecord job1)))

/-- Source `copyFile` (main.go:427-441): the error, if any, and the world
afterwards. The bytes written are the bytes read, so the copy is the file of
the source, with its size. -/
def copyFile (src dst : String) (w : World) : Option String × World :=
  match osReadFile w.fs src with
  | .error err => (some ("failed to read source file " ++ src ++ ": " ++ err), w)
  | .ok data =>
    match osWriteFile w.fs dst data with
    | (some err, fs) =>
      (some ("failed to write destination file " ++ dst ++ ": " ++ err), { w with fs := fs })
    | (none, fs) =>
      (none, { w with fs := { fs with file := fun p =>
        if p = dst then (w.fs.file src).map (fun f => ⟨f.size, data⟩) else fs.file p } })

/-- Source `extractVideoMetadata` (main.go:443-481): the job afterwards and
the returned error. -/
def extractVideoMetadata (E : Env) (job : Job) (url : String) (w : World) :
    Res (Job × Option String) :=
  let w := w.log (.invoke "extractVideoMetadata")
  match E.ytdlpDumpJson url w.fs with
  | .panicked r fs => .panic r { w with fs := fs }
  | .returned (.error err) fs =>
    .ret (job, some ("failed to extract metadata: " ++ err))
      ({ w with fs := fs }.log (.result "extractVideoMetadata" false))
  | .returned (.ok output) fs =>
    match E.jsonUnmarshal output with
    | .error err =>
      .ret (job, some ("failed to parse metadata JSON: " ++ err))
        ({ w with fs := fs }.log (.result "extractVideoMetadata" false))
    | .ok metadata =>
      let job1 : Job :=
        { job with
          Title := metadata.Title
          Description := metadata.Description
          Thumbnail := metadata.Thumbnail
          Duration := goInt metadata.Duration
          ChannelName := if metadata.Channel = "" then metadata.Uploader else metadata.Channel }
      .ret (job1, none) ({ w with fs := fs }.log (.result "extractVideoMetadata" true))

/-- Source `downloadAudio` (main.go:483-528). -/
def downloadAudio (E : Env) (jobID url : String) (w : World) : Res (Except String String) :=
  let w := w.log (.invoke "downloadAudio")
  let tmpFile := filepathJoin "/tmp" (jobID ++ ".wav")
  match E.ytdlpFfmpeg url tmpFile w.fs with
  | .panicked r fs => .panic r { w with fs := fs }
  | .returned res fs =>
    let fail := fun (msg : String) =>
      Res.ret (Except.error msg) ({ w with fs := fs }.log (.result "downloadAudio" false))
    match res with
    | .pipeErr err => fail ("failed to create pipe: " ++ err)
    | .ffmpegStartErr err => fail ("failed to start ffmpeg: " ++ err)
    | .ytdlpStartErr err => fail ("failed to start yt-dlp: " ++ err)
    | .ytdlpWaitErr err => fail ("yt-dlp failed: " ++ err)
    | .ffmpegWaitErr err => fail ("ffmpeg failed: " ++ err)
    | .success => .ret (.ok tmpFile) ({ w with fs := fs }.log (.result "downloadAudio" true))

/-- Source `transcribeAudioDirect` (main.go:611-653). -/
def transcribeAudioDirect (E : Env) (audioFile : String) (w : World) :
    Res (Except String String) :=
  let baseName := trimSuffix (filepathBase audioFile) ".wav"
  let outputDir := "/tmp"
  match E.whisper audioFile outputDir w.fs with
  | .panicked r fs => .panic r { w with fs := fs }
  | .returned (some err) fs =>
    .ret (.error ("whisper transcription failed: " ++ err)) { w with fs := fs }
  | .returned none fs =>
    let transcriptFile := filepathJoin outputDir (baseName ++ ".txt")
    match osReadFile fs transcriptFile with
    | .error err => .ret (.error ("failed to read transcript file: " ++ err)) { w with fs := fs }
    | .ok transcriptBytes =>
      let transcript := trimSpace transcriptBytes
      if transcript = "" then .ret (.error "empty transcript generated") { w with fs := fs }
      else .ret (.ok transcript) { w with fs := osRemove fs transcriptFile }

/-- The loop of `splitAudioFile` (main.go:581-606) with `n` iterations left,
at index `i`. -/
def splitLoop (E : Env) (audioFile baseDir baseName : String) :
    Nat → Nat → List String → World → Res (List String)
  | 0, _, chunks, w => .ret chunks w
  | n + 1, i, chunks, w =>
    let chunkDuration := 120
    let chunkFile := filepathJoin baseDir (baseName ++ "_chunk_" ++ toString i ++ ".wav")
    let startTime := i * chunkDuration
    match E.ffmpegSegment audioFile startTime chunkDuration chunkFile w.fs with
    | .panicked r fs => .panic r { w with fs := fs }
    | .returned (some _) fs => .ret chunks { w with fs := fs }
    | .returned none fs =>
      match osStat fs chunkFile with
      | .ok size =>
        if size > 1000 then
          splitLoop E audioFile baseDir baseName n (i + 1) (chunks ++ [chunkFile])
            { w with fs := fs }
        else .ret chunks { w with fs := osRemove fs chunkFile }
      | .error _ => .ret chunks { w with fs := osRemove fs chunkFile }

/-- Source `splitAudioFile` (main.go:573-609); its error is always nil. -/
def splitAudioFile (E : Env) (audioFile : String) (w : World) :
    Res (Except String (List String)) :=
  let baseDir := filepathDir audioFile
  let baseName := trimSuffix (filepathBase audioFile) ".wav"
  match splitLoop E audioFile baseDir baseName 10 0 [] w with
  | .panic r w => .panic r w
  | .ret chunks w => .ret (.ok chunks) w

/-- The loop of `transcribeAudioChunked` (main.go:554-568) over the chunks
still to do; `fullTranscript` is the `strings.Builder`. -/
def chunkLoop (E : Env) : List String → String → World → Res (Except String String)
  | [], fullTranscript, w => .ret (.ok (trimSpace fullTranscript)) w
  | chunk :: rest, fullTranscript, w =>
    match transcribeAudioDirect E chunk w with
    | .panic r w => .panic r w
    | .ret (.error _) w => chunkLoop E rest fullTranscript w
    | .ret (.ok text) w =>
      chunkLoop E rest (fullTranscript ++ text ++ " ") { w with fs := osRemove w.fs chunk }

/-- Source `transcribeAudioChunked` (main.go:547-571). -/
def transcribeAudioChunked (E : Env) (audioFile : String) (w : World) :
    Res (Except String String) :=
  match splitAudioFile E audioFile w with
  | .panic r w => .panic r w
  | .ret (.error err) w => .ret (.error ("failed to split audio: " ++ err)) w
  | .ret (.ok chunks) w => chunkLoop E chunks "" w

/-- The result of a stage with its return recorded. -/
def logResult (stage : String) : Res (Except String String) → Res (Except String String)
  | .panic r w => .panic r w
  | .ret (.error err) w => .ret (.error err) (w.log (.result stage false))
  | .ret (.ok v) w => .ret (.ok v) (w.log (.result stage true))

/-- Source `transcribeAudio` (main.go:530-545). -/
def transcribeAudio (E : Env) (audioFile : String) (w : World) : Res (Except String String) :=
  let w := w.log (.invoke "transcribeAudio")
  logResult "transcribeAudio" <|
    match osStat w.fs audioFile with
    | .error err => .ret (.error ("cannot check audio file: " ++ err)) w
    | .ok size =>
      if size > 10 * 1024 * 1024 then transcribeAudioChunked E audioFile w
      else transcribeAudioDirect E audioFile w

/-- How the body of a run ends: it returns, or a panic with value `r` reaches
the deferred function; either way the job record is as the body left it. -/
inductive JobRes where
  | finished (job : Job) (w : World)
  | panicked (r : String) (job : Job) (w : World)

/-- The block "Complete" (main.go:283-293 and 389-398, and 360-368 with the
text read from disk): the job is marked done and saved. -/
def completeJob (E : Env) (job : Job) (text filename : String) (w : World) : Job × World :=
  let job1 : Job :=
    { job with
      Status := "done"
      Progress := 100
      AudioProgress := 100
      TranscriptProgress := 100
      Text := text
      File := "/files/" ++ filename }
  (job1, saveJobToDisk E job1 (w.log (Event.ofRecord job1)))

/-- `os.WriteFile(filepath, []byte(transcript), 0644)` of the saving step,
with its outcome recorded. -/
def writeTranscript (path transcript : String) (w : World) : Option String × World :=
  match osWriteFile w.fs path transcript with
  | (some err, fs) => (some err, { w with fs := fs }.log (.result "writeTranscript" false))
  | (none, fs) => (none, { w with fs := fs }.log (.result "writeTranscript" true))

/-- Steps 2 and 3 shared by `processJob` (main.go:265-293) and
`processJobResume` (main.go:374-399): transcribe, save the result, complete. -/
def transcribeAndSave (E : Env) (job : Job) (audioFile filename path : String) (w : World) :
    JobRes :=
  match transcribeAudio E audioFile w with
  | .panic r w => .panicked r job w
  | .ret (.error err) w =>
    let u := updateJobStatusDetailed E job "error" 0 100 0 ("Transcription failed: " ++ err) w
    .finished u.1 u.2
  | .ret (.ok transcript) w =>
    let u := updateJobStatusDetailed E job "saving" 90 100 90 "" w
    match writeTranscript path transcript u.2 with
    | (some err, w) =>
      let u1 := updateJobStatusDetailed E u.1 "error" 0 100 0 ("Save failed: " ++ err) w
      .finished u1.1 u1.2
    | (none, w) =>
      let c := completeJob E u.1 transcript filename w
      .finished c.1 c.2

/-- The block "Copy audio to data directory for serving" (main.go:250-260,
322-326, 344-348): when the copy succeeds the job's AudioFile is set. -/
def publishAudio (job : Job) (audioFile audioFilename audioPath : String) (w : World) :
    Job × World :=
  match copyFile audioFile audioPath w with
  | (none, w) => ({ job with AudioFile := "/files/" ++ audioFilename }, w)
  | (some _, w) => (job, w)

/-- The body of `processJob` (main.go:235-293). -/
def processJobBody (E : Env) (job : Job) (url : String) (w : World) : JobRes :=
  let u0 := updateJobStatusDetailed E job "fetching_info" 10 0 0 "" w
  match extractVideoMetadata E u0.1 url u0.2 with
  | .panic r w => .panicked r u0.1 w
  | .ret (job, _) w =>
    let u1 := updateJobStatusDetailed E job "downloading" 25 0 0 "" w
    match downloadAudio E u1.1.ID url u1.2 with
    | .panic r w => .panicked r u1.1 w
    | .ret (.error err) w =>
      let u2 := updateJobStatusDetailed E u1.1 "error" 0 0 0 ("Download failed: " ++ err) w
      .finished u2.1 u2.2
    | .ret (.ok audioFile) w =>
      let audioFilename := u1.1.ID ++ ".wav"
      let audioPath := filepathJoin "/data" audioFilename
      let p := publishAudio u1.1 audioFile audioFilename audioPath w
      let u2 := updateJobStatusDetailed E p.1 "transcribing" 50 100 0 "" p.2
      let filename := u2.1.ID ++ ".txt"
      transcribeAndSave E u2.1 audioFile filename (filepathJoin "/data" filename) u2.2

/-- Source `processJob` (main.go:228-294): the body under its deferred
`recover`. -/
def processJob (E : Env) (job : Job) (url : String) (w : World) : Job × World :=
  match processJobBody E job url w with
  | .finished job w => (job, w)
  | .panicked r job w =>
    updateJobStatusDetailed E job "error" 0 0 0 ("Internal error: " ++ r) w

/-- How the first part of `processJobResume` ends: with the audio file to
transcribe, with the run over (an error has been recorded), or in a panic. -/
inductive AudioRes where
  | ready (job : Job) (audioFile : String) (w : World)
  | ended (job : Job) (w : World)
  | panicked (r : String) (job : Job) (w : World)

/-- The branch "Need to re-download audio" of `processJobResume`
(main.go:329-351). -/
def redownloadAudio (E : Env) (job : Job) (audioFilename audioPath : String) (w : World) :
    AudioRes :=
  if job.URL = "" then
    let u := updateJobStatusDetailed E job "error" 0 0 0 "Cannot resume: original URL not saved" w
    .ended u.1 u.2
  else
    let u := updateJobStatusDetailed E job "downloading" 25 0 0 "" w
    match downloadAudio E u.1.ID u.1.URL u.2 with
    | .panic r w => .panicked r u.1 w
    | .ret (.error err) w =>
      let u1 := updateJobStatusDetailed E u.1 "error" 0 0 0 ("Download failed: " ++ err) w
      .ended u1.1 u1.2
    | .ret (.ok downloadedAudio) w =>
      let p := publishAudio u.1 downloadedAudio audioFilename audioPath w
      let u1 := updateJobStatusDetailed E p.1 "transcribing" 50 100 0 "" p.2
      .ready u1.1 downloadedAudio u1.2

/-- The first part of `processJobResume` (main.go:306-352): find or fetch the
audio. -/
def resumeAudio (E : Env) (job : Job) (w : World) : AudioRes :=
  let audioFilename := job.ID ++ ".wav"
  let audioPath := filepathJoin "/data" audioFilename
  let tmpAudioPath := filepathJoin "/tmp" (job.ID ++ ".wav")
  match osStat w.fs audioPath with
  | .ok _ =>
    let u := updateJobStatusDetailed E job "transcribing" 50 100 0 "" w
    .ready u.1 audioPath u.2
  | .error _ =>
    match osStat w.fs tmpAudioPath with
    | .ok _ =>
      let p := publishAudio job tmpAudioPath audioFilename audioPath w
      let u := updateJobStatusDetailed E p.1 "transcribing" 50 100 0 "" p.2
      .ready u.1 tmpAudioPath u.2
    | .error _ => redownloadAudio E job audioFilename audioPath w

/-- The transcript already on disk, if `os.Stat` and `os.ReadFile` both
succeed on it (main.go:357-359). -/
def existingTranscript (fs : FileSys) (path : String) : Option String :=
  match osStat fs path with
  | .ok _ =>
    match osReadFile fs path with
    | .ok data => some data
    | .error _ => none
  | .error _ => none

/-- The body of `processJobResume` (main.go:304-399). -/
def processJobResumeBody (E : Env) (job : Job) (w : World) : JobRes :=
  match resumeAudio E job w with
  | .panicked r job w => .panicked r job w
  | .ended job w => .finished job w
  | .ready job audioFile w =>
    let filename := job.ID ++ ".txt"
    let path := filepathJoin "/data" filename
    match existingTranscript w.fs path with
    | some data =>
      let c := completeJob E job data filename w
      .finished c.1 c.2
    | none => transcribeAndSave E job audioFile filename path w

/-- Source `processJobResume` (main.go:296-400): the body under its deferred
`recover`. -/
def processJobResume (E : Env) (job : Job) (w : World) : Job × World :=
  match processJobResumeBody E job w with
  | .finished job w => (job, w)
  | .panicked r job w =>
    updateJobStatusDetailed E job "error" 0 0 0 ("Internal error during resume: " ++ r) w

/-! ## Concrete environments and inputs -/

/-- The disk `fs` with a file of the given size and data put at `path`. -/
def FileSys.put (fs : FileSys) (path : String) (size : Nat) (data : String) : FileSys :=
  { fs with file := fun p => if p = path then some ⟨size, data⟩ else fs.file p }

/-- A job as `handleJob` creates it, before any processing. -/
def sampleJob : Job := newJob "j1" "https://youtu.be/abc123" 0

/-- An environment for a video whose audio track is 393 seconds of silence:
the download leaves a 12 MiB wave file, `ffmpeg` cuts segments of up to 120
seconds (a segment starting past the end holds only a header), and `whisper`
writes an empty transcript for every file. -/
def silentEnv : Env :=
  { jsonMarshalIndent := fun job => .ok ("\x7b\"id\": \"" ++ job.ID ++ "\"\x7d")
    ytdlpDumpJson := fun _ fs => .returned (.ok "\x7b\"title\": \"Silence\"\x7d") fs
    jsonUnmarshal := fun _ => .ok ⟨"Silence", "", "", 393, "", "uploader"⟩
    ytdlpFfmpeg := fun _ tmpFile fs => .returned .success (fs.put tmpFile 12582912 "RIFF")
    ffmpegSegment := fun _ startTime _ chunkFile fs =>
      .returned none (fs.put chunkFile (if startTime < 393 then 3840078 else 78) "RIFF")
    whisper := fun audioFile dir fs =>
      .returned none
        (fs.put (filepathJoin dir (trimSuffix (filepathBase audioFile) ".wav" ++ ".txt")) 1 "\n") }

/-- An environment for a short video with speech: the download leaves a 1 MB
wave file and `whisper` writes a transcript. -/
def speechEnv : Env :=
  { silentEnv with
    ytdlpFfmpeg := fun _ tmpFile fs => .returned .success (fs.put tmpFile 1000000 "RIFF")
    whisper := fun audioFile dir fs =>
      .returned none
        (fs.put (filepathJoin dir (trimSuffix (filepathBase audioFile) ".wav" ++ ".txt")) 13
          " hello world\n") }

/-- An environment without network: `yt-dlp` exits with an error. -/
def offlineEnv : Env :=
  { silentEnv with
    ytdlpDumpJson := fun _ fs => .returned (.error "exit status 1") fs
    ytdlpFfmpeg := fun _ _ fs => .returned (.ytdlpWaitErr "exit status 1") fs }

/-- A disk with no files on which every path can be read and written. -/
def emptyDisk : FileSys :=
  { file := fun _ => none, readable := fun _ => true, writable := fun _ => true }

/-- The server right after start with nothing on disk. -/
def freshServer : Server :=
  { jobs := [], jobQueue := [], spawned := [], fs := emptyDisk }

/-- The world at the start of a run on an empty disk. -/
def freshWorld : World := { fs := emptyDisk, trace := [] }

/-- The writes of the lifecycle fields among the events of a run, in order. -/
def statusWrites : List Event → List (String × Int × Int × Int)
  | [] => []
  | .statusWrite s p a t :: rest => (s, p, a, t) :: statusWrites rest
  | _ :: rest => statusWrites rest

/-- A job in state "error" carries a message and has overall progress 0. -/
def ErrorInvariant (job : Job) : Prop :=
  job.Status = "error" → job.Error ≠ "" ∧ job.Progress = 0

/-- Where a run body has ended, the job it leaves satisfies `P`; where it
panicked, nothing is asked. -/
def JobRes.FinishedWith (P : Job → Prop) : JobRes → Prop
  | .finished job _ => P job
  | .panicked _ _ _ => True

/-- The last write of the lifecycle fields in the record of the run `w` is
the state of these fields in `job`. -/
def LastWrite (job : Job) (w : World) : Prop :=
  (statusWrites w.trace).getLast? = some job.lifecycle

/-- Where a run body has ended, the job and the world it leaves satisfy `P`;
where it panicked, nothing is asked. -/
def JobRes.FinishedIn (P : Job → World → Prop) : JobRes → Prop
  | .finished job w => P job w
  | .panicked _ _ _ => True

/-- A job in state "done" has all three progress fields at 100 and a
transcript-file reference. -/
def DoneInvariant (job : Job) : Prop :=
  job.Status = "done" →
    job.Progress = 100 ∧ job.AudioProgress = 100 ∧ job.TranscriptProgress = 100 ∧ job.File ≠ ""

/-- The world a pipeline function leaves behind, returning or panicking. -/
def Res.world {α : Type} : Res α → World
  | .ret _ w => w
  | .panic _ w => w

/-- The events `processJob` can record after the transcribing state is
entered when `transcribeAndSave` returns: transcription fails, the transcript
write fails, or the job completes. -/
def saveTraces : List (List Event) :=
  [[.invoke "transcribeAudio", .result "transcribeAudio" false, .statusWrite "error" 0 100 0],
   [.invoke "transcribeAudio", .result "transcribeAudio" true, .statusWrite "saving" 90 100 90,
    .result "writeTranscript" false, .statusWrite "error" 0 100 0],
   [.invoke "transcribeAudio", .result "transcribeAudio" true, .statusWrite "saving" 90 100 90,
    .result "writeTranscript" true, .statusWrite "done" 100 100 100]]

/-- Every sequence of events a run of `processJob` can record: a panic in one
of the three stages followed by the recovery, a failed download, or one of
`saveTraces` after a download; `m` is whether metadata extraction returned
without error. -/
def processJobTraces : List (List Event) :=
  [[.statusWrite "fetching_info" 10 0 0, .invoke "extractVideoMetadata",
    .statusWrite "error" 0 0 0]] ++
  [true, false].flatMap (fun m =>
    let start : List Event :=
      [.statusWrite "fetching_info" 10 0 0, .invoke "extractVideoMetadata",
       .result "extractVideoMetadata" m, .statusWrite "downloading" 25 0 0,
       .invoke "downloadAudio"]
    let audio : List Event :=
      start ++ [.result "downloadAudio" true, .statusWrite "transcribing" 50 100 0]
    [start ++ [.statusWrite "error" 0 0 0],
     start ++ [.result "downloadAudio" false, .statusWrite "error" 0 0 0],
     audio ++ [.invoke "transcribeAudio", .statusWrite "error" 0 0 0]] ++
    saveTraces.map (fun t => audio ++ t))

/-- The value a pipeline function returns, if it returns. -/
def Res.value? {α : Type} : Res α → Option α
  | .ret v _ => some v
  | .panic _ _ => none

/-- What transcribing one segment gives: a text, a failure, or a panic. -/
inductive SegOutcome where
  | text (t : String)
  | failure (err : String)
  | panic (r : String)
deriving DecidableEq, Repr

/-- Whether the outcome is a panic. -/
def SegOutcome.isPanic : SegOutcome → Bool
  | .panic _ => true
  | _ => false

/-- The outcomes of the calls `transcribeAudioDirect(chunk)` that the loop of
`transcribeAudioChunked` makes, in order, each in the world the loop has
reached by then; a panic ends the loop. -/
def segmentOutcomes (E : Env) : List String → World → List SegOutcome
  | [], _ => []
  | chunk :: rest, w =>
    match transcribeAudioDirect E chunk w with
    | .panic r _ => [.panic r]
    | .ret (.error err) w => .failure err :: segmentOutcomes E rest w
    | .ret (.ok text) w =>
      .text text :: segmentOutcomes E rest { w with fs := osRemove w.fs chunk }

/-- The texts of the successful segments, in order. -/
def successTexts : List SegOutcome → List String
  | [] => []
  | .text t :: rest => t :: successTexts rest
  | _ :: rest => successTexts rest

/-- The characters are not empty and neither the first nor the last is white
space. -/
def isTrimmedChars (l : List Char) : Bool :=
  match l.head?, l.getLast? with
  | some a, some b => !isSpace a && !isSpace b
  | _, _ => false

/-- The text is non-empty and has no leading or trailing white space. -/
def isTrimmed (t : String) : Bool := isTrimmedChars t.toList

/-- An environment for a 12 MiB recording of 393 seconds of speech: `ffmpeg`
cuts it into four segments, and `whisper` writes a transcript for each except
the third, on which it exits with an error. -/
def lectureEnv : Env :=
  { silentEnv with
    whisper := fun audioFile dir fs =>
      if hasSuffix audioFile "_chunk_2.wav" then .returned (some "exit status 1") fs
      else
        .returned none
          (fs.put (filepathJoin dir (trimSuffix (filepathBase audioFile) ".wav" ++ ".txt")) 20
            (" text of " ++ filepathBase audioFile ++ "\n")) }

/-- A world whose disk holds the downloaded audio of job "j1". -/
def lectureWorld : World :=
  { fs := emptyDisk.put "/tmp/j1.wav" 12582912 "RIFF", trace := [] }

/-- The four segments `splitAudioFile` cuts from "/tmp/j1.wav" in
`lectureEnv`. -/
def lectureChunks : List String :=
  ["/tmp/j1_chunk_0.wav", "/tmp/j1_chunk_1.wav", "/tmp/j1_chunk_2.wav", "/tmp/j1_chunk_3.wav"]

/-- The disk `fs1` still has the file at `path` as `fs` has it, the same
permissions, and every file of `fs`. -/
def Preserves (path : String) (fs fs1 : FileSys) : Prop :=
  fs1.file path = fs.file path ∧ fs1.readable = fs.readable ∧ fs1.writable = fs.writable ∧
    ∀ p, (fs.file p).isSome = true → (fs1.file p).isSome = true

/-- The job and world with which `processJobResume` reaches the transcript
check when an audio file is on disk: as they are when the public audio file
exists, after `publishAudio` of the temporary one otherwise. -/
def resumePrepared (job : Job) (w : World) : Job × World :=
  match osStat w.fs (filepathJoin "/data" (job.ID ++ ".wav")) with
  | .ok _ => (job, w)
  | .error _ =>
    publishAudio job (filepathJoin "/tmp" (job.ID ++ ".wav")) (job.ID ++ ".wav")
      (filepathJoin "/data" (job.ID ++ ".wav")) w

/-- A job like `sampleJob` whose URL was not saved. -/
def sampleJobNoURL : Job := { sampleJob with URL := "" }

/-- A world whose disk holds the transcript of job "j1" and no audio file. -/
def transcriptOnlyWorld : World :=
  { fs := emptyDisk.put "/data/j1.txt" 5 "hello", trace := [] }

/-- A world whose disk holds the public audio file and the transcript of job
"j1". -/
def resumeWorld : World :=
  { fs := (emptyDisk.put "/data/j1.wav" 1000000 "RIFF").put "/data/j1.txt" 5 "hello",
    trace := [] }

/-- The world `resumeWorld` with a transcript file the process may not
read. -/
def unreadableWorld : World :=
  { fs := { resumeWorld.fs with readable := fun p => p != "/data/j1.txt" }, trace := [] }

/-- A job like `sampleJob` that finished long ago. -/
def oldDoneJob : Job := { sampleJob with ID := "j2", Status := "done", Created := 100 }

/-- A job map with a queued job and an old finished one. -/
def sampleMap : List (String × Job) := [("j1", sampleJob), ("j2", oldDoneJob)]

/-! ## Persistence of job records

`encoding/json` is split in two: the text of a JSON object (a `JsonCodec`;
`goJson` below is the text Go writes and reads) and the mapping between a
`Job` and the members of its object, which the struct tags of `Job` fix and
which is defined here. -/

/-- The value of a member of the JSON object of a `Job` as `encoding/json`
writes it from, or reads it for, a field of the record: a string, an integer
number, an RFC 3339 time (its instant), null, or anything else. -/
inductive JsonValue where
  | str (s : String)
  | num (n : Int)
  | time (t : Int)
  | null
  | other
deriving DecidableEq, Repr

/-- The member for a string field; with `omitempty` an empty string is left
out. -/
def memberStr (name : String) (omitempty : Bool) (s : String) : List (String × JsonValue) :=
  if omitempty && s == "" then [] else [(name, .str s)]

/-- The member for an `int` field; with `omitempty` a zero is left out. -/
def memberInt (name : String) (omitempty : Bool) (n : Int) : List (String × JsonValue) :=
  if omitempty && n == 0 then [] else [(name, .num n)]

/-- The members `json.Marshal` writes for a `Job`, in field order, from the
struct tags (main.go:18-37). -/
def jobToJson (job : Job) : List (String × JsonValue) :=
  memberStr "id" false job.ID ++
  memberStr "status" false job.Status ++
  memberStr "url" true job.URL ++
  memberStr "file" true job.File ++
  memberStr "audio_file" true job.AudioFile ++
  memberStr "text" true job.Text ++
  memberInt "progress" false job.Progress ++
  memberInt "audio_progress" false job.AudioProgress ++
  memberInt "transcript_progress" false job.TranscriptProgress ++
  memberStr "error" true job.Error ++
  [("created", .time job.Created)] ++
  memberStr "title" true job.Title ++
  memberStr "description" true job.Description ++
  memberStr "thumbnail" true job.Thumbnail ++
  memberInt "duration" true job.Duration ++
  memberStr "channel_name" true job.ChannelName

/-- Case folding of one character of a key: `encoding/json` matches keys to
field names without regard to case, the Kelvin sign and the long s counting as
k and s. -/
def foldRune (c : Char) : Char :=
  if 65 ≤ c.toNat && c.toNat ≤ 90 then Char.ofNat (c.toNat + 32)
  else if c.toNat = 0x212A then 'k'
  else if c.toNat = 0x17F then 's'
  else c

/-- A key folded for matching. -/
def foldName (key : String) : String := String.mk (key.toList.map foldRune)

/-- The zero `time.Time`, 0001-01-01T00:00:00Z, as an instant. -/
def zeroTime : Int := -62135596800000000000

/-- The zero value of `Job` (`var job Job`). -/
def zeroJob : Job :=
  { ID := "", Status := "", URL := "", File := "", AudioFile := "", Text := "",
    Progress := 0, AudioProgress := 0, TranscriptProgress := 0, Error := "",
    Created := zeroTime, Title := "", Description := "", Thumbnail := "", Duration := 0,
    ChannelName := "" }

/-- A member decoded into a string field: a string is stored, null leaves the
field, anything else is an error. -/
def decodeStr (job : Job) (v : JsonValue) (set : String → Job) : Except String Job :=
  match v with
  | .str s => .ok (set s)
  | .null => .ok job
  | _ => .error "json: cannot unmarshal value into Go struct field of type string"

/-- A member decoded into an `int` field. -/
def decodeInt (job : Job) (v : JsonValue) (set : Int → Job) : Except String Job :=
  match v with
  | .num n => .ok (set n)
  | .null => .ok job
  | _ => .error "json: cannot unmarshal value into Go struct field of type int"

/-- A member decoded into a `time.Time` field. -/
def decodeTime (job : Job) (v : JsonValue) (set : Int → Job) : Except String Job :=
  match v with
  | .time t => .ok (set t)
  | .null => .ok job
  | _ => .error "parsing time: cannot parse value as RFC 3339"

/-- One member of the object assigned to the record being decoded; a key that
matches no field is ignored. -/
def assignMember (job : Job) (m : String × JsonValue) : Except String Job :=
  let key := foldName m.1
  if key = "id" then decodeStr job m.2 (fun s => { job with ID := s })
  else if key = "status" then decodeStr job m.2 (fun s => { job with Status := s })
  else if key = "url" then decodeStr job m.2 (fun s => { job with URL := s })
  else if key = "file" then decodeStr job m.2 (fun s => { job with File := s })
  else if key = "audio_file" then decodeStr job m.2 (fun s => { job with AudioFile := s })
  else if key = "text" then decodeStr job m.2 (fun s => { job with Text := s })
  else if key = "progress" then decodeInt job m.2 (fun n => { job with Progress := n })
  else if key = "audio_progress" then
    decodeInt job m.2 (fun n => { job with AudioProgress := n })
  else if key = "transcript_progress" then
    decodeInt job m.2 (fun n => { job with TranscriptProgress := n })
  else if key = "error" then decodeStr job m.2 (fun s => { job with Error := s })
  else if key = "created" then decodeTime job m.2 (fun t => { job with Created := t })
  else if key = "title" then decodeStr job m.2 (fun s => { job with Title := s })
  else if key = "description" then decodeStr job m.2 (fun s => { job with Description := s })
  else if key = "thumbnail" then decodeStr job m.2 (fun s => { job with Thumbnail := s })
  else if key = "duration" then decodeInt job m.2 (fun n => { job with Duration := n })
  else if key = "channel_name" then decodeStr job m.2 (fun s => { job with ChannelName := s })
  else .ok job

/-- The members of an object assigned in order to a record. -/
def assignMembers : Job → List (String × JsonValue) → Except String Job
  | job, [] => .ok job
  | job, m :: rest =>
    match assignMember job m with
    | .error err => .error err
    | .ok job1 => assignMembers job1 rest

/-- What `json.Unmarshal` makes of the members of an object, into a zero
`Job`. -/
def jobFromJson (obj : List (String × JsonValue)) : Except String Job :=
  assignMembers zeroJob obj

/-- The text layer of `encoding/json`: the text written for the members of an
object (an error when a value cannot be written, as for a time whose year is
outside 0..9999) and the members read from a text. -/
structure JsonCodec where
  render : List (String × JsonValue) → Except String String
  parse : String → Except String (List (String × JsonValue))

/-- `json.MarshalIndent(job, "", "  ")` over a text layer. -/
def jsonMarshalJob (C : JsonCodec) (job : Job) : Except String String :=
  C.render (jobToJson job)

/-- `json.Unmarshal(data, &job)` over a text layer. -/
def jsonUnmarshalJob (C : JsonCodec) (data : String) : Except String Job :=
  match C.parse data with
  | .error err => .error err
  | .ok obj => jobFromJson obj

/-- The environment `E` with `encoding/json` over the text layer `C`. -/
def Env.withJson (E : Env) (C : JsonCodec) : Env :=
  { E with
    jsonMarshalIndent := VTranscribe.jsonMarshalJob C
    jsonUnmarshalJob := VTranscribe.jsonUnmarshalJob C }

/-- One iteration of the loop of `loadJobsFromDisk` (main.go:758-789) on the
directory entry `name`. `acc` holds the job map and the records for which
`go processJobResume(&job)` has been started. -/
def loadJobFile (E : Env) (fs : FileSys) (jobsDir : String)
    (acc : List (String × Job) × List Job) (name : String) :
    List (String × Job) × List Job :=
  if !hasSuffix name ".json" then acc
  else
    let jobFile := filepathJoin jobsDir name
    match osReadFile fs jobFile with
    | .error _ => acc
    | .ok data =>
      match E.jsonUnmarshalJob data with
      | .error _ => acc
      | .ok job =>
        if job.Status != "done" && job.Status != "error" then
          let job1 : Job := { job with Status := "queued" }
          (mapStore acc.1 job.ID job1, acc.2 ++ [job1])
        else (mapStore acc.1 job.ID job, acc.2)

/-- Source `loadJobsFromDisk` (main.go:749-794): the state afterwards and the
records whose resumption has been started. -/
def loadJobsFromDisk (E : Env) (s : Server) : Server × List Job :=
  let jobsDir := "/data/jobs"
  match E.osReadDir jobsDir s.fs with
  | .error _ => (s, [])
  | .ok files =>
    let r := files.foldl (loadJobFile E s.fs jobsDir) (s.jobs, [])
    ({ s with jobs := r.1 }, r.2)

/-- The start of one iteration of `backgroundWorker` (main.go:724-739): a job
id is received from the queue and, when the job is in the map, its Status is
set to "processing". Nothing happens while the queue is empty. -/
def workerReceive (s : Server) : Option (Server × Option (String × Job)) :=
  match s.jobQueue with
  | [] => none
  | jobID :: rest =>
    match mapLookup s.jobs jobID with
    | none => some ({ s with jobQueue := rest }, none)
    | some job =>
      let job1 : Job := { job with Status := "processing" }
      some ({ s with jobQueue := rest, jobs := mapStore s.jobs jobID job1 }, some (jobID, job1))

/-- One iteration of `backgroundWorker` (main.go:724-745). -/
def backgroundWorkerStep (E : Env) (s : Server) : Server :=
  match workerReceive s with
  | none => s
  | some (s1, none) => s1
  | some (s1, some (jobID, job)) =>
    let r := processJob E job job.URL { fs := s1.fs, trace := [] }
    { s1 with jobs := mapStore s1.jobs jobID r.1, fs := r.2.fs }

/-- The record the loop of `loadJobsFromDisk` decodes from the directory entry
`name`, if the name ends in ".json" and the file can be read and decoded. -/
def fileRecord (E : Env) (fs : FileSys) (jobsDir name : String) : Option Job :=
  if !hasSuffix name ".json" then none
  else
    match osReadFile fs (filepathJoin jobsDir name) with
    | .error _ => none
    | .ok data =>
      match E.jsonUnmarshalJob data with
      | .error _ => none
      | .ok job => some job

/-- A member value written as text. -/
def showValue : JsonValue → String
  | .str s => "\"" ++ s ++ "\""
  | .num n => toString n
  | .time t => "@" ++ toString t
  | .null => "null"
  | .other => "?"

/-- The members of an object written as text, one member a line. -/
def plainRender (obj : List (String × JsonValue)) : String :=
  String.join (obj.map (fun m => m.1 ++ ": " ++ showValue m.2 ++ "\n"))

/-- A text layer that writes objects with `plainRender` and reads back the
texts of the objects of the jobs in `known`. -/
def tableCodec (known : List Job) : JsonCodec :=
  { render := fun obj => .ok (plainRender obj)
    parse := fun text =>
      match (known.map jobToJson).find? (fun obj => plainRender obj == text) with
      | some obj => .ok obj
      | none => .error "invalid character looking for beginning of value" }

/-- The environment `silentEnv` with a jobs directory that lists the file of
job "j1" and a file that is no job record. -/
def restartEnv : Env :=
  { silentEnv with osReadDir := fun _ _ => .ok ["j1.json", "notes.txt"] }

/-- Whether the persisted file /data/jobs/<id>.json of the job holds exactly
the record `job`: the file exists and its data is the JSON text of `job`. -/
def isPersisted (E : Env) (job : Job) (fs : FileSys) : Bool :=
  match E.jsonMarshalIndent job with
  | .error _ => false
  | .ok data =>
    (fs.file (filepathJoin "/data/jobs" (job.ID ++ ".json"))).map File.data == some data

/-- The environment `silentEnv` with a JSON text that shows every member of
the object of a job. -/
def recordEnv : Env := silentEnv.withJson (tableCodec [])

/-- The request that submits the URL of `sampleJob`. -/
def sampleRequest : Request := { method := "POST", payload := some "https://youtu.be/abc123" }

/-! ## Reachable states

The states of the server are those `main` can be in: the job map after
`loadJobsFromDisk`, then any interleaving of submissions, receptions by the
background worker and runs of `processJob` and `processJobResume` on jobs of
the map. A run mutates the record the map points to, so the map shows every
value a run writes. -/

/-- The values of Status of the job lifecycle. -/
def lifecycleStatuses : List String :=
  ["queued", "fetching_info", "downloading", "transcribing", "saving", "done", "error"]

/-- The values the code assigns to Status: those of the lifecycle and
"processing", assigned by `backgroundWorker` (main.go:738). -/
def assignedStatuses : List String := "processing" :: lifecycleStatuses

/-- The values of Status written in the course of a run, in order. -/
def writtenStatuses (t : List Event) : List String := (statusWrites t).map Prod.fst

/-- The record of `w1` continues that of `w` with events whose writes of
Status are values of the lifecycle. -/
def TraceExtends (w w1 : World) : Prop :=
  ∃ t, w1.trace = w.trace ++ t ∧ ∀ st ∈ writtenStatuses t, st ∈ lifecycleStatuses

/-- The world a run body leaves behind, finished or panicking. -/
def JobRes.world : JobRes → World
  | .finished _ w => w
  | .panicked _ _ w => w

/-- The world the first part of `processJobResume` leaves behind. -/
def AudioRes.world : AudioRes → World
  | .ready _ _ w => w
  | .ended _ w => w
  | .panicked _ _ w => w

/-- The states of the server reachable from the start of `main`. In the two
`Write` rules the record in the map is shown in the middle of a run: its
Status is a value the run writes, and nothing is assumed of its other fields
or of the disk; in the two `Return` rules the run is over. A run takes place
on any disk, other runs writing to it meanwhile. -/
inductive Reachable (E : Env) : Server → Prop where
  | start (fs : FileSys) : Reachable E (loadJobsFromDisk E ⟨[], [], [], fs⟩).1
  | submit (s : Server) (r : Request) (rnd : Nat → Nat) (now : Int) :
    Reachable E s → Reachable E (handleJob r rnd now s).2
  | receive (s s1 : Server) (r : Option (String × Job)) :
    Reachable E s → workerReceive s = some (s1, r) → Reachable E s1
  | processJobWrite (s : Server) (id : String) (job : Job) (url : String) (fs : FileSys)
      (st : String) (j1 : Job) (fs1 : FileSys) :
    Reachable E s → mapLookup s.jobs id = some job →
    st ∈ writtenStatuses (processJob E job url ⟨fs, []⟩).2.trace → j1.Status = st →
    Reachable E ⟨mapStore s.jobs id j1, s.jobQueue, s.spawned, fs1⟩
  | processJobReturn (s : Server) (id : String) (job : Job) (url : String) (fs : FileSys) :
    Reachable E s → mapLookup s.jobs id = some job →
    Reachable E ⟨mapStore s.jobs id (processJob E job url ⟨fs, []⟩).1, s.jobQueue, s.spawned,
      (processJob E job url ⟨fs, []⟩).2.fs⟩
  | processJobResumeWrite (s : Server) (id : String) (job : Job) (fs : FileSys)
      (st : String) (j1 : Job) (fs1 : FileSys) :
    Reachable E s → mapLookup s.jobs id = some job →
    st ∈ writtenStatuses (processJobResume E job ⟨fs, []⟩).2.trace → j1.Status = st →
    Reachable E ⟨mapStore s.jobs id j1, s.jobQueue, s.spawned, fs1⟩
  | processJobResumeReturn (s : Server) (id : String) (job : Job) (fs : FileSys) :
    Reachable E s → mapLookup s.jobs id = some job →
    Reachable E ⟨mapStore s.jobs id (processJobResume E job ⟨fs, []⟩).1, s.jobQueue, s.spawned,
      (processJobResume E job ⟨fs, []⟩).2.fs⟩

/-- The state after `sampleRequest` has been submitted to a fresh server. -/
def submittedState : Server := (handleJob sampleRequest (fun _ => 0) 5 freshServer).2

/-- The state after the background worker has received the job of
`submittedState` from the queue. -/
def receivedState : Server :=
  match workerReceive submittedState with
  | some (s1, _) => s1
  | none => submittedState


/-! ## The text of `encoding/json` and of `time.Time`

What `json.MarshalIndent(job, "", "  ")` writes for the members of the object
of a `Job` and what `json.Unmarshal` reads from a text, character by
character. A Lean `String` stands for a Go string that is valid UTF-8; a Go
string in general is a list of `GoUnit`. -/

/-- The double quote. -/
def dquote : Char := Char.ofNat 34

/-- The backslash. -/
def bslash : Char := Char.ofNat 92

/-- The opening brace. -/
def lbrace : Char := Char.ofNat 123

/-- The closing brace. -/
def rbrace : Char := Char.ofNat 125

/-- The line feed. -/
def newline : Char := Char.ofNat 10

/-- The replacement character U+FFFD. -/
def replacementChar : Char := Char.ofNat 0xFFFD

/-- One step of Go's reading of a string as UTF-8 (`utf8.DecodeRuneInString`):
a character, or a byte that begins no valid encoding. -/
inductive GoUnit where
  | rune (c : Char)
  | invalid (byte : Nat)
deriving DecidableEq, Repr

/-- A string that is valid UTF-8, as Go reads it. -/
def goString (s : String) : List GoUnit := s.toList.map GoUnit.rune

/-- The six-character escape of a code below 0x10000: backslash, `u` and
four lowercase hex digits. -/
def escapeU (n : Nat) : List Char :=
  [bslash, 'u', hexDigit (n / 4096 % 16), hexDigit (n / 256 % 16), hexDigit (n / 16 % 16),
    hexDigit (n % 16)]

/-- What `encoding/json` writes for one character of a string, with HTML
escaping as `json.Marshal` has it: quote and backslash after a backslash, the
short escapes of backspace, form feed, line feed, carriage return and tab
(Go 1.22 and later), a six-character escape for the other control characters,
for `<`, `>`, `&` and for the separators U+2028 and U+2029, any other
character as it is. -/
def jsonEscapeRune (c : Char) : List Char :=
  if c = dquote ∨ c = bslash then [bslash, c]
  else if c.toNat = 8 then [bslash, 'b']
  else if c.toNat = 12 then [bslash, 'f']
  else if c.toNat = 10 then [bslash, 'n']
  else if c.toNat = 13 then [bslash, 'r']
  else if c.toNat = 9 then [bslash, 't']
  else if c.toNat < 32 ∨ c = '<' ∨ c = '>' ∨ c = '&' ∨ c.toNat = 0x2028 ∨ c.toNat = 0x2029 then
    escapeU c.toNat
  else [c]

/-- What `encoding/json` writes for one step of a Go string: a byte that is
not valid UTF-8 is written as the escape of U+FFFD. -/
def jsonEscapeUnit : GoUnit → List Char
  | .rune c => jsonEscapeRune c
  | .invalid _ => escapeU 0xFFFD

/-- A Go string written as a JSON string literal. -/
def jsonQuote (s : List GoUnit) : List Char :=
  dquote :: (s.flatMap jsonEscapeUnit ++ [dquote])

/-- The text of a string literal after its opening quote: the characters up
to the closing quote, a backslash taking the next character with it, and what
follows the closing quote. -/
def scanString : List Char → Option (List Char × List Char)
  | [] => none
  | c :: rest =>
    if c = dquote then some ([], rest)
    else if c = bslash then
      match rest with
      | [] => none
      | e :: rest1 => (scanString rest1).map (fun r => (c :: e :: r.1, r.2))
    else (scanString rest).map (fun r => (c :: r.1, r.2))

/-- The value of a hexadecimal digit. -/
def hexVal (c : Char) : Option Nat :=
  if 48 ≤ c.toNat ∧ c.toNat ≤ 57 then some (c.toNat - 48)
  else if 97 ≤ c.toNat ∧ c.toNat ≤ 102 then some (c.toNat - 87)
  else if 65 ≤ c.toNat ∧ c.toNat ≤ 70 then some (c.toNat - 55)
  else none

/-- The value of four hexadecimal digits (`getu4`). -/
def hex4 (a b c d : Char) : Option Nat :=
  match hexVal a, hexVal b, hexVal c, hexVal d with
  | some x, some y, some z, some w => some (x * 4096 + y * 256 + z * 16 + w)
  | _, _, _, _ => none

/-- The character of a one-letter escape. -/
def simpleEscape (e : Char) : Option Char :=
  if e = dquote ∨ e = bslash ∨ e = '/' then some e
  else if e = 'b' then some (Char.ofNat 8)
  else if e = 'f' then some (Char.ofNat 12)
  else if e = 'n' then some (Char.ofNat 10)
  else if e = 'r' then some (Char.ofNat 13)
  else if e = 't' then some (Char.ofNat 9)
  else none

/-- What is written for a high surrogate whose partner did not follow. -/
def flushSurrogate (pending : Option Nat) (r : List Char) : List Char :=
  match pending with
  | some _ => replacementChar :: r
  | none => r

/-- The string a literal stands for, from the text between its quotes
(`unquote` of encoding/json): escapes are replaced; a high surrogate escape
is kept in `pending` and combined with a low surrogate escape that follows it
at once; a surrogate without its partner becomes U+FFFD; a control character
or an escape that is none makes the literal invalid. -/
def unquoteAux : Option Nat → List Char → Option (List Char)
  | pending, [] => some (flushSurrogate pending [])
  | pending, c :: rest =>
    if c = bslash then
      match rest with
      | [] => none
      | e :: rest1 =>
        if e = 'u' then
          match rest1 with
          | h1 :: h2 :: h3 :: h4 :: rest2 =>
            match hex4 h1 h2 h3 h4 with
            | none => none
            | some v =>
              if 0xD800 ≤ v ∧ v < 0xDC00 then
                (unquoteAux (some v) rest2).map (flushSurrogate pending)
              else if 0xDC00 ≤ v ∧ v < 0xE000 then
                match pending with
                | some hi =>
                  (unquoteAux none rest2).map
                    (fun r => Char.ofNat ((hi - 0xD800) * 1024 + (v - 0xDC00) + 0x10000) :: r)
                | none => (unquoteAux none rest2).map (fun r => replacementChar :: r)
              else (unquoteAux none rest2).map (fun r => flushSurrogate pending (Char.ofNat v :: r))
          | _ => none
        else
          match simpleEscape e with
          | none => none
          | some ch => (unquoteAux none rest1).map (fun r => flushSurrogate pending (ch :: r))
    else if c.toNat < 32 ∨ c = dquote then none
    else (unquoteAux none rest).map (fun r => flushSurrogate pending (c :: r))

/-- The string a literal stands for, from the text between its quotes. -/
def unquote (raw : List Char) : Option (List Char) := unquoteAux none raw

/-- A decimal digit. -/
def isDigit (c : Char) : Bool := decide (48 ≤ c.toNat) && decide (c.toNat ≤ 57)

/-- The value of a decimal digit. -/
def digitVal (c : Char) : Nat := c.toNat - 48

/-- The decimal digit of a number below ten. -/
def digitChar (d : Nat) : Char := Char.ofNat (48 + d)

/-- The value of a run of decimal digits. -/
def decimalValue (ds : List Char) : Nat :=
  ds.foldl (fun acc c => acc * 10 + digitVal c) 0

/-- The decimal digits of a natural number, most significant first
(`strconv.AppendInt`); `fuel` bounds their number. -/
def natDigitsAux : Nat → Nat → List Char
  | 0, _ => []
  | fuel + 1, n =>
    if n < 10 then [digitChar n] else natDigitsAux fuel (n / 10) ++ [digitChar (n % 10)]

/-- The decimal digits of a natural number. -/
def natDigits (n : Nat) : List Char := natDigitsAux (n + 1) n

/-- An integer written in decimal. -/
def intText (n : Int) : List Char :=
  if n < 0 then '-' :: natDigits n.natAbs else natDigits n.natAbs

/-- Days since 1970-01-01 of a date of the proleptic Gregorian calendar. -/
def daysFromCivil (y m d : Int) : Int :=
  let y1 := if m ≤ 2 then y - 1 else y
  let era := y1 / 400
  let yoe := y1 - era * 400
  let mp := if m > 2 then m - 3 else m + 9
  let doy := (153 * mp + 2) / 5 + d - 1
  let doe := yoe * 365 + yoe / 4 - yoe / 100 + doy
  era * 146097 + doe - 719468

/-- The century, 0 to 3, of a day of a cycle of 400 years; the last century
is one day longer. -/
def centuryOfEra (doe : Int) : Int := if doe / 36524 < 3 then doe / 36524 else 3

/-- The year, 0 to 3, of a day of a cycle of 4 years; the last year is one
day longer. -/
def yearOfCycle (doq : Int) : Int := if doq / 365 < 3 then doq / 365 else 3

/-- The year, 0 to 399, of a day of a cycle of 400 years that begin on
1 March. -/
def yearOfEra (doe : Int) : Int :=
  let c := centuryOfEra doe
  let doc := doe - 36524 * c
  let q := doc / 1461
  100 * c + 4 * q + yearOfCycle (doc - 1461 * q)

/-- The day, 0 to 365, within its year that begins on 1 March, of a day of a
cycle of 400 years. -/
def dayOfYear (doe : Int) : Int :=
  let c := centuryOfEra doe
  let doc := doe - 36524 * c
  let q := doc / 1461
  doc - 1461 * q - 365 * yearOfCycle (doc - 1461 * q)

/-- The month, 1 to 12, of the month counted from March as 0. -/
def monthOfIndex (mp : Int) : Int := if mp < 10 then mp + 3 else mp - 9

/-- The date (year, month, day) of a number of days since 1970-01-01. -/
def civilFromDays (z : Int) : Int × Int × Int :=
  let z1 := z + 719468
  let era := z1 / 146097
  let doe := z1 - era * 146097
  let yoe := yearOfEra doe
  let doy := dayOfYear doe
  let mp := (5 * doy + 2) / 153
  let d := doy - (153 * mp + 2) / 5 + 1
  let m := monthOfIndex mp
  let y := yoe + era * 400 + (if m ≤ 2 then 1 else 0)
  (y, m, d)

/-- The number of days of a month (`daysIn` of package time). -/
def daysIn (m y : Int) : Int :=
  if m = 2 then (if y % 4 = 0 ∧ (y % 100 ≠ 0 ∨ y % 400 = 0) then 29 else 28)
  else if m = 4 ∨ m = 6 ∨ m = 9 ∨ m = 11 then 30
  else 31

/-- Two decimal digits of a number below 100. -/
def pad2 (n : Nat) : List Char := [digitChar (n / 10 % 10), digitChar (n % 10)]

/-- Four decimal digits of a number below 10000. -/
def pad4 (n : Nat) : List Char :=
  [digitChar (n / 1000 % 10), digitChar (n / 100 % 10), digitChar (n / 10 % 10),
    digitChar (n % 10)]

/-- The digits of a fraction of a second of `w` digits without its trailing
zeros. -/
def fracDigits : Nat → Nat → List Char
  | 0, _ => []
  | w + 1, n => if n = 0 then [] else digitChar (n / 10 ^ w) :: fracDigits w (n % 10 ^ w)

/-- The value, in units of the `w`-th decimal place, of the first `w` digits
of a fraction (`parseNanoseconds`). -/
def fracValue : Nat → List Char → Nat
  | 0, _ => 0
  | _ + 1, [] => 0
  | w + 1, c :: rest => digitVal c * 10 ^ w + fracValue w rest

/-- The text of the zone of RFC 3339 for an offset in seconds east of UTC:
`Z` for no offset, else sign, hours and minutes, the seconds of the offset
being dropped; none when the hours exceed 23. -/
def formatZone (off : Int) : Option (List Char) :=
  if off = 0 then some ['Z']
  else
    let zone := off.natAbs / 60
    if 24 ≤ zone / 60 then none
    else
      some ((if off ≤ -60 then '-' else '+') :: (pad2 (zone / 60) ++ ':' :: pad2 (zone % 60)))

/-- The text `time.Time.MarshalJSON` writes between the quotes (layout
RFC3339Nano) for the instant `t`, in nanoseconds since 1970-01-01T00:00:00Z,
of a time whose zone is `off` seconds east of UTC; none when the year is
outside 0..9999 or the hours of the zone exceed 23. -/
def formatRFC3339 (t off : Int) : Option (List Char) :=
  let sec := t / 1000000000
  let nsec := t % 1000000000
  let loc := sec + off
  let days := loc / 86400
  let sod := loc % 86400
  let ymd := civilFromDays days
  if ymd.1 < 0 ∨ 9999 < ymd.1 then none
  else
    match formatZone off with
    | none => none
    | some zone =>
      some (pad4 ymd.1.natAbs ++ '-' :: pad2 ymd.2.1.natAbs ++ '-' :: pad2 ymd.2.2.natAbs ++
        'T' :: pad2 (sod / 3600).natAbs ++ ':' :: pad2 (sod / 60 % 60).natAbs ++
        ':' :: pad2 (sod % 60).natAbs ++
        (if nsec = 0 then [] else '.' :: fracDigits 9 nsec.natAbs) ++ zone)

/-- A number of two digits. -/
def num2 (a b : Char) : Option Nat :=
  if isDigit a && isDigit b then some (digitVal a * 10 + digitVal b) else none

/-- A number of four digits. -/
def num4 (a b c d : Char) : Option Nat :=
  if isDigit a && isDigit b && isDigit c && isDigit d then
    some (digitVal a * 1000 + digitVal b * 100 + digitVal c * 10 + digitVal d)
  else none

/-- The fraction of a second at the head of a text, in nanoseconds, and the
text after it: a period and at least one digit, else none of the text. -/
def parseFraction (s : List Char) : Nat × List Char :=
  match s with
  | c :: d :: rest =>
    if c = '.' ∧ isDigit d = true then
      (fracValue 9 (d :: rest.takeWhile isDigit), rest.dropWhile isDigit)
    else (0, s)
  | _ => (0, s)

/-- The offset in seconds east of UTC of the zone that ends a text of
RFC 3339. -/
def parseZone (s : List Char) : Option Int :=
  match s with
  | [c] => if c = 'Z' then some 0 else none
  | [sg, h1, h2, c, m1, m2] =>
    match num2 h1 h2, num2 m1 m2 with
    | some hr, some mm =>
      if (sg = '+' ∨ sg = '-') ∧ c = ':' ∧ hr ≤ 23 ∧ mm ≤ 59 then
        some (if sg = '-' then -(((hr * 60 + mm) * 60 : Nat) : Int) else (((hr * 60 + mm) * 60 : Nat) : Int))
      else none
    | _, _ => none
  | _ => none

/-- The instant, in nanoseconds since 1970-01-01T00:00:00Z, of a text of
strict RFC 3339 (`parseRFC3339` of package time, which
`time.Time.UnmarshalJSON` applies to the text between the quotes); none for
any other text. -/
def parseRFC3339 (s : List Char) : Option Int :=
  match s with
  | y1 :: y2 :: y3 :: y4 :: c1 :: m1 :: m2 :: c2 :: d1 :: d2 :: c3 :: h1 :: h2 :: c4 ::
      n1 :: n2 :: c5 :: s1 :: s2 :: rest =>
    match num4 y1 y2 y3 y4, num2 m1 m2, num2 d1 d2, num2 h1 h2, num2 n1 n2, num2 s1 s2 with
    | some year, some month, some day, some hour, some min, some sec =>
      if c1 = '-' ∧ c2 = '-' ∧ c3 = 'T' ∧ c4 = ':' ∧ c5 = ':' ∧
          1 ≤ month ∧ month ≤ 12 ∧ 1 ≤ day ∧ (day : Int) ≤ daysIn month year ∧
          hour ≤ 23 ∧ min ≤ 59 ∧ sec ≤ 59 then
        match parseZone (parseFraction rest).2 with
        | none => none
        | some off =>
          some ((daysFromCivil year month day * 86400 + hour * 3600 + min * 60 + sec - off) *
            1000000000 + (parseFraction rest).1)
      else none
    | _, _, _, _, _, _ => none
  | _ => none

/-- A value as `json.Unmarshal` finds it in a text: a string literal (the
text between its quotes and the string it stands for), an integer literal,
null, or any other value (true, false, a number with a fraction or an
exponent, an array, an object). -/
inductive JsonLit where
  | string (raw val : List Char)
  | int (n : Int)
  | null
  | other
deriving DecidableEq, Repr

/-- White space of JSON. -/
def isWs (c : Char) : Bool :=
  c.toNat == 32 || c.toNat == 9 || c.toNat == 10 || c.toNat == 13

/-- A text without its leading white space. -/
def skipWs (s : List Char) : List Char := s.dropWhile isWs

/-- The rest of a number after its integer part: an optional fraction and an
optional exponent; whether there was neither, and the text after them. -/
def parseFracExp (s : List Char) : Option (Bool × List Char) :=
  let afterFrac : Option (Bool × List Char) :=
    match s with
    | c :: rest =>
      if c = '.' then
        if rest.takeWhile isDigit = [] then none else some (false, rest.dropWhile isDigit)
      else some (true, s)
    | [] => some (true, s)
  match afterFrac with
  | none => none
  | some (plain, s1) =>
    match s1 with
    | c :: rest =>
      if c = 'e' ∨ c = 'E' then
        let rest1 :=
          match rest with
          | sg :: rest2 => if sg = '+' ∨ sg = '-' then rest2 else rest
          | [] => rest
        if rest1.takeWhile isDigit = [] then none else some (false, rest1.dropWhile isDigit)
      else some (plain, s1)
    | [] => some (plain, s1)

/-- A number at the head of a text: an integer literal gives its value, a
number with a fraction or an exponent is another value; a leading zero before
a digit is invalid. -/
def parseNumber (s : List Char) : Option (JsonLit × List Char) :=
  let neg := decide (s.head? = some '-')
  let body := if neg then s.tail else s
  let ds := body.takeWhile isDigit
  if ds = [] then none
  else if ds.head? = some '0' ∧ 1 < ds.length then none
  else
    match parseFracExp (body.dropWhile isDigit) with
    | none => none
    | some (plain, rest) =>
      if plain then
        some (.int (if neg then -((decimalValue ds : Nat) : Int) else ((decimalValue ds : Nat) : Int)),
          rest)
      else some (.other, rest)

/-- A text that begins with the characters of `word`: what follows them. -/
def expectWord (word s : List Char) : Option (List Char) :=
  if s.take word.length = word then some (s.drop word.length) else none

/-- The elements of an array after its opening bracket, each read by `value`:
the text after the closing bracket. `fuel` bounds the number of elements. -/
def arrayLoop (value : List Char → Option (JsonLit × List Char)) :
    Nat → List Char → Option (List Char)
  | 0, _ => none
  | n + 1, s =>
    match value s with
    | none => none
    | some (_, rest) =>
      match skipWs rest with
      | c :: rest1 =>
        if c = ',' then arrayLoop value n rest1
        else if c = ']' then some rest1
        else none
      | [] => none

/-- The members of an object from its first key on, each value read by
`value`: the members in order and the text after the closing brace. `fuel`
bounds the number of members. -/
def memberLoop (value : List Char → Option (JsonLit × List Char)) :
    Nat → List Char → Option (List (List Char × JsonLit) × List Char)
  | 0, _ => none
  | n + 1, s =>
    match skipWs s with
    | q :: rest =>
      if q = dquote then
        match scanString rest with
        | none => none
        | some (raw, rest1) =>
          match unquote raw with
          | none => none
          | some key =>
            match skipWs rest1 with
            | c :: rest2 =>
              if c = ':' then
                match value rest2 with
                | none => none
                | some (lit, rest3) =>
                  match skipWs rest3 with
                  | d :: rest4 =>
                    if d = ',' then
                      (memberLoop value n rest4).map (fun r => ((key, lit) :: r.1, r.2))
                    else if d = rbrace then some ([(key, lit)], rest4)
                    else none
                  | [] => none
              else none
            | [] => none
      else none
    | [] => none

/-- A value at the head of a text, after white space, and the text after it.
`fuel` bounds the nesting of arrays and objects and the number of their
elements. -/
def parseValue : Nat → List Char → Option (JsonLit × List Char)
  | 0, _ => none
  | fuel + 1, s =>
    match skipWs s with
    | [] => none
    | c :: rest =>
      if c = dquote then
        match scanString rest with
        | none => none
        | some (raw, rest1) =>
          match unquote raw with
          | none => none
          | some val => some (.string raw val, rest1)
      else if c = '-' ∨ isDigit c = true then parseNumber (c :: rest)
      else if c = 'n' then (expectWord ['u', 'l', 'l'] rest).map (fun r => (.null, r))
      else if c = 't' then (expectWord ['r', 'u', 'e'] rest).map (fun r => (.other, r))
      else if c = 'f' then (expectWord ['a', 'l', 's', 'e'] rest).map (fun r => (.other, r))
      else if c = '[' then
        match skipWs rest with
        | d :: rest1 =>
          if d = ']' then some (.other, rest1)
          else (arrayLoop (parseValue fuel) fuel rest).map (fun r => (.other, r))
        | [] => none
      else if c = lbrace then
        match skipWs rest with
        | d :: rest1 =>
          if d = rbrace then some (.other, rest1)
          else (memberLoop (parseValue fuel) fuel rest).map (fun r => (.other, r.2))
        | [] => none
      else none

/-- The members of the object that is the whole of a text, as
`json.Unmarshal` into a struct takes them: the object may stand between white
space; the text `null` gives no member; any other text is an error. -/
def parseDocument (s : List Char) : Option (List (List Char × JsonLit)) :=
  let fuel := s.length + 1
  match skipWs s with
  | c :: rest =>
    if c = lbrace then
      match skipWs rest with
      | d :: rest1 =>
        if d = rbrace then (if skipWs rest1 = [] then some [] else none)
        else
          match memberLoop (parseValue fuel) fuel rest with
          | none => none
          | some (ms, rest2) => if skipWs rest2 = [] then some ms else none
      | [] => none
    else if c = 'n' then
      match expectWord ['u', 'l', 'l'] rest with
      | none => none
      | some rest1 => if skipWs rest1 = [] then some [] else none
    else none
  | [] => none

/-- Whether an integer is a value of Go's `int` (64 bits). -/
def isInt64 (n : Int) : Bool := decide (-9223372036854775808 ≤ n) && decide (n ≤ 9223372036854775807)

/-- The value `json.Unmarshal` hands to the field of `Job` that the key
selects: for the field `created`, of type `time.Time`, the text between the
quotes of a string literal read as RFC 3339; for the other fields the string
of a string literal; an integer literal in the range of `int`. -/
def litValue (key : String) : JsonLit → JsonValue
  | .string raw val =>
    if foldName key = "created" then
      match parseRFC3339 raw with
      | some t => .time t
      | none => .other
    else .str (String.mk val)
  | .int n => if isInt64 n then .num n else .other
  | .null => .null
  | .other => .other

/-- The members `json.Unmarshal` reads from a text. -/
def jsonParse (text : String) : Except String (List (String × JsonValue)) :=
  match parseDocument text.toList with
  | none => .error "invalid character looking for beginning of value"
  | some ms => .ok (ms.map (fun m => (String.mk m.1, litValue (String.mk m.1) m.2)))

/-- The text `encoding/json` writes for the value of a member; `zone` gives
the offset in seconds east of UTC of the zone of a time. -/
def renderValue (zone : Int → Int) : JsonValue → Except String (List Char)
  | .str s => .ok (jsonQuote (goString s))
  | .num n => .ok (intText n)
  | .time t =>
    match formatRFC3339 t (zone t) with
    | none => .error "json: error calling MarshalJSON for type time.Time"
    | some text => .ok (dquote :: (text ++ [dquote]))
  | .null => .ok ['n', 'u', 'l', 'l']
  | .other => .error "json: unsupported value"

/-- The line `json.MarshalIndent(v, "", "  ")` writes for a member: two
spaces, the key, a colon, a space and the value. -/
def renderMember (zone : Int → Int) (m : String × JsonValue) : Except String (List Char) :=
  match renderValue zone m.2 with
  | .error err => .error err
  | .ok v => .ok (' ' :: ' ' :: (jsonQuote (goString m.1) ++ ':' :: ' ' :: v))

/-- The lines of the members of an object. -/
def renderMembers (zone : Int → Int) : List (String × JsonValue) → Except String (List (List Char))
  | [] => .ok []
  | m :: rest =>
    match renderMember zone m with
    | .error err => .error err
    | .ok line =>
      match renderMembers zone rest with
      | .error err => .error err
      | .ok lines => .ok (line :: lines)

/-- The lines of an object joined by a comma and a line feed. -/
def joinLines : List (List Char) → List Char
  | [] => []
  | [line] => line
  | line :: rest => line ++ ',' :: newline :: joinLines rest

/-- The text `json.MarshalIndent(v, "", "  ")` writes for an object with the
given members. -/
def jsonRender (zone : Int → Int) (obj : List (String × JsonValue)) : Except String String :=
  match renderMembers zone obj with
  | .error err => .error err
  | .ok [] => .ok (String.mk [lbrace, rbrace])
  | .ok (line :: lines) =>
    .ok (String.mk (lbrace :: newline :: (joinLines (line :: lines) ++ [newline, rbrace])))

/-- The text layer of `encoding/json` as Go has it, for times whose zone is
`zone t` seconds east of UTC at the instant `t`. -/
def goJson (zone : Int → Int) : JsonCodec :=
  { render := jsonRender zone, parse := jsonParse }

/-- A member as `jobToJson` writes them: a string under a key other than
`created`, an integer in the range of `int`, or a time under `created`. -/
def MemberOk (m : String × JsonValue) : Prop :=
  match m.2 with
  | .str _ => foldName m.1 ≠ "created"
  | .num n => isInt64 n = true
  | .time _ => foldName m.1 = "created"
  | .null => False
  | .other => False

/-- A character that stands for itself between the quotes of a string
literal. -/
def isPlain (c : Char) : Bool := decide (c ≠ dquote) && decide (c ≠ bslash) && decide (32 ≤ c.toNat)


/-- The integer fields of the record are values of Go's `int`. -/
def intFieldsInRange (job : Job) : Prop :=
  isInt64 job.Progress = true ∧ isInt64 job.AudioProgress = true ∧
    isInt64 job.TranscriptProgress = true ∧ isInt64 job.Duration = true

/-- A job in the middle of its run, with a transcript that needs escaping
and a creation time with a fraction of a second. -/
def quotedJob : Job :=
  { sampleJob with
    Status := "transcribing"
    Text := String.mk ['a', '<', dquote, bslash, newline, 'é', Char.ofNat 0x2028,
      Char.ofNat 0x1F600]
    Progress := 50
    AudioProgress := 100
    Created := 1700000000123456000
    Title := "T"
    Duration := 212 }

/-! ## Theorems -/

theorem hasSubstr_iff_infix (s sub : List Char) :
    hasSubstr s sub = true ↔ sub <:+: s := by
  induction s with
  | nil =>
    cases sub <;> simp [hasSubstr, List.isPrefixOf]
  | cons c cs ih =>
    rw [hasSubstr, Bool.or_eq_true, ih, List.infix_cons_iff]
    simp

theorem stringsContains_iff (s sub : String) :
    stringsContains s sub = true ↔ sub.toList <:+: s.toList :=
  hasSubstr_iff_infix _ _

/-- C7: `isValidYouTubeURL url` holds exactly when `url` has "youtube.com" or
"youtu.be" as a substring; the empty string, "https://example.com" and
"not-a-url" are rejected. -/
theorem isValidYouTubeURL_iff (url : String) :
    (isValidYouTubeURL url = true ↔
      ("youtube.com".toList <:+: url.toList ∨ "youtu.be".toList <:+: url.toList)) ∧
    isValidYouTubeURL "" = false ∧
    isValidYouTubeURL "https://example.com" = false ∧
    isValidYouTubeURL "not-a-url" = false := by
  refine ⟨?_, by decide, by decide, by decide⟩
  unfold isValidYouTubeURL
  simp only [Bool.or_eq_true, stringsContains_iff]
  constructor
  · rintro ((h | h) | h)
    · exact Or.inl h
    · exact Or.inr h
    · refine Or.inl (List.IsInfix.trans ?_ h)
      exact ⟨['m', '.'], [], by decide⟩
  · rintro (h | h)
    · exact Or.inl (Or.inl h)
    · exact Or.inl (Or.inr h)

/-! ### The history listing -/

theorem cons_set_perm {α : Type} (x y : α) :
    ∀ (t : List α) (j : Nat), t[j]? = some y → (y :: t.set j x).Perm (x :: t)
  | [], j, h => by simp at h
  | h :: t, 0, hj => by
    simp at hj
    subst hj
    simpa using List.Perm.swap x h t
  | h :: t, j + 1, hj => by
    have hj1 : t[j]? = some y := by simpa using hj
    have ih := cons_set_perm x y t j hj1
    rw [List.set_cons_succ]
    exact ((List.Perm.swap h y _).trans (ih.cons h)).trans (List.Perm.swap x h t)

theorem set_set_perm_of_get {α : Type} (x y : α) :
    ∀ (a : List α) (i j : Nat), a[i]? = some x → a[j]? = some y →
      ((a.set i y).set j x).Perm a
  | [], i, _, hi, _ => by simp at hi
  | h :: t, 0, 0, hi, hj => by
    simp at hi hj
    subst hi
    simp
  | h :: t, 0, j + 1, hi, hj => by
    simp at hi
    subst hi
    have hj1 : t[j]? = some y := by simpa using hj
    simpa using cons_set_perm h y t j hj1
  | h :: t, i + 1, 0, hi, hj => by
    simp at hj
    subst hj
    have hi1 : t[i]? = some x := by simpa using hi
    simpa using cons_set_perm h x t i hi1
  | h :: t, i + 1, j + 1, hi, hj => by
    have hi1 : t[i]? = some x := by simpa using hi
    have hj1 : t[j]? = some y := by simpa using hj
    simpa using (set_set_perm_of_get x y t i j hi1 hj1).cons h

theorem swapAt_perm (a : List Job) (i j : Nat) : (swapAt a i j).Perm a := by
  unfold swapAt
  split
  · next x y hx hy => exact set_set_perm_of_get x y a i j hx hy
  · exact List.Perm.refl a

theorem sortStep_perm (i : Nat) (a : List Job) (j : Nat) : (sortStep i a j).Perm a := by
  unfold sortStep
  split
  · split
    · exact swapAt_perm a i j
    · exact List.Perm.refl a
  · exact List.Perm.refl a

theorem foldl_perm_of_step {β : Type} (f : List Job → β → List Job)
    (hf : ∀ a b, (f a b).Perm a) :
    ∀ (l : List β) (a : List Job), (l.foldl f a).Perm a
  | [], a => List.Perm.refl a
  | b :: l, a => (foldl_perm_of_step f hf l (f a b)).trans (hf a b)

theorem sortInner_perm (a : List Job) (i : Nat) : (sortInner a i).Perm a :=
  foldl_perm_of_step (sortStep i) (sortStep_perm i) _ a

theorem sortByCreatedDesc_perm (a : List Job) : (sortByCreatedDesc a).Perm a :=
  foldl_perm_of_step sortInner sortInner_perm _ a

theorem historyLoop_eq (jobs : List (String × Job)) (acc : List Job) :
    historyLoop jobs acc =
      acc ++ (jobs.map Prod.snd).filter (fun j => decide (j.Status = "done")) := by
  induction jobs generalizing acc with
  | nil => simp [historyLoop]
  | cons e rest ih =>
    obtain ⟨k, job⟩ := e
    by_cases h : job.Status = "done"
    · simp [historyLoop, h, ih]
    · simp [historyLoop, h, ih]

theorem sortStep_length (i : Nat) (a : List Job) (j : Nat) :
    (sortStep i a j).length = a.length :=
  (sortStep_perm i a j).length_eq

theorem sortStep_swap_get (i j : Nat) (a : List Job) (x y : Job)
    (hx : a[i]? = some x) (hy : a[j]? = some y)
    (hlt : timeBefore x.Created y.Created = true) (k : Nat) :
    (sortStep i a j)[k]? =
      if k = j then some x else if k = i then some y else a[k]? := by
  have hi : i < a.length := (List.getElem?_eq_some.1 hx).1
  have hj : j < a.length := (List.getElem?_eq_some.1 hy).1
  simp only [sortStep, swapAt, hx, hy, hlt, if_true, List.getElem?_set, List.length_set]
  by_cases hkj : k = j
  · subst hkj
    simp [hj]
  · by_cases hki : k = i
    · subst hki
      simp [hi, hkj, Ne.symm hkj]
    · simp [hkj, hki, Ne.symm hkj, Ne.symm hki]

theorem sortStep_keep (i j : Nat) (a : List Job) (x y : Job)
    (hx : a[i]? = some x) (hy : a[j]? = some y)
    (hlt : timeBefore x.Created y.Created = false) :
    sortStep i a j = a := by
  simp [sortStep, hx, hy, hlt]

theorem foldl_range'_invariant {α : Type} (f : α → Nat → α) (P : Nat → α → Prop) :
    ∀ (len s : Nat) (a : α), P s a →
      (∀ j b, s ≤ j → j < s + len → P j b → P (j + 1) (f b j)) →
      P (s + len) ((List.range' s len).foldl f a)
  | 0, s, a, h0, _ => by simpa using h0
  | len + 1, s, a, h0, hstep => by
    rw [List.range'_succ, List.foldl_cons]
    have h1 : P (s + 1) (f a s) := hstep s a (Nat.le_refl s) (by omega) h0
    have := foldl_range'_invariant f P len (s + 1) (f a s) h1
      (fun j b hj1 hj2 hP => hstep j b (by omega) (by omega) hP)
    have e : s + (len + 1) = s + 1 + len := by omega
    rw [e]
    exact this

theorem sortInner_spec (a0 : List Job) (i : Nat) (hi : i < a0.length) :
    (sortInner a0 i).length = a0.length ∧
    (∀ k, k < i → (sortInner a0 i)[k]? = a0[k]?) ∧
    (∀ k x y, i < k → (sortInner a0 i)[i]? = some x → (sortInner a0 i)[k]? = some y →
      y.Created ≤ x.Created) ∧
    (∀ k z, i ≤ k → (sortInner a0 i)[k]? = some z → ∃ k', i ≤ k' ∧ a0[k']? = some z) := by
  have key := foldl_range'_invariant (sortStep i)
    (fun J a => a.length = a0.length ∧
      (∀ k, k < i → a[k]? = a0[k]?) ∧
      (∀ k x y, i < k → k < J → a[i]? = some x → a[k]? = some y →
        y.Created ≤ x.Created) ∧
      (∀ k z, i ≤ k → a[k]? = some z → ∃ k', i ≤ k' ∧ a0[k']? = some z))
    (a0.length - (i + 1)) (i + 1) a0
    ⟨rfl, fun _ _ => rfl, fun k x y h1 h2 => by omega, fun k z hk hz => ⟨k, hk, hz⟩⟩
    (by
      intro j b hj1 hj2 ⟨hlen, hpre, hord, hsuf⟩
      have hib : i < b.length := by omega
      have hjb : j < b.length := by omega
      have hx : b[i]? = some b[i] := List.getElem?_eq_getElem hib
      have hy : b[j]? = some b[j] := List.getElem?_eq_getElem hjb
      cases hlt : timeBefore b[i].Created b[j].Created
      · rw [sortStep_keep i j b _ _ hx hy hlt]
        refine ⟨hlen, hpre, ?_, hsuf⟩
        intro k x y h1 h2 hkx hky
        by_cases hkj : k = j
        · subst hkj
          rw [hx] at hkx
          rw [hy] at hky
          cases hkx
          cases hky
          simpa [timeBefore] using hlt
        · exact hord k x y h1 (by omega) hkx hky
      · have hget := sortStep_swap_get i j b _ _ hx hy hlt
        have hlt' : b[i].Created < b[j].Created := by simpa [timeBefore] using hlt
        refine ⟨by rw [sortStep_length]; exact hlen, ?_, ?_, ?_⟩
        · intro k hk
          rw [hget k, if_neg (by omega), if_neg (by omega)]
          exact hpre k hk
        · intro k x y h1 h2 hkx hky
          rw [hget i, if_neg (by omega), if_pos rfl] at hkx
          cases hkx
          rw [hget k] at hky
          by_cases hkj : k = j
          · rw [if_pos hkj] at hky
            cases hky
            omega
          · rw [if_neg hkj, if_neg (by omega)] at hky
            have := hord k _ y h1 (by omega) hx hky
            omega
        · intro k z hk hz
          rw [hget k] at hz
          by_cases hkj : k = j
          · rw [if_pos hkj] at hz
            cases hz
            exact hsuf i _ (Nat.le_refl i) hx
          · rw [if_neg hkj] at hz
            by_cases hki : k = i
            · rw [if_pos hki] at hz
              cases hz
              exact hsuf j _ (by omega) hy
            · rw [if_neg hki] at hz
              exact hsuf k z hk hz)
  have e : i + 1 + (a0.length - (i + 1)) = a0.length := by omega
  rw [e] at key
  obtain ⟨hlen, hpre, hord, hsuf⟩ := key
  refine ⟨hlen, hpre, ?_, hsuf⟩
  intro k x y h1 hkx hky
  have hk : k < (sortInner a0 i).length := (List.getElem?_eq_some.1 hky).1
  have hlen' : (sortInner a0 i).length = a0.length := hlen
  exact hord k x y h1 (by omega) hkx hky

theorem sortByCreatedDesc_spec (a0 : List Job) :
    (sortByCreatedDesc a0).length = a0.length ∧
    ∀ (p q : Nat) (x y : Job), p < q → (sortByCreatedDesc a0)[p]? = some x →
      (sortByCreatedDesc a0)[q]? = some y → y.Created ≤ x.Created := by
  have key := foldl_range'_invariant sortInner
    (fun I a => a.length = a0.length ∧
      ∀ p q x y, p < I → p < q → a[p]? = some x → a[q]? = some y →
        y.Created ≤ x.Created)
    (a0.length - 1) 0 a0
    ⟨rfl, fun p q x y h => by omega⟩
    (by
      intro I b _ hI ⟨hlen, hord⟩
      have hIb : I < b.length := by omega
      obtain ⟨ilen, ipre, iord, isuf⟩ := sortInner_spec b I hIb
      refine ⟨by rw [ilen]; exact hlen, ?_⟩
      intro p q x y hp hpq hpx hqy
      by_cases hpI : p = I
      · subst hpI
        exact iord q x y hpq hpx hqy
      · have hp' : p < I := by omega
        rw [ipre p hp'] at hpx
        by_cases hq : q < I
        · rw [ipre q hq] at hqy
          exact hord p q x y hp' hpq hpx hqy
        · obtain ⟨k', hk', hk'y⟩ := isuf q y (by omega) hqy
          exact hord p k' x y hp' (by omega) hpx hk'y)
  rw [← List.range_eq_range'] at key
  have hlen : (sortByCreatedDesc a0).length = a0.length := key.1
  refine ⟨hlen, ?_⟩
  intro p q x y hpq hpx hqy
  have hq : q < (sortByCreatedDesc a0).length := (List.getElem?_eq_some.1 hqy).1
  exact key.2 p q x y (by omega) hpq hpx hqy

theorem sortByCreatedDesc_pairwise (a0 : List Job) :
    (sortByCreatedDesc a0).Pairwise (fun x y => timeBefore x.Created y.Created = false) := by
  rw [List.pairwise_iff_getElem]
  intro p q hp hq hpq
  have := (sortByCreatedDesc_spec a0).2 p q _ _ hpq
    (List.getElem?_eq_getElem hp) (List.getElem?_eq_getElem hq)
  simpa [timeBefore] using this

/-- C6: on a GET request `handleGetJobHistory` answers with a list that is a
permutation of the jobs of the map whose Status is "done", and in which no
entry's Created is before the Created of the entry that follows it. -/
theorem handleGetJobHistory_perm_sorted (jobs : List (String × Job)) :
    ∃ l, handleGetJobHistory "GET" jobs = ⟨200, .jobList l⟩ ∧
      l.Perm ((jobs.map Prod.snd).filter (fun j => decide (j.Status = "done"))) ∧
      l.Chain' (fun x y => timeBefore x.Created y.Created = false) := by
  refine ⟨sortByCreatedDesc (historyLoop jobs []), by simp [handleGetJobHistory], ?_, ?_⟩
  · have h := sortByCreatedDesc_perm (historyLoop jobs [])
    have e := historyLoop_eq jobs []
    rw [List.nil_append] at e
    rw [← e]
    exact h
  · exact (sortByCreatedDesc_pairwise _).chain'

/-! ### The active listing -/

theorem durationHours_lt_iff (d : Int) : durationHours d < 24 ↔ d < 24 * timeHour := by
  have hd : timeHour * Int.tdiv d timeHour + Int.tmod d timeHour = d :=
    Int.tdiv_add_tmod d timeHour
  have hq : durationHours d = (d : ℚ) / 3600000000000 := by
    unfold durationHours
    have : (d : ℚ) = (timeHour : ℚ) * (Int.tdiv d timeHour : ℚ) + (Int.tmod d timeHour : ℚ) := by
      exact_mod_cast hd.symm
    rw [this]
    simp only [timeHour]
    push_cast
    ring
  rw [hq, div_lt_iff₀ (by norm_num)]
  simp only [timeHour]
  constructor
  · intro h
    have : (d : ℚ) < ((24 * 3600000000000 : Int) : ℚ) := by push_cast; linarith
    exact_mod_cast this
  · intro h
    have : (d : ℚ) < ((24 * 3600000000000 : Int) : ℚ) := by exact_mod_cast h
    push_cast at this
    linarith

theorem timeSince_lt_iff (now t : Int) :
    timeSince now t < 24 * timeHour ↔ now - t < 24 * timeHour := by
  unfold timeSince timeSub
  simp only [minDuration, maxDuration, timeHour]
  split_ifs <;> omega

theorem activeJobsLoop_eq (now : Int) (jobs : List (String × Job)) (acc : List Job) :
    activeJobsLoop now jobs acc =
      acc ++ (jobs.map Prod.snd).filter (fun j =>
        decide ((j.Status ≠ "done" ∧ j.Status ≠ "error") ∨ now - j.Created < 24 * timeHour)) := by
  induction jobs generalizing acc with
  | nil => simp [activeJobsLoop]
  | cons e rest ih =>
    obtain ⟨k, job⟩ := e
    have hh : durationHours (timeSince now job.Created) < 24 ↔
        now - job.Created < 24 * timeHour := by
      rw [durationHours_lt_iff, timeSince_lt_iff]
    by_cases h1 : job.Status ≠ "done" ∧ job.Status ≠ "error"
    · simp [activeJobsLoop, h1, ih]
    · by_cases h2 : now - job.Created < 24 * timeHour
      · have h2' := hh.2 h2
        have h1' : (job.Status != "done" && job.Status != "error") = false := by
          simpa using h1
        simp [activeJobsLoop, h1', h2, h2', ih]
      · have h2' : ¬ durationHours (timeSince now job.Created) < 24 := fun h => h2 (hh.1 h)
        have h1' : (job.Status != "done" && job.Status != "error") = false := by
          simpa using h1
        have h3 : ¬ ((job.Status ≠ "done" ∧ job.Status ≠ "error") ∨
            now - job.Created < 24 * timeHour) := by
          rintro (h | h)
          · exact h1 h
          · exact h2 h
        simp only [activeJobsLoop, h1', h2', List.map_cons, ih]
        rw [List.filter_cons_of_neg (by simpa using h3)]
        simp

/-- C10: on a GET request `handleGetActiveJobs` answers with a list in which a
job occurs exactly when it is a job of the map whose Status is neither "done"
nor "error" or whose Created lies less than 24 hours before the current time;
each such job occurs as often as the map holds it, hence exactly once when the
map's jobs are pairwise distinct. -/
theorem handleGetActiveJobs_iff (jobs : List (String × Job)) (now : Int) :
    ∃ l, handleGetActiveJobs "GET" jobs now = ⟨200, .jobList l⟩ ∧
      (∀ j, j ∈ l ↔ (j ∈ jobs.map Prod.snd ∧
        ((j.Status ≠ "done" ∧ j.Status ≠ "error") ∨ now - j.Created < 24 * timeHour))) ∧
      (∀ j, j ∈ l → l.count j = (jobs.map Prod.snd).count j) ∧
      ((jobs.map Prod.snd).Nodup → ∀ j, j ∈ l → l.count j = 1) := by
  refine ⟨activeJobsLoop now jobs [], by simp [handleGetActiveJobs], ?_⟩
  rw [activeJobsLoop_eq, List.nil_append]
  have hcount : ∀ j, j ∈ (jobs.map Prod.snd).filter (fun j =>
        decide ((j.Status ≠ "done" ∧ j.Status ≠ "error") ∨ now - j.Created < 24 * timeHour)) →
      ((jobs.map Prod.snd).filter (fun j =>
        decide ((j.Status ≠ "done" ∧ j.Status ≠ "error") ∨
          now - j.Created < 24 * timeHour))).count j = (jobs.map Prod.snd).count j := by
    intro j hj
    rw [List.count_filter]
    simpa using (List.mem_filter.1 hj).2
  refine ⟨?_, hcount, ?_⟩
  · intro j
    simp [List.mem_filter]
  · intro hnd j hj
    rw [hcount j hj]
    exact List.count_eq_one_of_mem hnd (List.mem_filter.1 hj).1

theorem handleGetActiveJobs_iff_witness :
    (sampleMap.map Prod.snd).Nodup ∧
    ∃ l, handleGetActiveJobs "GET" sampleMap (100 + 25 * timeHour) = ⟨200, .jobList l⟩ ∧
      l.count sampleJob = 1 ∧ oldDoneJob ∉ l := by
  obtain ⟨l, hl, hmem, _, hone⟩ := handleGetActiveJobs_iff sampleMap (100 + 25 * timeHour)
  have hnd : (sampleMap.map Prod.snd).Nodup := by decide
  refine ⟨hnd, l, hl, hone hnd sampleJob ((hmem sampleJob).2 (by decide)), ?_⟩
  intro h
  have := ((hmem oldDoneJob).1 h).2
  revert this
  decide

/-! ### Submission -/

theorem mapLookup_mapStore_same (jobs : List (String × Job)) (id : String) (job : Job) :
    mapLookup (mapStore jobs id job) id = some job := by
  simp [mapLookup, mapStore]

theorem mapLookup_mapStore_other (jobs : List (String × Job)) (id id' : String) (job : Job)
    (h : id' ≠ id) : mapLookup (mapStore jobs id job) id' = mapLookup jobs id' := by
  simp only [mapLookup, mapStore]
  rw [List.find?_cons_of_neg _ (by simpa using h.symm)]
  congr 1
  induction jobs with
  | nil => rfl
  | cons e rest ih =>
    obtain ⟨k, v⟩ := e
    by_cases he : k = id
    · subst he
      have he' : ¬ k = id' := fun h' => h h'.symm
      simp [List.filter_cons, he', List.find?_cons, ih]
    · by_cases he' : k = id'
      · subst he'
        simp [List.filter_cons, he, List.find?_cons]
      · simp [List.filter_cons, he, he', List.find?_cons, ih]

theorem uuidNewString_ne_empty (rnd : Nat → Nat) : uuidNewString rnd ≠ "" := by
  intro h
  have := congrArg String.length h
  simp [uuidNewString, hexByte, String.length] at this

theorem enqueueOrSpawn_jobs (id url : String) (s : Server) :
    (enqueueOrSpawn id url s).jobs = s.jobs := by
  unfold enqueueOrSpawn
  split <;> rfl

theorem handleJob_valid (url : String) (rnd : Nat → Nat) (now : Int) (s : Server)
    (h1 : url ≠ "") (h2 : isValidYouTubeURL url = true) :
    handleJob ⟨"POST", some url⟩ rnd now s =
      (⟨200, .job (newJob (uuidNewString rnd) url now)⟩,
        enqueueOrSpawn (uuidNewString rnd) url
          ⟨mapStore s.jobs (uuidNewString rnd) (newJob (uuidNewString rnd) url now),
            s.jobQueue, s.spawned, s.fs⟩) := by
  simp [handleJob, h1, h2]

/-- C8: a POST submission whose URL is empty or is not accepted by
`isValidYouTubeURL` is answered with status 400 and leaves the job map, the
work queue, the started goroutines and the disk as they were. -/
theorem handleJob_rejects_invalid (url : String) (rnd : Nat → Nat) (now : Int) (s : Server)
    (h : url = "" ∨ isValidYouTubeURL url = false) :
    ∃ msg, handleJob ⟨"POST", some url⟩ rnd now s = (⟨400, .text msg⟩, s) := by
  by_cases h1 : url = ""
  · exact ⟨"URL is required", by simp [handleJob, h1]⟩
  · have h2 : isValidYouTubeURL url = false := h.resolve_left h1
    exact ⟨"Invalid YouTube URL", by simp [handleJob, h1, h2]⟩

theorem handleJob_rejects_invalid_witness :
    ("not-a-url" = "" ∨ isValidYouTubeURL "not-a-url" = false) ∧
    ∃ msg, handleJob ⟨"POST", some "not-a-url"⟩ (fun _ => 0) 0 freshServer =
      (⟨400, .text msg⟩, freshServer) :=
  ⟨Or.inr (by decide),
    handleJob_rejects_invalid "not-a-url" (fun _ => 0) 0 freshServer (Or.inr (by decide))⟩

/-- C9: a POST submission with a non-empty URL accepted by `isValidYouTubeURL`
is answered with, and stored in the job map under its freshly generated
identifier as, a record with Status "queued", Progress 0, a non-empty ID and
the submitted URL; a second submission of the same URL, for which the
generator yields a different identifier, gives a record with a different ID,
and both records are then in the map. -/
theorem handleJob_creates_queued (url : String) (rnd1 rnd2 : Nat → Nat) (t1 t2 : Int)
    (s : Server) (h1 : url ≠ "") (h2 : isValidYouTubeURL url = true)
    (hgen : uuidNewString rnd1 ≠ uuidNewString rnd2) :
    ∃ j1 j2 s1 s2,
      handleJob ⟨"POST", some url⟩ rnd1 t1 s = (⟨200, .job j1⟩, s1) ∧
      handleJob ⟨"POST", some url⟩ rnd2 t2 s1 = (⟨200, .job j2⟩, s2) ∧
      j1.Status = "queued" ∧ j1.Progress = 0 ∧ j1.ID ≠ "" ∧ j1.URL = url ∧
      j1.ID = uuidNewString rnd1 ∧ mapLookup s1.jobs j1.ID = some j1 ∧
      j2.Status = "queued" ∧ j2.Progress = 0 ∧ j2.ID ≠ "" ∧ j2.URL = url ∧
      j2.ID = uuidNewString rnd2 ∧ mapLookup s2.jobs j2.ID = some j2 ∧
      j1.ID ≠ j2.ID ∧ mapLookup s2.jobs j1.ID = some j1 := by
  refine ⟨_, _, _, _, handleJob_valid url rnd1 t1 s h1 h2,
    handleJob_valid url rnd2 t2 _ h1 h2, rfl, rfl, uuidNewString_ne_empty rnd1, rfl, rfl, ?_,
    rfl, rfl, uuidNewString_ne_empty rnd2, rfl, rfl, ?_, hgen, ?_⟩
  · rw [enqueueOrSpawn_jobs]
    exact mapLookup_mapStore_same _ _ _
  · rw [enqueueOrSpawn_jobs]
    exact mapLookup_mapStore_same _ _ _
  · rw [enqueueOrSpawn_jobs]
    simp only [newJob]
    rw [mapLookup_mapStore_other _ _ _ _ hgen, enqueueOrSpawn_jobs]
    exact mapLookup_mapStore_same _ _ _

theorem handleJob_creates_queued_witness :
    "https://youtu.be/abc123" ≠ "" ∧
    isValidYouTubeURL "https://youtu.be/abc123" = true ∧
    uuidNewString (fun _ => 0) ≠ uuidNewString (fun _ => 1) ∧
    ∃ j1 j2 s1 s2,
      handleJob ⟨"POST", some "https://youtu.be/abc123"⟩ (fun _ => 0) 5 freshServer =
        (⟨200, .job j1⟩, s1) ∧
      handleJob ⟨"POST", some "https://youtu.be/abc123"⟩ (fun _ => 1) 7 s1 =
        (⟨200, .job j2⟩, s2) ∧
      j1.Status = "queued" ∧ j1.Progress = 0 ∧ j1.ID ≠ "" ∧
      j1.URL = "https://youtu.be/abc123" ∧
      j1.ID = uuidNewString (fun _ => 0) ∧ mapLookup s1.jobs j1.ID = some j1 ∧
      j2.Status = "queued" ∧ j2.Progress = 0 ∧ j2.ID ≠ "" ∧
      j2.URL = "https://youtu.be/abc123" ∧
      j2.ID = uuidNewString (fun _ => 1) ∧ mapLookup s2.jobs j2.ID = some j2 ∧
      j1.ID ≠ j2.ID ∧ mapLookup s2.jobs j1.ID = some j1 :=
  ⟨by decide, by decide, by decide,
    handleJob_creates_queued "https://youtu.be/abc123" (fun _ => 0) (fun _ => 1) 5 7
      freshServer (by decide) (by decide) (by decide)⟩

/-! ### The pipeline: terminal states -/

theorem append_ne_empty (a b : String) (h : a ≠ "") : a ++ b ≠ "" := by
  intro hab
  apply h
  have hd := congrArg String.data hab
  rw [String.data_append] at hd
  have : a.data = [] := (List.append_eq_nil.1 hd).1
  exact String.ext this

theorem update_error_invariant (E : Env) (job : Job) (a t : Int) (msg : String) (w : World)
    (h : msg ≠ "") :
    ErrorInvariant (updateJobStatusDetailed E job "error" 0 a t msg w).1 := by
  intro _
  simp [updateJobStatusDetailed, h]

theorem completeJob_error_invariant (E : Env) (job : Job) (text filename : String) (w : World) :
    ErrorInvariant (completeJob E job text filename w).1 := by
  intro h
  simp [completeJob] at h

theorem transcribeAndSave_finished (E : Env) (P : Job → Prop)
    (hc : ∀ job text filename w, P (completeJob E job text filename w).1)
    (he : ∀ job a t msg w, msg ≠ "" → P (updateJobStatusDetailed E job "error" 0 a t msg w).1)
    (job : Job) (audioFile filename path : String) (w : World) :
    (transcribeAndSave E job audioFile filename path w).FinishedWith P := by
  unfold transcribeAndSave
  cases transcribeAudio E audioFile w with
  | panic r w1 => trivial
  | ret v w1 =>
    cases v with
    | error err => exact he job 100 0 _ w1 (append_ne_empty _ _ (by decide))
    | ok transcript =>
      simp only []
      cases hw : writeTranscript path transcript
          (updateJobStatusDetailed E job "saving" 90 100 90 "" w1).2 with
      | mk e w2 =>
        cases e with
        | some err => exact he _ 100 0 _ w2 (append_ne_empty _ _ (by decide))
        | none => exact hc _ _ _ w2

theorem processJobBody_finished (E : Env) (P : Job → Prop)
    (hc : ∀ job text filename w, P (completeJob E job text filename w).1)
    (he : ∀ job a t msg w, msg ≠ "" → P (updateJobStatusDetailed E job "error" 0 a t msg w).1)
    (job : Job) (url : String) (w : World) :
    (processJobBody E job url w).FinishedWith P := by
  unfold processJobBody
  simp only []
  cases extractVideoMetadata E _ url _ with
  | panic r w1 => trivial
  | ret v w1 =>
    obtain ⟨job1, e⟩ := v
    simp only []
    cases downloadAudio E _ url _ with
    | panic r w2 => trivial
    | ret v w2 =>
      cases v with
      | error err => exact he _ 0 0 _ w2 (append_ne_empty _ _ (by decide))
      | ok audioFile => exact transcribeAndSave_finished E P hc he _ _ _ _ _

theorem redownloadAudio_ended (E : Env) (P : Job → Prop)
    (he : ∀ job a t msg w, msg ≠ "" → P (updateJobStatusDetailed E job "error" 0 a t msg w).1)
    (job : Job) (audioFilename audioPath : String) (w : World) (job1 : Job) (w1 : World)
    (h : redownloadAudio E job audioFilename audioPath w = .ended job1 w1) :
    P job1 := by
  unfold redownloadAudio at h
  split at h
  · cases h
    exact he job 0 0 _ w (by decide)
  · simp only [] at h
    split at h
    · cases h
    · next err w2 _ =>
      cases h
      exact he (updateJobStatusDetailed E job "downloading" 25 0 0 "" w).1
        0 0 _ w2 (append_ne_empty _ _ (by decide))
    · cases h

theorem resumeAudio_ended (E : Env) (P : Job → Prop)
    (he : ∀ job a t msg w, msg ≠ "" → P (updateJobStatusDetailed E job "error" 0 a t msg w).1)
    (job : Job) (w : World) (job1 : Job) (w1 : World)
    (h : resumeAudio E job w = .ended job1 w1) : P job1 := by
  unfold resumeAudio at h
  simp only [] at h
  split at h
  · cases h
  · split at h
    · cases h
    · exact redownloadAudio_ended E P he job _ _ w job1 w1 h

theorem processJobResumeBody_finished (E : Env) (P : Job → Prop)
    (hc : ∀ job text filename w, P (completeJob E job text filename w).1)
    (he : ∀ job a t msg w, msg ≠ "" → P (updateJobStatusDetailed E job "error" 0 a t msg w).1)
    (job : Job) (w : World) :
    (processJobResumeBody E job w).FinishedWith P := by
  unfold processJobResumeBody
  cases hr : resumeAudio E job w with
  | panicked r job1 w1 => trivial
  | ended job1 w1 => exact resumeAudio_ended E P he job w job1 w1 hr
  | ready job1 audioFile w1 =>
    simp only []
    cases existingTranscript w1.fs _ with
    | some data => exact hc _ _ _ _
    | none => exact transcribeAndSave_finished E P hc he _ _ _ _ _

theorem processJob_final (E : Env) (P : Job → Prop)
    (hc : ∀ job text filename w, P (completeJob E job text filename w).1)
    (he : ∀ job a t msg w, msg ≠ "" → P (updateJobStatusDetailed E job "error" 0 a t msg w).1)
    (job : Job) (url : String) (w : World) :
    P (processJob E job url w).1 := by
  have h := processJobBody_finished E P hc he job url w
  unfold processJob
  cases hb : processJobBody E job url w with
  | finished job1 w1 =>
    rw [hb] at h
    exact h
  | panicked r job1 w1 => exact he _ 0 0 _ w1 (append_ne_empty _ _ (by decide))

theorem processJobResume_final (E : Env) (P : Job → Prop)
    (hc : ∀ job text filename w, P (completeJob E job text filename w).1)
    (he : ∀ job a t msg w, msg ≠ "" → P (updateJobStatusDetailed E job "error" 0 a t msg w).1)
    (job : Job) (w : World) :
    P (processJobResume E job w).1 := by
  have h := processJobResumeBody_finished E P hc he job w
  unfold processJobResume
  cases hb : processJobResumeBody E job w with
  | finished job1 w1 =>
    rw [hb] at h
    exact h
  | panicked r job1 w1 => exact he _ 0 0 _ w1 (append_ne_empty _ _ (by decide))

theorem processJob_error_invariant (E : Env) (job : Job) (url : String) (w : World) :
    ErrorInvariant (processJob E job url w).1 :=
  processJob_final E ErrorInvariant (completeJob_error_invariant E)
    (update_error_invariant E) job url w

theorem processJobResume_error_invariant (E : Env) (job : Job) (w : World) :
    ErrorInvariant (processJobResume E job w).1 :=
  processJobResume_final E ErrorInvariant (completeJob_error_invariant E)
    (update_error_invariant E) job w

theorem completeJob_done_invariant (E : Env) (job : Job) (text filename : String) (w : World) :
    DoneInvariant (completeJob E job text filename w).1 := by
  intro _
  refine ⟨rfl, rfl, rfl, ?_⟩
  exact append_ne_empty _ _ (by decide)

theorem update_done_invariant (E : Env) (job : Job) (a t : Int) (msg : String) (w : World)
    (_h : msg ≠ "") :
    DoneInvariant (updateJobStatusDetailed E job "error" 0 a t msg w).1 := by
  intro h
  simp [updateJobStatusDetailed] at h

/-- The part of C1 that the code keeps: a job left in state "done" by
`processJob` or `processJobResume` has all three progress fields at 100 and a
non-empty File. -/
theorem done_state_progress_and_file (E : Env) (job : Job) (url : String) (w : World) :
    DoneInvariant (processJob E job url w).1 ∧ DoneInvariant (processJobResume E job w).1 :=
  ⟨processJob_final E DoneInvariant (completeJob_done_invariant E)
      (update_done_invariant E) job url w,
    processJobResume_final E DoneInvariant (completeJob_done_invariant E)
      (update_done_invariant E) job w⟩

set_option maxRecDepth 100000 in
/-- C1 fails on the code: for a video with a long silent audio track the
chunked transcription skips every segment and returns the empty text with a
nil error, and `processJob` leaves the job "done" with an empty Text. -/
theorem processJob_done_with_empty_text :
    (processJob silentEnv sampleJob sampleJob.URL freshWorld).1.Status = "done" ∧
    (processJob silentEnv sampleJob sampleJob.URL freshWorld).1.Text = "" := by
  decide

/-- C4: whenever a run of `processJob` or of `processJobResume` leaves the job
with Status "error", under any behaviour of the external programs and the disk
(recovered panics included), the job's Error is non-empty and its Progress
is 0. -/
theorem error_state_has_message (E : Env) (job : Job) (url : String) (w : World) :
    ((processJob E job url w).1.Status = "error" →
      (processJob E job url w).1.Error ≠ "" ∧ (processJob E job url w).1.Progress = 0) ∧
    ((processJobResume E job w).1.Status = "error" →
      (processJobResume E job w).1.Error ≠ "" ∧ (processJobResume E job w).1.Progress = 0) :=
  ⟨processJob_error_invariant E job url w, processJobResume_error_invariant E job w⟩

set_option maxRecDepth 100000 in
theorem error_state_has_message_witness :
    (processJob offlineEnv sampleJob sampleJob.URL freshWorld).1.Status = "error" ∧
    (processJob offlineEnv sampleJob sampleJob.URL freshWorld).1.Error ≠ "" ∧
    (processJob offlineEnv sampleJob sampleJob.URL freshWorld).1.Progress = 0 :=
  ⟨by decide,
    (error_state_has_message offlineEnv sampleJob sampleJob.URL freshWorld).1 (by decide)⟩

/-! ### The pipeline: what a run records -/

theorem saveJobToDisk_trace (E : Env) (job : Job) (w : World) :
    (saveJobToDisk E job w).trace = w.trace := by
  unfold saveJobToDisk
  split <;> rfl

theorem update_trace (E : Env) (job : Job) (status : String) (p a t : Int) (msg : String)
    (w : World) :
    (updateJobStatusDetailed E job status p a t msg w).2.trace =
      w.trace ++ [.statusWrite status p a t] := by
  simp [updateJobStatusDetailed, saveJobToDisk_trace, World.log, Event.ofRecord]

theorem completeJob_trace (E : Env) (job : Job) (text filename : String) (w : World) :
    (completeJob E job text filename w).2.trace =
      w.trace ++ [.statusWrite "done" 100 100 100] := by
  simp [completeJob, saveJobToDisk_trace, World.log, Event.ofRecord]

theorem copyFile_trace (src dst : String) (w : World) :
    (copyFile src dst w).2.trace = w.trace := by
  unfold copyFile
  split
  · rfl
  · split <;> rfl

theorem publishAudio_trace (job : Job) (audioFile audioFilename audioPath : String)
    (w : World) :
    (publishAudio job audioFile audioFilename audioPath w).2.trace = w.trace := by
  have h := copyFile_trace audioFile audioPath w
  unfold publishAudio
  split
  · next w1 hc => rw [hc] at h; exact h
  · next e w1 hc => rw [hc] at h; exact h

theorem transcribeAudioDirect_trace (E : Env) (audioFile : String) (w : World) :
    (transcribeAudioDirect E audioFile w).world.trace = w.trace := by
  unfold transcribeAudioDirect
  simp only []
  split
  · rfl
  · rfl
  · split
    · rfl
    · split <;> rfl

theorem splitLoop_trace (E : Env) (audioFile baseDir baseName : String) :
    ∀ (n i : Nat) (chunks : List String) (w : World),
      (splitLoop E audioFile baseDir baseName n i chunks w).world.trace = w.trace
  | 0, _, _, _ => rfl
  | n + 1, i, chunks, w => by
    unfold splitLoop
    simp only []
    split
    · rfl
    · rfl
    · split
      · split
        · exact splitLoop_trace E audioFile baseDir baseName n (i + 1) _ _
        · rfl
      · rfl

theorem splitAudioFile_trace (E : Env) (audioFile : String) (w : World) :
    (splitAudioFile E audioFile w).world.trace = w.trace := by
  have h := splitLoop_trace E audioFile (filepathDir audioFile)
    (trimSuffix (filepathBase audioFile) ".wav") 10 0 [] w
  unfold splitAudioFile
  simp only []
  split
  · next r w1 hs => rw [hs] at h; exact h
  · next c w1 hs => rw [hs] at h; exact h

theorem chunkLoop_trace (E : Env) :
    ∀ (chunks : List String) (b : String) (w : World),
      (chunkLoop E chunks b w).world.trace = w.trace
  | [], _, _ => rfl
  | chunk :: rest, b, w => by
    have h := transcribeAudioDirect_trace E chunk w
    unfold chunkLoop
    split
    · next r w1 hd => rw [hd] at h; exact h
    · next e w1 hd =>
      rw [hd] at h
      rw [chunkLoop_trace E rest b w1]
      exact h
    · next text w1 hd =>
      rw [hd] at h
      rw [chunkLoop_trace E rest _ _]
      exact h

theorem transcribeAudioChunked_trace (E : Env) (audioFile : String) (w : World) :
    (transcribeAudioChunked E audioFile w).world.trace = w.trace := by
  have h := splitAudioFile_trace E audioFile w
  unfold transcribeAudioChunked
  split
  · next r w1 hs => rw [hs] at h; exact h
  · next e w1 hs => rw [hs] at h; exact h
  · next chunks w1 hs =>
    rw [hs] at h
    rw [chunkLoop_trace E chunks "" w1]
    exact h

theorem logResult_trace (stage : String) (res : Res (Except String String)) :
    match logResult stage res with
    | .panic _ w1 => w1.trace = res.world.trace
    | .ret (.ok _) w1 => w1.trace = res.world.trace ++ [.result stage true]
    | .ret (.error _) w1 => w1.trace = res.world.trace ++ [.result stage false] := by
  cases res with
  | panic r w => simp [logResult, Res.world]
  | ret v w =>
    cases v with
    | ok v => simp [logResult, Res.world, World.log]
    | error e => simp [logResult, Res.world, World.log]

theorem transcribeAudio_trace (E : Env) (audioFile : String) (w : World) :
    match transcribeAudio E audioFile w with
    | .panic _ w1 => w1.trace = w.trace ++ [.invoke "transcribeAudio"]
    | .ret (.ok _) w1 =>
      w1.trace = w.trace ++ [.invoke "transcribeAudio", .result "transcribeAudio" true]
    | .ret (.error _) w1 =>
      w1.trace = w.trace ++ [.invoke "transcribeAudio", .result "transcribeAudio" false] := by
  have inner : ∀ res : Res (Except String String),
      res.world.trace = w.trace ++ [.invoke "transcribeAudio"] →
      match logResult "transcribeAudio" res with
      | .panic _ w1 => w1.trace = w.trace ++ [.invoke "transcribeAudio"]
      | .ret (.ok _) w1 =>
        w1.trace = w.trace ++ [.invoke "transcribeAudio", .result "transcribeAudio" true]
      | .ret (.error _) w1 =>
        w1.trace = w.trace ++ [.invoke "transcribeAudio", .result "transcribeAudio" false] := by
    intro res hres
    have h := logResult_trace "transcribeAudio" res
    rw [hres] at h
    split <;> next heq => simp only [heq, List.append_assoc, List.singleton_append] at h; exact h
  unfold transcribeAudio
  apply inner
  split
  · rfl
  · split
    · rw [transcribeAudioChunked_trace]; rfl
    · rw [transcribeAudioDirect_trace]; rfl

theorem writeTranscript_trace (path transcript : String) (w : World) :
    (writeTranscript path transcript w).2.trace =
      w.trace ++ [.result "writeTranscript" (writeTranscript path transcript w).1.isNone] := by
  unfold writeTranscript
  split <;> rfl

theorem extractVideoMetadata_trace (E : Env) (job : Job) (url : String) (w : World) :
    match extractVideoMetadata E job url w with
    | .panic _ w1 => w1.trace = w.trace ++ [.invoke "extractVideoMetadata"]
    | .ret _ w1 => ∃ m, w1.trace =
        w.trace ++ [.invoke "extractVideoMetadata", .result "extractVideoMetadata" m] := by
  unfold extractVideoMetadata
  simp only []
  split
  · next heq =>
    split at heq
    · cases heq; rfl
    · cases heq
    · split at heq <;> cases heq
  · next heq =>
    split at heq
    · cases heq
    · cases heq; exact ⟨false, by simp [World.log]⟩
    · split at heq
      · cases heq; exact ⟨false, by simp [World.log]⟩
      · cases heq; exact ⟨true, by simp [World.log]⟩

theorem downloadAudio_trace (E : Env) (jobID url : String) (w : World) :
    match downloadAudio E jobID url w with
    | .panic _ w1 => w1.trace = w.trace ++ [.invoke "downloadAudio"]
    | .ret (.ok _) w1 =>
      w1.trace = w.trace ++ [.invoke "downloadAudio", .result "downloadAudio" true]
    | .ret (.error _) w1 =>
      w1.trace = w.trace ++ [.invoke "downloadAudio", .result "downloadAudio" false] := by
  unfold downloadAudio
  simp only []
  cases E.ytdlpFfmpeg url (filepathJoin "/tmp" (jobID ++ ".wav"))
      (w.log (.invoke "downloadAudio")).fs with
  | panicked r fs => simp [World.log]
  | returned res fs => cases res <;> simp [World.log]

theorem transcribeAndSave_trace (E : Env) (job : Job) (audioFile filename path : String)
    (w : World) :
    match transcribeAndSave E job audioFile filename path w with
    | .finished _ w1 => ∃ t, t ∈ saveTraces ∧ w1.trace = w.trace ++ t
    | .panicked _ _ w1 => w1.trace = w.trace ++ [.invoke "transcribeAudio"] := by
  have ht := transcribeAudio_trace E audioFile w
  unfold transcribeAndSave
  cases hta : transcribeAudio E audioFile w with
  | panic r w1 =>
    rw [hta] at ht
    exact ht
  | ret v w1 =>
    rw [hta] at ht
    cases v with
    | error err =>
      refine ⟨_, List.mem_cons_self _ _, ?_⟩
      simp [updateJobStatusDetailed, saveJobToDisk_trace, World.log, Event.ofRecord, ht]
    | ok transcript =>
      have hw := writeTranscript_trace path transcript
        (updateJobStatusDetailed E job "saving" 90 100 90 "" w1).2
      rw [update_trace] at hw
      simp only [] at ht ⊢
      rw [ht] at hw
      cases hwr : writeTranscript path transcript
          (updateJobStatusDetailed E job "saving" 90 100 90 "" w1).2 with
      | mk e w2 =>
        rw [hwr] at hw
        cases e with
        | some err =>
          simp only []
          refine ⟨_, List.mem_cons_of_mem _ (List.mem_cons_self _ _), ?_⟩
          rw [update_trace, hw]
          simp
        | none =>
          simp only []
          refine ⟨_, List.mem_cons_of_mem _ (List.mem_cons_of_mem _ (List.mem_cons_self _ _)), ?_⟩
          rw [completeJob_trace, hw]
          simp

theorem mem_processJobTraces_of_save (m : Bool) (t : List Event) (h : t ∈ saveTraces) :
    [Event.statusWrite "fetching_info" 10 0 0, .invoke "extractVideoMetadata",
      .result "extractVideoMetadata" m, .statusWrite "downloading" 25 0 0,
      .invoke "downloadAudio", .result "downloadAudio" true,
      .statusWrite "transcribing" 50 100 0] ++ t ∈ processJobTraces := by
  unfold processJobTraces
  apply List.mem_append_right
  rw [List.mem_flatMap]
  refine ⟨m, by cases m <;> simp, ?_⟩
  simp only []
  apply List.mem_append_right
  rw [List.mem_map]
  exact ⟨t, h, by simp⟩

theorem processJob_trace (E : Env) (job : Job) (url : String) (w : World) :
    ∃ t, t ∈ processJobTraces ∧ (processJob E job url w).2.trace = w.trace ++ t := by
  unfold processJob processJobBody
  simp only []
  have hm := extractVideoMetadata_trace E
    (updateJobStatusDetailed E job "fetching_info" 10 0 0 "" w).1 url
    (updateJobStatusDetailed E job "fetching_info" 10 0 0 "" w).2
  cases hme : extractVideoMetadata E
      (updateJobStatusDetailed E job "fetching_info" 10 0 0 "" w).1 url
      (updateJobStatusDetailed E job "fetching_info" 10 0 0 "" w).2 with
  | panic r w1 =>
    rw [hme] at hm
    simp only [] at hm ⊢
    refine ⟨_, List.mem_cons_self _ _, ?_⟩
    rw [update_trace, hm, update_trace]
    simp
  | ret v w1 =>
    rw [hme] at hm
    obtain ⟨job1, e⟩ := v
    obtain ⟨m, hm⟩ := hm
    rw [update_trace] at hm
    simp only []
    have hd := downloadAudio_trace E
      (updateJobStatusDetailed E job1 "downloading" 25 0 0 "" w1).1.ID url
      (updateJobStatusDetailed E job1 "downloading" 25 0 0 "" w1).2
    cases hdl : downloadAudio E
        (updateJobStatusDetailed E job1 "downloading" 25 0 0 "" w1).1.ID url
        (updateJobStatusDetailed E job1 "downloading" 25 0 0 "" w1).2 with
    | panic r w2 =>
      rw [hdl] at hd
      simp only [] at hd ⊢
      rw [update_trace, hm] at hd
      refine ⟨[.statusWrite "fetching_info" 10 0 0, .invoke "extractVideoMetadata",
        .result "extractVideoMetadata" m, .statusWrite "downloading" 25 0 0,
        .invoke "downloadAudio", .statusWrite "error" 0 0 0], ?_, ?_⟩
      · cases m <;> decide
      · rw [update_trace, hd]
        simp
    | ret v w2 =>
      rw [hdl] at hd
      cases v with
      | error err =>
        simp only [] at hd ⊢
        rw [update_trace, hm] at hd
        refine ⟨[.statusWrite "fetching_info" 10 0 0, .invoke "extractVideoMetadata",
          .result "extractVideoMetadata" m, .statusWrite "downloading" 25 0 0,
          .invoke "downloadAudio", .result "downloadAudio" false,
          .statusWrite "error" 0 0 0], ?_, ?_⟩
        · cases m <;> decide
        · rw [update_trace, hd]
          simp
      | ok audioFile =>
        simp only [] at hd ⊢
        rw [update_trace, hm] at hd
        generalize hj : (updateJobStatusDetailed E
          (publishAudio (updateJobStatusDetailed E job1 "downloading" 25 0 0 "" w1).1 audioFile
            ((updateJobStatusDetailed E job1 "downloading" 25 0 0 "" w1).1.ID ++ ".wav")
            (filepathJoin "/data"
              ((updateJobStatusDetailed E job1 "downloading" 25 0 0 "" w1).1.ID ++ ".wav"))
            w2).1 "transcribing" 50 100 0 ""
          (publishAudio (updateJobStatusDetailed E job1 "downloading" 25 0 0 "" w1).1 audioFile
            ((updateJobStatusDetailed E job1 "downloading" 25 0 0 "" w1).1.ID ++ ".wav")
            (filepathJoin "/data"
              ((updateJobStatusDetailed E job1 "downloading" 25 0 0 "" w1).1.ID ++ ".wav"))
            w2).2) = upd
        have hu : upd.2.trace = w.trace ++
            [.statusWrite "fetching_info" 10 0 0, .invoke "extractVideoMetadata",
              .result "extractVideoMetadata" m, .statusWrite "downloading" 25 0 0,
              .invoke "downloadAudio", .result "downloadAudio" true,
              .statusWrite "transcribing" 50 100 0] := by
          rw [← hj, update_trace, publishAudio_trace, hd]
          simp
        have hts := transcribeAndSave_trace E upd.1 audioFile (upd.1.ID ++ ".txt")
          (filepathJoin "/data" (upd.1.ID ++ ".txt")) upd.2
        cases htr : transcribeAndSave E upd.1 audioFile (upd.1.ID ++ ".txt")
            (filepathJoin "/data" (upd.1.ID ++ ".txt")) upd.2 with
        | finished job3 w3 =>
          rw [htr] at hts
          obtain ⟨t, htmem, ht⟩ := hts
          refine ⟨_, mem_processJobTraces_of_save m t htmem, ?_⟩
          simp only []
          rw [ht, hu]
          simp
        | panicked r job3 w3 =>
          rw [htr] at hts
          simp only [] at hts ⊢
          refine ⟨[.statusWrite "fetching_info" 10 0 0, .invoke "extractVideoMetadata",
            .result "extractVideoMetadata" m, .statusWrite "downloading" 25 0 0,
            .invoke "downloadAudio", .result "downloadAudio" true,
            .statusWrite "transcribing" 50 100 0, .invoke "transcribeAudio",
            .statusWrite "error" 0 0 0], ?_, ?_⟩
          · cases m <;> decide
          · rw [update_trace, hts, hu]
            simp

theorem statusWrites_of_success :
    ∀ t ∈ processJobTraces,
      Event.result "downloadAudio" true ∈ t → Event.result "transcribeAudio" true ∈ t →
      Event.result "writeTranscript" true ∈ t →
      statusWrites t =
        [("fetching_info", 10, 0, 0), ("downloading", 25, 0, 0), ("transcribing", 50, 100, 0),
          ("saving", 90, 100, 90), ("done", 100, 100, 100)] := by
  decide

theorem statusWrites_append (a b : List Event) :
    statusWrites (a ++ b) = statusWrites a ++ statusWrites b := by
  induction a with
  | nil => rfl
  | cons e rest ih => cases e <;> simp [statusWrites, ih]

theorem statusWrites_concat_write (t : List Event) (st : String) (p a tr : Int) :
    (statusWrites (t ++ [.statusWrite st p a tr])).getLast? = some (st, p, a, tr) := by
  rw [statusWrites_append]
  simp [statusWrites]

theorem update_lastWrite (E : Env) (job : Job) (status : String) (p a t : Int) (msg : String)
    (w : World) :
    LastWrite (updateJobStatusDetailed E job status p a t msg w).1
      (updateJobStatusDetailed E job status p a t msg w).2 := by
  unfold LastWrite
  rw [update_trace]
  exact statusWrites_concat_write _ _ _ _ _

theorem completeJob_lastWrite (E : Env) (job : Job) (text filename : String) (w : World) :
    LastWrite (completeJob E job text filename w).1 (completeJob E job text filename w).2 := by
  unfold LastWrite
  rw [completeJob_trace]
  exact statusWrites_concat_write _ _ _ _ _

theorem transcribeAndSave_lastWrite (E : Env) (job : Job) (audioFile filename path : String)
    (w : World) :
    (transcribeAndSave E job audioFile filename path w).FinishedIn LastWrite := by
  unfold transcribeAndSave
  cases transcribeAudio E audioFile w with
  | panic r w1 => trivial
  | ret v w1 =>
    cases v with
    | error err => exact update_lastWrite E job _ _ _ _ _ w1
    | ok transcript =>
      simp only []
      cases hw : writeTranscript path transcript
          (updateJobStatusDetailed E job "saving" 90 100 90 "" w1).2 with
      | mk e w2 =>
        cases e with
        | some err => exact update_lastWrite E _ _ _ _ _ _ w2
        | none => exact completeJob_lastWrite E _ _ _ w2

theorem processJobBody_lastWrite (E : Env) (job : Job) (url : String) (w : World) :
    (processJobBody E job url w).FinishedIn LastWrite := by
  unfold processJobBody
  simp only []
  cases extractVideoMetadata E _ url _ with
  | panic r w1 => trivial
  | ret v w1 =>
    obtain ⟨job1, e⟩ := v
    simp only []
    cases downloadAudio E _ url _ with
    | panic r w2 => trivial
    | ret v w2 =>
      cases v with
      | error err => exact update_lastWrite E _ _ _ _ _ _ w2
      | ok audioFile => exact transcribeAndSave_lastWrite E _ _ _ _ _

theorem processJob_lastWrite (E : Env) (job : Job) (url : String) (w : World) :
    LastWrite (processJob E job url w).1 (processJob E job url w).2 := by
  have h := processJobBody_lastWrite E job url w
  unfold processJob
  cases hb : processJobBody E job url w with
  | finished job1 w1 =>
    rw [hb] at h
    exact h
  | panicked r job1 w1 => exact update_lastWrite E job1 _ _ _ _ _ w1

/-- C3: in every run of `processJob` that records a successful `downloadAudio`,
a successful `transcribeAudio` and a successful write of the transcript
(whatever metadata extraction does), the writes of (Status, Progress,
AudioProgress, TranscriptProgress) to the job record, each recorded as the
values the record holds once written, are in order (fetching_info,10,0,0),
(downloading,25,0,0), (transcribing,50,100,0), (saving,90,100,90),
(done,100,100,100), and the record the run leaves holds the last of them. Each
write is made by `updateJobStatusDetailed` or by the completion step, and the
record either returns holds the values it was called with, which are the
values recorded. -/
theorem processJob_status_sequence (E : Env) (job : Job) (url : String) (w : World)
    (hd : Event.result "downloadAudio" true ∈
      (processJob E job url w).2.trace.drop w.trace.length)
    (ht : Event.result "transcribeAudio" true ∈
      (processJob E job url w).2.trace.drop w.trace.length)
    (hs : Event.result "writeTranscript" true ∈
      (processJob E job url w).2.trace.drop w.trace.length) :
    statusWrites ((processJob E job url w).2.trace.drop w.trace.length) =
      [("fetching_info", 10, 0, 0), ("downloading", 25, 0, 0), ("transcribing", 50, 100, 0),
        ("saving", 90, 100, 90), ("done", 100, 100, 100)] ∧
    (processJob E job url w).1.lifecycle = ("done", 100, 100, 100) ∧
    (∀ (j : Job) (st : String) (p a t : Int) (msg : String) (w0 : World),
      (updateJobStatusDetailed E j st p a t msg w0).1.lifecycle = (st, p, a, t) ∧
      (updateJobStatusDetailed E j st p a t msg w0).2.trace =
        w0.trace ++ [Event.ofRecord (updateJobStatusDetailed E j st p a t msg w0).1]) ∧
    (∀ (j : Job) (text filename : String) (w0 : World),
      (completeJob E j text filename w0).1.lifecycle = ("done", 100, 100, 100) ∧
      (completeJob E j text filename w0).2.trace =
        w0.trace ++ [Event.ofRecord (completeJob E j text filename w0).1]) := by
  obtain ⟨t, htmem, heq⟩ := processJob_trace E job url w
  have hlast := processJob_lastWrite E job url w
  unfold LastWrite at hlast
  rw [heq, List.drop_left] at hd ht hs ⊢
  have hseq := statusWrites_of_success t htmem hd ht hs
  refine ⟨hseq, ?_, ?_, ?_⟩
  · rw [heq, statusWrites_append, hseq] at hlast
    simp at hlast
    exact hlast.symm
  · intro j st p a t msg w0
    exact ⟨rfl, update_trace E j st p a t msg w0⟩
  · intro j text filename w0
    exact ⟨rfl, completeJob_trace E j text filename w0⟩

set_option maxRecDepth 100000 in
theorem processJob_status_sequence_witness :
    Event.result "downloadAudio" true ∈
      (processJob speechEnv sampleJob sampleJob.URL freshWorld).2.trace.drop
        freshWorld.trace.length ∧
    Event.result "transcribeAudio" true ∈
      (processJob speechEnv sampleJob sampleJob.URL freshWorld).2.trace.drop
        freshWorld.trace.length ∧
    Event.result "writeTranscript" true ∈
      (processJob speechEnv sampleJob sampleJob.URL freshWorld).2.trace.drop
        freshWorld.trace.length ∧
    statusWrites ((processJob speechEnv sampleJob sampleJob.URL freshWorld).2.trace.drop
        freshWorld.trace.length) =
      [("fetching_info", 10, 0, 0), ("downloading", 25, 0, 0), ("transcribing", 50, 100, 0),
        ("saving", 90, 100, 90), ("done", 100, 100, 100)] ∧
    (processJob speechEnv sampleJob sampleJob.URL freshWorld).1.lifecycle =
      ("done", 100, 100, 100) :=
  ⟨by decide, by decide, by decide,
    (processJob_status_sequence speechEnv sampleJob sampleJob.URL freshWorld
      (by decide) (by decide) (by decide)).1,
    (processJob_status_sequence speechEnv sampleJob sampleJob.URL freshWorld
      (by decide) (by decide) (by decide)).2.1⟩

/-! ### Chunked transcription -/

theorem isTrimmedChars_iff (l : List Char) :
    isTrimmedChars l = true ↔
      ∃ a b, l.head? = some a ∧ l.getLast? = some b ∧ isSpace a = false ∧ isSpace b = false := by
  unfold isTrimmedChars
  constructor
  · intro h
    split at h
    · next a b ha hb => exact ⟨a, b, ha, hb, by simpa using h⟩
    · cases h
  · rintro ⟨a, b, ha, hb, hsa, hsb⟩
    simp [ha, hb, hsa, hsb]

theorem isTrimmedChars_append (x m y : List Char) (hx : isTrimmedChars x = true)
    (hy : isTrimmedChars y = true) : isTrimmedChars (x ++ (m ++ y)) = true := by
  rw [isTrimmedChars_iff] at hx hy ⊢
  obtain ⟨a, _, ha, _, hsa, _⟩ := hx
  obtain ⟨_, b, _, hb, _, hsb⟩ := hy
  refine ⟨a, b, ?_, ?_, hsa, hsb⟩
  · simp [List.head?_append, ha]
  · simp [List.getLast?_append, hb]

theorem trimSpaceChars_append_space (l : List Char) (h : isTrimmedChars l = true) :
    trimSpaceChars (l ++ [' ']) = l := by
  rw [isTrimmedChars_iff] at h
  obtain ⟨a, b, ha, hb, hsa, hsb⟩ := h
  unfold trimSpaceChars
  cases l with
  | nil => simp at ha
  | cons c cs =>
    have hc : c = a := by simpa using ha
    subst hc
    rw [List.cons_append, List.dropWhile_cons_of_neg (by simp [hsa]), ← List.cons_append,
      List.rdropWhile_concat_pos _ _ _ (by decide), List.rdropWhile_eq_self_iff]
    intro hl
    have := List.getLast?_eq_getLast (c :: cs) hl
    rw [hb] at this
    cases this
    simp [hsb]

theorem intercalate_cons_cons (sep x y : List Char) (rest : List (List Char)) :
    List.intercalate sep (x :: y :: rest) = x ++ (sep ++ List.intercalate sep (y :: rest)) := by
  simp [List.intercalate, List.intersperse]

theorem intercalate_singleton (sep x : List Char) : List.intercalate sep [x] = x := by
  simp [List.intercalate, List.intersperse]

theorem flatten_map_append_sep (sep : List Char) :
    ∀ (ts : List (List Char)), ts ≠ [] →
      (ts.map (· ++ sep)).flatten = List.intercalate sep ts ++ sep
  | [], h => absurd rfl h
  | [t], _ => by simp [intercalate_singleton]
  | t :: t' :: rest, _ => by
    have ih := flatten_map_append_sep sep (t' :: rest) (by simp)
    rw [List.map_cons, List.flatten_cons, ih, intercalate_cons_cons]
    simp

theorem isTrimmedChars_intercalate (sep : List Char) :
    ∀ (ts : List (List Char)), ts ≠ [] → (∀ t ∈ ts, isTrimmedChars t = true) →
      isTrimmedChars (List.intercalate sep ts) = true
  | [], h, _ => absurd rfl h
  | [t], _, ht => by
    rw [intercalate_singleton]
    exact ht t (by simp)
  | t :: t' :: rest, _, ht => by
    rw [intercalate_cons_cons]
    exact isTrimmedChars_append t sep _ (ht t (by simp))
      (isTrimmedChars_intercalate sep (t' :: rest) (by simp)
        (fun u hu => ht u (List.mem_cons_of_mem _ hu)))

theorem trimSpaceChars_joined (ts : List (List Char))
    (h : ∀ t ∈ ts, isTrimmedChars t = true) :
    trimSpaceChars ((ts.map (· ++ [' '])).flatten) = List.intercalate [' '] ts := by
  cases ts with
  | nil => decide
  | cons t rest =>
    rw [flatten_map_append_sep [' '] (t :: rest) (by simp)]
    exact trimSpaceChars_append_space _ (isTrimmedChars_intercalate [' '] (t :: rest) (by simp) h)

theorem string_join_cons (x : String) (xs : List String) :
    String.join (x :: xs) = x ++ String.join xs := by
  apply String.ext
  simp [String.data_join]

theorem intercalate_go_data (s : String) :
    ∀ (l : List String) (acc : String),
      (String.intercalate.go acc s l).data =
        acc.data ++ (l.map (fun a => s.data ++ a.data)).flatten
  | [], acc => by simp [String.intercalate.go]
  | a :: as, acc => by
    rw [String.intercalate.go, intercalate_go_data s as]
    simp

theorem list_intercalate_cons (sep x : List Char) :
    ∀ (xs : List (List Char)),
      List.intercalate sep (x :: xs) = x ++ (xs.map (fun a => sep ++ a)).flatten
  | [] => by simp [intercalate_singleton]
  | y :: rest => by
    rw [intercalate_cons_cons, list_intercalate_cons sep y rest]
    simp

theorem string_intercalate_data (s : String) (l : List String) :
    (s.intercalate l).data = List.intercalate s.data (l.map String.data) := by
  cases l with
  | nil => rfl
  | cons a as =>
    rw [String.intercalate, intercalate_go_data, List.map_cons, list_intercalate_cons]
    simp [List.map_map, Function.comp_def]

theorem trimSpace_joined (texts : List String) (h : ∀ t ∈ texts, isTrimmed t = true) :
    trimSpace (String.join (texts.map (· ++ " "))) = " ".intercalate texts := by
  apply String.ext
  rw [string_intercalate_data]
  have hl := trimSpaceChars_joined (texts.map String.data) (by
    intro t ht
    obtain ⟨s, hs, rfl⟩ := List.mem_map.1 ht
    exact h s hs)
  simp only [trimSpace, String.toList, String.data_join, List.map_map]
  have e : (String.data ∘ fun x => x ++ " ") = ((fun x => x ++ [' ']) ∘ String.data) := by
    funext x
    simp
  rw [e, ← List.map_map]
  exact hl

theorem isTrimmedChars_trimSpaceChars (l : List Char) (h : trimSpaceChars l ≠ []) :
    isTrimmedChars (trimSpaceChars l) = true := by
  unfold trimSpaceChars at h ⊢
  have hpre := List.rdropWhile_prefix isSpace (l.dropWhile isSpace)
  have hd : l.dropWhile isSpace ≠ [] := by
    intro hnil
    rw [hnil] at h
    exact h rfl
  rw [isTrimmedChars_iff]
  refine ⟨_, _, List.head?_eq_head h, List.getLast?_eq_getLast _ h, ?_, ?_⟩
  · rw [hpre.head h]
    exact List.head_dropWhile_not isSpace l hd
  · simpa using List.rdropWhile_last_not isSpace (l.dropWhile isSpace) h

theorem transcribeAudioDirect_trimmed (E : Env) (audioFile : String) (w w1 : World)
    (text : String) (h : transcribeAudioDirect E audioFile w = .ret (.ok text) w1) :
    isTrimmed text = true := by
  unfold transcribeAudioDirect at h
  simp only [] at h
  split at h
  · cases h
  · cases h
  · split at h
    · cases h
    · next bytes _ =>
      split at h
      · cases h
      · next hne =>
        cases h
        apply isTrimmedChars_trimSpaceChars
        intro hnil
        apply hne
        unfold trimSpace
        rw [hnil]

theorem successTexts_trimmed (E : Env) :
    ∀ (chunks : List String) (w : World),
      ∀ t ∈ successTexts (segmentOutcomes E chunks w), isTrimmed t = true
  | [], _ => by simp [segmentOutcomes, successTexts]
  | chunk :: rest, w => by
    unfold segmentOutcomes
    cases hd : transcribeAudioDirect E chunk w with
    | panic r w1 => simp [successTexts]
    | ret v w1 =>
      cases v with
      | error err =>
        simp only [successTexts]
        exact successTexts_trimmed E rest w1
      | ok text =>
        simp only [successTexts]
        intro t ht
        rcases List.mem_cons.1 ht with h | h
        · rw [h]
          exact transcribeAudioDirect_trimmed E chunk w w1 text hd
        · exact successTexts_trimmed E rest _ t h

theorem chunkLoop_value (E : Env) :
    ∀ (chunks : List String) (b : String) (w : World),
      (∀ o ∈ segmentOutcomes E chunks w, o.isPanic = false) →
      (chunkLoop E chunks b w).value? =
        some (.ok (trimSpace
          (b ++ String.join ((successTexts (segmentOutcomes E chunks w)).map (· ++ " ")))))
  | [], b, w, _ => by simp [chunkLoop, segmentOutcomes, successTexts, Res.value?, String.join]
  | chunk :: rest, b, w, h => by
    unfold chunkLoop
    unfold segmentOutcomes at h ⊢
    cases hd : transcribeAudioDirect E chunk w with
    | panic r w1 =>
      rw [hd] at h
      have := h (.panic r) (by simp)
      simp [SegOutcome.isPanic] at this
    | ret v w1 =>
      rw [hd] at h
      cases v with
      | error err =>
        simp only [successTexts]
        exact chunkLoop_value E rest b w1 (fun o ho => h o (List.mem_cons_of_mem _ ho))
      | ok text =>
        simp only [successTexts, List.map_cons, string_join_cons]
        rw [chunkLoop_value E rest (b ++ text ++ " ") _
          (fun o ho => h o (List.mem_cons_of_mem _ ho))]
        simp [String.append_assoc]

/-- C5: when `splitAudioFile` returns a list of segments and every segment's
transcription gives a text or a failure, `transcribeAudioChunked` returns with
a nil error the whitespace-trim of the concatenation, in segment order, of each
successful segment's text followed by one space; when every successful text is
non-empty without leading or trailing white space, that is the successful
texts joined by single spaces, and the texts `transcribeAudioDirect` returns
are always so. -/
theorem transcribeAudioChunked_text (E : Env) (audioFile : String) (w : World)
    (chunks : List String)
    (hsplit : (splitAudioFile E audioFile w).value? = some (.ok chunks))
    (hout : ∀ o ∈ segmentOutcomes E chunks (splitAudioFile E audioFile w).world,
      o.isPanic = false) :
    (transcribeAudioChunked E audioFile w).value? =
      some (.ok (trimSpace (String.join
        ((successTexts (segmentOutcomes E chunks (splitAudioFile E audioFile w).world)).map
          (· ++ " "))))) ∧
    ((∀ t ∈ successTexts (segmentOutcomes E chunks (splitAudioFile E audioFile w).world),
        isTrimmed t = true) →
      trimSpace (String.join
        ((successTexts (segmentOutcomes E chunks (splitAudioFile E audioFile w).world)).map
          (· ++ " "))) =
      " ".intercalate
        (successTexts (segmentOutcomes E chunks (splitAudioFile E audioFile w).world))) ∧
    (∀ t ∈ successTexts (segmentOutcomes E chunks (splitAudioFile E audioFile w).world),
      isTrimmed t = true) := by
  refine ⟨?_, trimSpace_joined _, successTexts_trimmed E _ _⟩
  unfold transcribeAudioChunked
  cases hs : splitAudioFile E audioFile w with
  | panic r w1 =>
    rw [hs] at hsplit
    simp [Res.value?] at hsplit
  | ret v w1 =>
    rw [hs] at hsplit hout
    simp only [Res.value?, Option.some.injEq] at hsplit
    subst hsplit
    simp only [Res.world] at hout ⊢
    rw [chunkLoop_value E chunks "" w1 hout]
    simp

set_option maxRecDepth 100000 in
theorem transcribeAudioChunked_text_witness :
    (splitAudioFile lectureEnv "/tmp/j1.wav" lectureWorld).value? = some (.ok lectureChunks) ∧
    (∀ o ∈ segmentOutcomes lectureEnv lectureChunks
        (splitAudioFile lectureEnv "/tmp/j1.wav" lectureWorld).world, o.isPanic = false) ∧
    (transcribeAudioChunked lectureEnv "/tmp/j1.wav" lectureWorld).value? =
      some (.ok (trimSpace (String.join
        ((successTexts (segmentOutcomes lectureEnv lectureChunks
          (splitAudioFile lectureEnv "/tmp/j1.wav" lectureWorld).world)).map (· ++ " "))))) ∧
    successTexts (segmentOutcomes lectureEnv lectureChunks
        (splitAudioFile lectureEnv "/tmp/j1.wav" lectureWorld).world) =
      ["text of j1_chunk_0.wav", "text of j1_chunk_1.wav", "text of j1_chunk_3.wav"] :=
  ⟨by rfl, by decide,
    (transcribeAudioChunked_text lectureEnv "/tmp/j1.wav" lectureWorld lectureChunks
      (by rfl) (by decide)).1,
    by decide⟩

/-! ### Paths -/

theorem splitSlash_concat (c : Char) (hc : c ≠ '/') :
    ∀ xs : List Char, ∃ init l,
      splitSlash xs = init ++ [l] ∧ splitSlash (xs ++ [c]) = init ++ [l ++ [c]]
  | [] => ⟨[], [], by simp [splitSlash], by simp [splitSlash, hc]⟩
  | x :: xs => by
    obtain ⟨init, l, h1, h2⟩ := splitSlash_concat c hc xs
    by_cases hx : x = '/'
    · exact ⟨[] :: init, l, by simp [splitSlash, hx, h1], by simp [splitSlash, hx, h2]⟩
    · cases init with
      | nil =>
        exact ⟨[], x :: l, by simp [splitSlash, hx, h1], by simp [splitSlash, hx, h2]⟩
      | cons h t =>
        exact ⟨(x :: h) :: t, l, by simp [splitSlash, hx, h1], by simp [splitSlash, hx, h2]⟩

theorem cleanStep_keep (rooted : Bool) (stack : List (List Char)) (l : List Char) (c : Char)
    (hc : c ≠ '.') : cleanStep rooted stack (l ++ [c]) = (l ++ [c]) :: stack := by
  have h1 : l ++ [c] ≠ [] := by simp
  have h2 : l ++ [c] ≠ ['.'] := by
    intro h
    have := congrArg List.getLast? h
    simp at this
    exact hc this
  have h3 : l ++ [c] ≠ ['.', '.'] := by
    intro h
    have := congrArg List.getLast? h
    simp at this
    exact hc this
  simp [cleanStep, h1, h2, h3]

theorem intercalate_concat_getLast? (sep l : List Char) (c : Char) :
    ∀ xs : List (List Char),
      (List.intercalate sep (xs ++ [l ++ [c]])).getLast? = some c
  | [] => by simp [intercalate_singleton]
  | [x] => by
    rw [List.singleton_append, intercalate_cons_cons, intercalate_singleton]
    simp [List.getLast?_append]
  | x :: y :: rest => by
    have ih := intercalate_concat_getLast? sep l c (y :: rest)
    rw [List.cons_append, List.cons_append, intercalate_cons_cons, ← List.cons_append]
    rw [List.getLast?_append, List.getLast?_append, ih]
    simp

theorem cleanChars_getLast? (xs : List Char) (c : Char) (h1 : c ≠ '/') (h2 : c ≠ '.') :
    (cleanChars (xs ++ [c])).getLast? = some c := by
  obtain ⟨init, l, _, hs⟩ := splitSlash_concat c h1 xs
  have hbody : ∀ rooted : Bool,
      (List.intercalate ['/']
        ((splitSlash (xs ++ [c])).foldl (cleanStep rooted) []).reverse).getLast? = some c := by
    intro rooted
    rw [hs, List.foldl_append, List.foldl_cons, List.foldl_nil, cleanStep_keep _ _ _ _ h2,
      List.reverse_cons]
    exact intercalate_concat_getLast? _ _ _ _
  unfold cleanChars
  simp only []
  split
  · rw [List.getLast?_cons, hbody]
    simp
  · split
    · next hnil =>
      have := hbody (decide ((xs ++ [c]).head? = some '/'))
      rw [hnil] at this
      simp at this
    · exact hbody _

theorem filepathJoin_getLast? (dir name : String) (c : Char) (h1 : c ≠ '/') (h2 : c ≠ '.') :
    (filepathJoin dir (name ++ String.mk [c])).data.getLast? = some c := by
  unfold filepathJoin filepathClean
  split
  · have e : (dir ++ "/" ++ (name ++ String.mk [c])).toList =
        (dir.data ++ ['/'] ++ name.data) ++ [c] := by
      simp [String.toList]
    rw [e]
    exact cleanChars_getLast? _ c h1 h2
  · have hne : name ++ String.mk [c] ≠ "" := by
      intro h
      have := congrArg String.data h
      simp at this
    rw [if_pos hne]
    have e : (name ++ String.mk [c]).toList = name.data ++ [c] := by
      simp [String.toList]
    rw [e]
    exact cleanChars_getLast? _ c h1 h2

theorem txt_ne_json (d1 d2 id1 id2 : String) :
    filepathJoin d1 (id1 ++ ".json") ≠ filepathJoin d2 (id2 ++ ".txt") := by
  intro h
  have a := filepathJoin_getLast? d1 (id1 ++ ".jso") 'n' (by decide) (by decide)
  have b := filepathJoin_getLast? d2 (id2 ++ ".tx") 't' (by decide) (by decide)
  have e1 : id1 ++ ".jso" ++ String.mk ['n'] = id1 ++ ".json" := by
    rw [String.append_assoc]; rfl
  have e2 : id2 ++ ".tx" ++ String.mk ['t'] = id2 ++ ".txt" := by
    rw [String.append_assoc]; rfl
  rw [e1] at a
  rw [e2] at b
  rw [h, b] at a
  exact absurd a (by decide)

theorem txt_ne_wav (d1 d2 id1 id2 : String) :
    filepathJoin d1 (id1 ++ ".wav") ≠ filepathJoin d2 (id2 ++ ".txt") := by
  intro h
  have a := filepathJoin_getLast? d1 (id1 ++ ".wa") 'v' (by decide) (by decide)
  have b := filepathJoin_getLast? d2 (id2 ++ ".tx") 't' (by decide) (by decide)
  have e1 : id1 ++ ".wa" ++ String.mk ['v'] = id1 ++ ".wav" := by
    rw [String.append_assoc]; rfl
  have e2 : id2 ++ ".tx" ++ String.mk ['t'] = id2 ++ ".txt" := by
    rw [String.append_assoc]; rfl
  rw [e1] at a
  rw [e2] at b
  rw [h, b] at a
  exact absurd a (by decide)

/-! ### Resuming a job whose transcript is on disk -/

theorem Preserves.rfl' (path : String) (fs : FileSys) : Preserves path fs fs :=
  ⟨rfl, rfl, rfl, fun _ h => h⟩

theorem Preserves.trans' {path : String} {a b c : FileSys} (h1 : Preserves path a b)
    (h2 : Preserves path b c) : Preserves path a c :=
  ⟨h2.1.trans h1.1, h2.2.1.trans h1.2.1, h2.2.2.1.trans h1.2.2.1,
    fun p hp => h2.2.2.2 p (h1.2.2.2 p hp)⟩

theorem osWriteFile_preserves (fs : FileSys) (p data path : String) (h : p ≠ path) :
    Preserves path fs (osWriteFile fs p data).2 := by
  unfold osWriteFile
  split
  · refine ⟨by simp [Ne.symm h], rfl, rfl, ?_⟩
    intro q hq
    simp only []
    split
    · rfl
    · exact hq
  · exact Preserves.rfl' path fs

theorem saveJobToDisk_preserves (E : Env) (job : Job) (w : World) (dir id : String) :
    Preserves (filepathJoin dir (id ++ ".txt")) w.fs (saveJobToDisk E job w).fs := by
  unfold saveJobToDisk
  split
  · exact Preserves.rfl' _ _
  · exact osWriteFile_preserves _ _ _ _ (txt_ne_json _ _ _ _)

theorem update_preserves (E : Env) (job : Job) (status : String) (p a t : Int) (msg : String)
    (w : World) (dir id : String) :
    Preserves (filepathJoin dir (id ++ ".txt")) w.fs
      (updateJobStatusDetailed E job status p a t msg w).2.fs := by
  unfold updateJobStatusDetailed
  exact saveJobToDisk_preserves E _ (w.log _) dir id

theorem completeJob_preserves (E : Env) (job : Job) (text filename : String) (w : World)
    (dir id : String) :
    Preserves (filepathJoin dir (id ++ ".txt")) w.fs (completeJob E job text filename w).2.fs := by
  unfold completeJob
  exact saveJobToDisk_preserves E _ (w.log _) dir id

theorem osReadFile_isSome (fs : FileSys) (path data : String)
    (h : osReadFile fs path = .ok data) : (fs.file path).isSome = true := by
  unfold osReadFile at h
  cases hf : fs.file path with
  | none =>
    rw [hf] at h
    simp at h
  | some f => rfl

theorem copyFile_preserves (src dst : String) (w : World) (path : String) (h : dst ≠ path) :
    Preserves path w.fs (copyFile src dst w).2.fs := by
  have hw := fun data => osWriteFile_preserves w.fs dst data path h
  unfold copyFile
  split
  · exact Preserves.rfl' _ _
  · next data hrd =>
    have := hw data
    have hsrc := osReadFile_isSome w.fs src data hrd
    split
    · next hwr => rw [hwr] at this; exact this
    · next fs1 hwr =>
      rw [hwr] at this
      obtain ⟨h1, h2, h3, h4⟩ := this
      refine ⟨?_, h2, h3, ?_⟩
      · show (if path = dst then _ else fs1.file path) = w.fs.file path
        rw [if_neg (fun e => h e.symm)]
        exact h1
      · intro p hp
        show (if p = dst then (w.fs.file src).map _ else fs1.file p).isSome = true
        split
        · rw [Option.isSome_map']
          exact hsrc
        · exact h4 p hp

theorem publishAudio_preserves (job : Job) (audioFile audioFilename audioPath : String)
    (w : World) (path : String) (h : audioPath ≠ path) :
    Preserves path w.fs (publishAudio job audioFile audioFilename audioPath w).2.fs := by
  have hc := copyFile_preserves audioFile audioPath w path h
  unfold publishAudio
  split
  · next hcp => rw [hcp] at hc; exact hc
  · next hcp => rw [hcp] at hc; exact hc

theorem publishAudio_ID (job : Job) (audioFile audioFilename audioPath : String) (w : World) :
    (publishAudio job audioFile audioFilename audioPath w).1.ID = job.ID := by
  unfold publishAudio
  split <;> rfl

theorem existingTranscript_of_preserves (path : String) (fs fs1 : FileSys)
    (h : Preserves path fs fs1) :
    existingTranscript fs1 path = existingTranscript fs path := by
  unfold existingTranscript osStat osReadFile
  rw [h.1, h.2.1]

theorem resumePrepared_ID (job : Job) (w : World) : (resumePrepared job w).1.ID = job.ID := by
  unfold resumePrepared
  split
  · rfl
  · exact publishAudio_ID _ _ _ _ _

theorem resumePrepared_trace (job : Job) (w : World) :
    (resumePrepared job w).2.trace = w.trace := by
  unfold resumePrepared
  split
  · rfl
  · exact publishAudio_trace _ _ _ _ _

theorem resumePrepared_preserves (job : Job) (w : World) (dir id : String) :
    Preserves (filepathJoin dir (id ++ ".txt")) w.fs (resumePrepared job w).2.fs := by
  unfold resumePrepared
  split
  · exact Preserves.rfl' _ _
  · exact publishAudio_preserves _ _ _ _ _ _ (txt_ne_wav _ _ _ _)

theorem resumeAudio_of_audio (E : Env) (job : Job) (w : World)
    (haudio : (w.fs.file (filepathJoin "/data" (job.ID ++ ".wav"))).isSome = true ∨
      (w.fs.file (filepathJoin "/tmp" (job.ID ++ ".wav"))).isSome = true) :
    ∃ audioFile, resumeAudio E job w =
      .ready
        (updateJobStatusDetailed E (resumePrepared job w).1 "transcribing" 50 100 0 ""
          (resumePrepared job w).2).1
        audioFile
        (updateJobStatusDetailed E (resumePrepared job w).1 "transcribing" 50 100 0 ""
          (resumePrepared job w).2).2 := by
  simp only [resumeAudio, resumePrepared, osStat]
  cases hA : w.fs.file (filepathJoin "/data" (job.ID ++ ".wav")) with
  | some f => exact ⟨_, rfl⟩
  | none =>
    rw [hA] at haudio
    cases hT : w.fs.file (filepathJoin "/tmp" (job.ID ++ ".wav")) with
    | some f => exact ⟨_, rfl⟩
    | none =>
      rw [hT] at haudio
      simp at haudio

theorem processJobResume_of_transcript (E : Env) (job : Job) (w : World) (data : String)
    (haudio : (w.fs.file (filepathJoin "/data" (job.ID ++ ".wav"))).isSome = true ∨
      (w.fs.file (filepathJoin "/tmp" (job.ID ++ ".wav"))).isSome = true)
    (htxt : existingTranscript w.fs (filepathJoin "/data" (job.ID ++ ".txt")) = some data) :
    processJobResume E job w =
      completeJob E
        (updateJobStatusDetailed E (resumePrepared job w).1 "transcribing" 50 100 0 ""
          (resumePrepared job w).2).1
        data (job.ID ++ ".txt")
        (updateJobStatusDetailed E (resumePrepared job w).1 "transcribing" 50 100 0 ""
          (resumePrepared job w).2).2 := by
  obtain ⟨audioFile, hra⟩ := resumeAudio_of_audio E job w haudio
  have hid : (updateJobStatusDetailed E (resumePrepared job w).1 "transcribing" 50 100 0 ""
      (resumePrepared job w).2).1.ID = job.ID := resumePrepared_ID job w
  have hpres : Preserves (filepathJoin "/data" (job.ID ++ ".txt")) w.fs
      (updateJobStatusDetailed E (resumePrepared job w).1 "transcribing" 50 100 0 ""
        (resumePrepared job w).2).2.fs :=
    (resumePrepared_preserves job w "/data" job.ID).trans'
      (update_preserves E _ _ _ _ _ _ _ "/data" job.ID)
  have hex := existingTranscript_of_preserves _ _ _ hpres
  rw [htxt] at hex
  unfold processJobResume processJobResumeBody
  rw [hra]
  simp only [hid, hex]

theorem completeJob_fields (E : Env) (job : Job) (text filename : String) (w : World) :
    (completeJob E job text filename w).1 =
      { job with
        Status := "done"
        Progress := 100
        AudioProgress := 100
        TranscriptProgress := 100
        Text := text
        File := "/files/" ++ filename } := rfl

theorem update_fields_of_empty (E : Env) (job : Job) (status : String) (p a t : Int)
    (w : World) :
    (updateJobStatusDetailed E job status p a t "" w).1 =
      { job with
        Status := status
        Progress := p
        AudioProgress := a
        TranscriptProgress := t } := by
  simp [updateJobStatusDetailed]

theorem copyFile_ok_iff (src dst : String) (w : World) :
    (copyFile src dst w).1 = none ↔
      ((w.fs.file src).isSome = true ∧ w.fs.readable src = true ∧ w.fs.writable dst = true) := by
  unfold copyFile osReadFile osWriteFile
  cases w.fs.file src with
  | none => simp
  | some f =>
    cases w.fs.readable src with
    | false => simp
    | true =>
      cases w.fs.writable dst with
      | false => simp
      | true => simp

theorem copyFile_creates (src dst : String) (w : World) (h : (copyFile src dst w).1 = none) :
    ((copyFile src dst w).2.fs.file dst).isSome = true := by
  have hk := (copyFile_ok_iff src dst w).1 h
  obtain ⟨h1, h2, h3⟩ := hk
  unfold copyFile osReadFile osWriteFile
  cases hf : w.fs.file src with
  | none => rw [hf] at h1; simp at h1
  | some f => simp [h2, h3]

theorem publishAudio_job (job : Job) (audioFile audioFilename audioPath : String) (w : World) :
    ((copyFile audioFile audioPath w).1 = none ∧
      ((publishAudio job audioFile audioFilename audioPath w).2.fs.file audioPath).isSome = true) ∨
    ((copyFile audioFile audioPath w).1 ≠ none ∧
      (publishAudio job audioFile audioFilename audioPath w).1 = job) := by
  have hc := copyFile_creates audioFile audioPath w
  unfold publishAudio
  cases hcp : copyFile audioFile audioPath w with
  | mk e w1 =>
    rw [hcp] at hc
    cases e with
    | none => exact Or.inl ⟨rfl, hc rfl⟩
    | some err => exact Or.inr ⟨by simp, rfl⟩

theorem processJobResume_facts (E : Env) (job : Job) (w : World) (data : String)
    (haudio : (w.fs.file (filepathJoin "/data" (job.ID ++ ".wav"))).isSome = true ∨
      (w.fs.file (filepathJoin "/tmp" (job.ID ++ ".wav"))).isSome = true)
    (htxt : existingTranscript w.fs (filepathJoin "/data" (job.ID ++ ".txt")) = some data) :
    (processJobResume E job w).1.ID = job.ID ∧
    (processJobResume E job w).1.Status = "done" ∧
    (processJobResume E job w).1.Progress = 100 ∧
    (processJobResume E job w).1.AudioProgress = 100 ∧
    (processJobResume E job w).1.TranscriptProgress = 100 ∧
    (processJobResume E job w).1.Text = data ∧
    (processJobResume E job w).1.File = "/files/" ++ (job.ID ++ ".txt") ∧
    (processJobResume E job w).2.trace =
      w.trace ++ [.statusWrite "transcribing" 50 100 0, .statusWrite "done" 100 100 100] ∧
    Preserves (filepathJoin "/data" (job.ID ++ ".txt")) w.fs (processJobResume E job w).2.fs ∧
    Preserves (filepathJoin "/data" (job.ID ++ ".txt")) (resumePrepared job w).2.fs
      (processJobResume E job w).2.fs := by
  rw [processJobResume_of_transcript E job w data haudio htxt]
  have hp2 : Preserves (filepathJoin "/data" (job.ID ++ ".txt")) (resumePrepared job w).2.fs
      (completeJob E
        (updateJobStatusDetailed E (resumePrepared job w).1 "transcribing" 50 100 0 ""
          (resumePrepared job w).2).1
        data (job.ID ++ ".txt")
        (updateJobStatusDetailed E (resumePrepared job w).1 "transcribing" 50 100 0 ""
          (resumePrepared job w).2).2).2.fs :=
    (update_preserves E _ _ _ _ _ _ _ "/data" job.ID).trans'
      (completeJob_preserves E _ _ _ _ "/data" job.ID)
  refine ⟨resumePrepared_ID job w, rfl, rfl, rfl, rfl, rfl, rfl, ?_, ?_, hp2⟩
  · rw [completeJob_trace, update_trace, resumePrepared_trace]
    simp
  · exact (resumePrepared_preserves job w "/data" job.ID).trans' hp2

theorem resumePrepared_again (E : Env) (job : Job) (w : World) (data : String)
    (haudio : (w.fs.file (filepathJoin "/data" (job.ID ++ ".wav"))).isSome = true ∨
      (w.fs.file (filepathJoin "/tmp" (job.ID ++ ".wav"))).isSome = true)
    (htxt : existingTranscript w.fs (filepathJoin "/data" (job.ID ++ ".txt")) = some data) :
    (resumePrepared (processJobResume E job w).1 (processJobResume E job w).2).1 =
      (processJobResume E job w).1 := by
  obtain ⟨hid, _, _, _, _, _, _, _, hpw, hpp⟩ := processJobResume_facts E job w data haudio htxt
  unfold resumePrepared
  rw [hid]
  unfold osStat
  cases hA2 : (processJobResume E job w).2.fs.file (filepathJoin "/data" (job.ID ++ ".wav")) with
  | some f => rfl
  | none =>
    simp only []
    rcases publishAudio_job (processJobResume E job w).1
        (filepathJoin "/tmp" (job.ID ++ ".wav")) (job.ID ++ ".wav")
        (filepathJoin "/data" (job.ID ++ ".wav")) (processJobResume E job w).2 with h | h
    · exfalso
      obtain ⟨hT2, hr, hwr⟩ := (copyFile_ok_iff _ _ _).1 h.1
      have hAw : w.fs.file (filepathJoin "/data" (job.ID ++ ".wav")) = none := by
        cases hAw : w.fs.file (filepathJoin "/data" (job.ID ++ ".wav")) with
        | none => rfl
        | some f =>
          have := hpw.2.2.2 _ (by rw [hAw]; rfl)
          rw [hA2] at this
          simp at this
      have hTw : (w.fs.file (filepathJoin "/tmp" (job.ID ++ ".wav"))).isSome = true := by
        rcases haudio with h1 | h1
        · rw [hAw] at h1
          simp at h1
        · exact h1
      rw [hpw.2.1] at hr
      rw [hpw.2.2.1] at hwr
      have hok : (copyFile (filepathJoin "/tmp" (job.ID ++ ".wav"))
          (filepathJoin "/data" (job.ID ++ ".wav")) w).1 = none :=
        (copyFile_ok_iff _ _ _).2 ⟨hTw, hr, hwr⟩
      have hprep : ((resumePrepared job w).2.fs.file
          (filepathJoin "/data" (job.ID ++ ".wav"))).isSome = true := by
        unfold resumePrepared osStat
        rw [hAw]
        simp only []
        rcases publishAudio_job job (filepathJoin "/tmp" (job.ID ++ ".wav")) (job.ID ++ ".wav")
            (filepathJoin "/data" (job.ID ++ ".wav")) w with h2 | h2
        · exact h2.2
        · exact absurd hok h2.1
      have := hpp.2.2.2 _ hprep
      rw [hA2] at this
      simp at this
    · exact h.2

theorem processJobResume_idempotent (E : Env) (job : Job) (w : World) (data : String)
    (haudio : (w.fs.file (filepathJoin "/data" (job.ID ++ ".wav"))).isSome = true ∨
      (w.fs.file (filepathJoin "/tmp" (job.ID ++ ".wav"))).isSome = true)
    (htxt : existingTranscript w.fs (filepathJoin "/data" (job.ID ++ ".txt")) = some data) :
    (processJobResume E (processJobResume E job w).1 (processJobResume E job w).2).1 =
      (processJobResume E job w).1 := by
  obtain ⟨hid, hst, hpr, hap, htp, htx, hfile, _, hpw, _⟩ :=
    processJobResume_facts E job w data haudio htxt
  have haudio2 : ((processJobResume E job w).2.fs.file
        (filepathJoin "/data" ((processJobResume E job w).1.ID ++ ".wav"))).isSome = true ∨
      ((processJobResume E job w).2.fs.file
        (filepathJoin "/tmp" ((processJobResume E job w).1.ID ++ ".wav"))).isSome = true := by
    rw [hid]
    rcases haudio with h | h
    · exact Or.inl (hpw.2.2.2 _ h)
    · exact Or.inr (hpw.2.2.2 _ h)
  have htxt2 : existingTranscript (processJobResume E job w).2.fs
      (filepathJoin "/data" ((processJobResume E job w).1.ID ++ ".txt")) = some data := by
    rw [hid, existingTranscript_of_preserves _ _ _ hpw, htxt]
  rw [processJobResume_of_transcript E _ _ data haudio2 htxt2, completeJob_fields,
    update_fields_of_empty, resumePrepared_again E job w data haudio htxt]
  generalize processJobResume E job w = r at *
  obtain ⟨j, w1⟩ := r
  cases j
  simp only [] at hid hst hpr hap htp htx hfile ⊢
  subst hid hst hpr hap htp htx hfile
  rfl

set_option maxRecDepth 100000 in
/-- C2 fails on the code as stated: with the transcript of the job on disk but
no audio file, `processJobResume` ends in "error" when the job has no URL and
otherwise calls `downloadAudio` before it looks for the transcript (ending in
"error" when the download fails); and with a transcript file that exists but
cannot be read it calls `transcribeAudio`. -/
theorem processJobResume_transcript_not_enough :
    transcriptOnlyWorld.fs.file (filepathJoin "/data" (sampleJob.ID ++ ".txt")) =
      some ⟨5, "hello"⟩ ∧
    (processJobResume speechEnv sampleJobNoURL transcriptOnlyWorld).1.Status = "error" ∧
    Event.invoke "downloadAudio" ∈
      (processJobResume speechEnv sampleJob transcriptOnlyWorld).2.trace ∧
    (processJobResume offlineEnv sampleJob transcriptOnlyWorld).1.Status = "error" ∧
    unreadableWorld.fs.file (filepathJoin "/data" (sampleJob.ID ++ ".txt")) =
      some ⟨5, "hello"⟩ ∧
    Event.invoke "transcribeAudio" ∈
      (processJobResume speechEnv sampleJob unreadableWorld).2.trace := by
  decide

/-- C2 as amended: when the transcript artifact /data/<id>.txt exists and can
be read, and an audio artifact exists (/data/<id>.wav or /tmp/<id>.wav),
`processJobResume` ends with Status "done" and Text equal to the artifact's
contents without invoking `downloadAudio` or `transcribeAudio`, and running it
again on the result yields the same record. -/
theorem processJobResume_short_circuit (E : Env) (job : Job) (w : World) (f : File)
    (haudio : (w.fs.file (filepathJoin "/data" (job.ID ++ ".wav"))).isSome = true ∨
      (w.fs.file (filepathJoin "/tmp" (job.ID ++ ".wav"))).isSome = true)
    (hfile : w.fs.file (filepathJoin "/data" (job.ID ++ ".txt")) = some f)
    (hread : w.fs.readable (filepathJoin "/data" (job.ID ++ ".txt")) = true) :
    (processJobResume E job w).1.Status = "done" ∧
    (processJobResume E job w).1.Text = f.data ∧
    Event.invoke "downloadAudio" ∉ (processJobResume E job w).2.trace.drop w.trace.length ∧
    Event.invoke "transcribeAudio" ∉ (processJobResume E job w).2.trace.drop w.trace.length ∧
    (processJobResume E (processJobResume E job w).1 (processJobResume E job w).2).1 =
      (processJobResume E job w).1 := by
  have htxt : existingTranscript w.fs (filepathJoin "/data" (job.ID ++ ".txt")) =
      some f.data := by
    simp [existingTranscript, osStat, osReadFile, hfile, hread]
  obtain ⟨_, hst, _, _, _, htx, _, htr, _, _⟩ :=
    processJobResume_facts E job w f.data haudio htxt
  refine ⟨hst, htx, ?_, ?_, processJobResume_idempotent E job w f.data haudio htxt⟩
  · rw [htr, List.drop_left]
    decide
  · rw [htr, List.drop_left]
    decide

set_option maxRecDepth 100000 in
theorem processJobResume_short_circuit_witness :
    ((resumeWorld.fs.file (filepathJoin "/data" (sampleJob.ID ++ ".wav"))).isSome = true ∨
      (resumeWorld.fs.file (filepathJoin "/tmp" (sampleJob.ID ++ ".wav"))).isSome = true) ∧
    resumeWorld.fs.file (filepathJoin "/data" (sampleJob.ID ++ ".txt")) = some ⟨5, "hello"⟩ ∧
    resumeWorld.fs.readable (filepathJoin "/data" (sampleJob.ID ++ ".txt")) = true ∧
    (processJobResume offlineEnv sampleJob resumeWorld).1.Status = "done" ∧
    (processJobResume offlineEnv sampleJob resumeWorld).1.Text = "hello" ∧
    (processJobResume offlineEnv (processJobResume offlineEnv sampleJob resumeWorld).1
        (processJobResume offlineEnv sampleJob resumeWorld).2).1 =
      (processJobResume offlineEnv sampleJob resumeWorld).1 :=
  have h := processJobResume_short_circuit offlineEnv sampleJob resumeWorld ⟨5, "hello"⟩
    (by decide) (by decide) (by decide)
  ⟨by decide, by decide, by decide, h.1, h.2.1, h.2.2.2.2⟩

/-! ### Segment files after chunked transcription -/

set_option maxRecDepth 100000 in
/-- C13 fails on the code: in a chunked transcription whose third segment
fails, `transcribeAudioChunked` returns with the files of the successful
segments removed and the file of the failed segment still on disk. -/
theorem transcribeAudioChunked_leaves_failed_segment :
    (splitAudioFile lectureEnv "/tmp/j1.wav" lectureWorld).value? = some (.ok lectureChunks) ∧
    segmentOutcomes lectureEnv lectureChunks
        (splitAudioFile lectureEnv "/tmp/j1.wav" lectureWorld).world =
      [.text "text of j1_chunk_0.wav", .text "text of j1_chunk_1.wav",
        .failure "whisper transcription failed: exit status 1",
        .text "text of j1_chunk_3.wav"] ∧
    ((transcribeAudioChunked lectureEnv "/tmp/j1.wav" lectureWorld).world.fs.file
      "/tmp/j1_chunk_2.wav").isSome = true ∧
    (transcribeAudioChunked lectureEnv "/tmp/j1.wav" lectureWorld).world.fs.file
      "/tmp/j1_chunk_0.wav" = none ∧
    (transcribeAudioChunked lectureEnv "/tmp/j1.wav" lectureWorld).world.fs.file
      "/tmp/j1_chunk_1.wav" = none ∧
    (transcribeAudioChunked lectureEnv "/tmp/j1.wav" lectureWorld).world.fs.file
      "/tmp/j1_chunk_3.wav" = none :=
  ⟨by rfl, by decide, by decide, by decide, by decide, by decide⟩

/-! ### The JSON object of a job -/

theorem assignMembers_append_ok (job job1 : Job) (a b : List (String × JsonValue))
    (h : assignMembers job a = .ok job1) :
    assignMembers job (a ++ b) = assignMembers job1 b := by
  induction a generalizing job with
  | nil =>
    simp only [assignMembers, Except.ok.injEq] at h
    subst h
    rfl
  | cons m rest ih =>
    simp only [List.cons_append, assignMembers] at h ⊢
    cases hm : assignMember job m with
    | error err => rw [hm] at h; cases h
    | ok job2 =>
      rw [hm] at h
      exact ih job2 h

theorem assignMembers_memberStr (job : Job) (name : String) (omitempty : Bool) (s : String)
    (set : String → Job)
    (hkey : ∀ v, assignMember job (name, v) = decodeStr job v set)
    (hzero : omitempty = true → set "" = job) :
    assignMembers job (memberStr name omitempty s) = .ok (set s) := by
  unfold memberStr
  split
  · next h =>
    simp only [Bool.and_eq_true, beq_iff_eq] at h
    obtain ⟨ho, hs⟩ := h
    subst hs
    rw [hzero ho]
    rfl
  · simp [assignMembers, hkey, decodeStr]

theorem assignMembers_memberInt (job : Job) (name : String) (omitempty : Bool) (n : Int)
    (set : Int → Job)
    (hkey : ∀ v, assignMember job (name, v) = decodeInt job v set)
    (hzero : omitempty = true → set 0 = job) :
    assignMembers job (memberInt name omitempty n) = .ok (set n) := by
  unfold memberInt
  split
  · next h =>
    simp only [Bool.and_eq_true, beq_iff_eq] at h
    obtain ⟨ho, hs⟩ := h
    subst hs
    rw [hzero ho]
    rfl
  · simp [assignMembers, hkey, decodeInt]

theorem jobFromJson_jobToJson (job : Job) : jobFromJson (jobToJson job) = .ok job := by
  obtain ⟨id, status, url, file, audioFile, text, progress, audioProgress, transcriptProgress,
    error, created, title, description, thumbnail, duration, channelName⟩ := job
  unfold jobFromJson jobToJson
  simp only [List.append_assoc]
  refine (assignMembers_append_ok _ _ _ _
    (assignMembers_memberStr _ "id" false id (fun s => { zeroJob with ID := s })
      (fun _ => rfl) (fun h => by cases h))).trans ?_
  refine (assignMembers_append_ok _ _ _ _
    (assignMembers_memberStr _ "status" false status _ (fun _ => rfl)
      (fun h => by cases h))).trans ?_
  refine (assignMembers_append_ok _ _ _ _
    (assignMembers_memberStr _ "url" true url _ (fun _ => rfl) (fun _ => rfl))).trans ?_
  refine (assignMembers_append_ok _ _ _ _
    (assignMembers_memberStr _ "file" true file _ (fun _ => rfl) (fun _ => rfl))).trans ?_
  refine (assignMembers_append_ok _ _ _ _
    (assignMembers_memberStr _ "audio_file" true audioFile _ (fun _ => rfl)
      (fun _ => rfl))).trans ?_
  refine (assignMembers_append_ok _ _ _ _
    (assignMembers_memberStr _ "text" true text _ (fun _ => rfl) (fun _ => rfl))).trans ?_
  refine (assignMembers_append_ok _ _ _ _
    (assignMembers_memberInt _ "progress" false progress _ (fun _ => rfl)
      (fun h => by cases h))).trans ?_
  refine (assignMembers_append_ok _ _ _ _
    (assignMembers_memberInt _ "audio_progress" false audioProgress _ (fun _ => rfl)
      (fun h => by cases h))).trans ?_
  refine (assignMembers_append_ok _ _ _ _
    (assignMembers_memberInt _ "transcript_progress" false transcriptProgress _ (fun _ => rfl)
      (fun h => by cases h))).trans ?_
  refine (assignMembers_append_ok _ _ _ _
    (assignMembers_memberStr _ "error" true error _ (fun _ => rfl) (fun _ => rfl))).trans ?_
  refine (assignMembers_append_ok _ _
    [("created", JsonValue.time created)] _ (rfl : _ = Except.ok _)).trans ?_
  refine (assignMembers_append_ok _ _ _ _
    (assignMembers_memberStr _ "title" true title _ (fun _ => rfl) (fun _ => rfl))).trans ?_
  refine (assignMembers_append_ok _ _ _ _
    (assignMembers_memberStr _ "description" true description _ (fun _ => rfl)
      (fun _ => rfl))).trans ?_
  refine (assignMembers_append_ok _ _ _ _
    (assignMembers_memberStr _ "thumbnail" true thumbnail _ (fun _ => rfl)
      (fun _ => rfl))).trans ?_
  refine (assignMembers_append_ok _ _ _ _
    (assignMembers_memberInt _ "duration" true duration _ (fun _ => rfl)
      (fun _ => rfl))).trans ?_
  exact assignMembers_memberStr _ "channel_name" true channelName _ (fun _ => rfl)
    (fun _ => rfl)

/-! ### Saving a job and loading it back -/

theorem loadJobFile_eq (E : Env) (fs : FileSys) (jobsDir : String)
    (acc : List (String × Job) × List Job) (name : String) :
    loadJobFile E fs jobsDir acc name =
      match fileRecord E fs jobsDir name with
      | none => acc
      | some job =>
        if job.Status != "done" && job.Status != "error" then
          (mapStore acc.1 job.ID { job with Status := "queued" },
            acc.2 ++ [{ job with Status := "queued" }])
        else (mapStore acc.1 job.ID job, acc.2) := by
  unfold loadJobFile fileRecord
  split
  · rfl
  · simp only []
    split
    · rfl
    · split <;> rfl

theorem loadJobFile_lookup_of_record (E : Env) (fs : FileSys) (jobsDir : String)
    (acc : List (String × Job) × List Job) (name : String) (job : Job)
    (h : fileRecord E fs jobsDir name = some job) :
    mapLookup (loadJobFile E fs jobsDir acc name).1 job.ID =
      some { job with
        Status := if job.Status ≠ "done" ∧ job.Status ≠ "error" then "queued"
          else job.Status } := by
  rw [loadJobFile_eq, h]
  simp only []
  by_cases hs : job.Status ≠ "done" ∧ job.Status ≠ "error"
  · have hb : (job.Status != "done" && job.Status != "error") = true := by simpa using hs
    rw [if_pos hb, if_pos hs]
    exact mapLookup_mapStore_same _ _ _
  · have hb : ¬ (job.Status != "done" && job.Status != "error") = true := by simpa using hs
    rw [if_neg hb, if_neg hs]
    exact mapLookup_mapStore_same _ _ _

theorem loadJobFile_lookup_keep (E : Env) (fs : FileSys) (jobsDir : String)
    (acc : List (String × Job) × List Job) (name : String) (job r : Job)
    (hsame : ∀ j, fileRecord E fs jobsDir name = some j → j.ID = job.ID → j = job)
    (hr : r = { job with
      Status := if job.Status ≠ "done" ∧ job.Status ≠ "error" then "queued" else job.Status })
    (hacc : mapLookup acc.1 job.ID = some r) :
    mapLookup (loadJobFile E fs jobsDir acc name).1 job.ID = some r := by
  cases hf : fileRecord E fs jobsDir name with
  | none =>
    rw [loadJobFile_eq, hf]
    exact hacc
  | some j =>
    by_cases hid : j.ID = job.ID
    · have hj := hsame j hf hid
      subst hj
      rw [hr]
      exact loadJobFile_lookup_of_record E fs jobsDir acc name j hf
    · rw [loadJobFile_eq, hf]
      simp only []
      split
      · rw [mapLookup_mapStore_other _ _ _ _ (Ne.symm hid)]
        exact hacc
      · rw [mapLookup_mapStore_other _ _ _ _ (Ne.symm hid)]
        exact hacc

theorem loadLoop_lookup_keep (E : Env) (fs : FileSys) (jobsDir : String) (job r : Job)
    (hr : r = { job with
      Status := if job.Status ≠ "done" ∧ job.Status ≠ "error" then "queued" else job.Status }) :
    ∀ (names : List String) (acc : List (String × Job) × List Job),
      (∀ n ∈ names, ∀ j, fileRecord E fs jobsDir n = some j → j.ID = job.ID → j = job) →
      mapLookup acc.1 job.ID = some r →
      mapLookup (names.foldl (loadJobFile E fs jobsDir) acc).1 job.ID = some r
  | [], _, _, hacc => hacc
  | n :: rest, acc, hsame, hacc => by
    rw [List.foldl_cons]
    exact loadLoop_lookup_keep E fs jobsDir job r hr rest _
      (fun m hm => hsame m (List.mem_cons_of_mem _ hm))
      (loadJobFile_lookup_keep E fs jobsDir acc n job r
        (hsame n (List.mem_cons_self _ _)) hr hacc)

theorem loadLoop_lookup (E : Env) (fs : FileSys) (jobsDir name : String) (job : Job)
    (hrec : fileRecord E fs jobsDir name = some job) :
    ∀ (names : List String) (acc : List (String × Job) × List Job),
      name ∈ names →
      (∀ n ∈ names, ∀ j, fileRecord E fs jobsDir n = some j → j.ID = job.ID → j = job) →
      mapLookup (names.foldl (loadJobFile E fs jobsDir) acc).1 job.ID =
        some { job with
          Status := if job.Status ≠ "done" ∧ job.Status ≠ "error" then "queued"
            else job.Status }
  | [], _, hin, _ => by simp at hin
  | n :: rest, acc, hin, hsame => by
    rw [List.foldl_cons]
    by_cases hrest : name ∈ rest
    · exact loadLoop_lookup E fs jobsDir name job hrec rest _ hrest
        (fun m hm => hsame m (List.mem_cons_of_mem _ hm))
    · have hn : name = n := by
        rcases List.mem_cons.1 hin with h | h
        · exact h
        · exact absurd h hrest
      subst hn
      exact loadLoop_lookup_keep E fs jobsDir job _ rfl rest _
        (fun m hm => hsame m (List.mem_cons_of_mem _ hm))
        (loadJobFile_lookup_of_record E fs jobsDir acc name job hrec)

theorem hasSuffix_append (a b : String) : hasSuffix (a ++ b) b = true := by
  unfold hasSuffix
  rw [List.isSuffixOf_iff_suffix]
  exact ⟨a.toList, by simp [String.toList]⟩

theorem fileRecord_of_saved (E : Env) (C : JsonCodec) (job : Job) (w : World) (data : String)
    (hrender : C.render (jobToJson job) = .ok data)
    (hparse : C.parse data = .ok (jobToJson job))
    (hwrite : w.fs.writable (filepathJoin "/data/jobs" (job.ID ++ ".json")) = true)
    (hread : w.fs.readable (filepathJoin "/data/jobs" (job.ID ++ ".json")) = true) :
    fileRecord (E.withJson C) (saveJobToDisk (E.withJson C) job w).fs "/data/jobs"
      (job.ID ++ ".json") = some job := by
  have hm : (E.withJson C).jsonMarshalIndent job = .ok data := hrender
  have hu : (E.withJson C).jsonUnmarshalJob data = .ok job := by
    show VTranscribe.jsonUnmarshalJob C data = .ok job
    unfold VTranscribe.jsonUnmarshalJob
    rw [hparse]
    exact jobFromJson_jobToJson job
  unfold fileRecord saveJobToDisk
  rw [hasSuffix_append, hm]
  simp [osReadFile, osWriteFile, hwrite, hread, hu]

/-- Over any text layer whose text for the job reads back as the object
written: when the job file can be written and read and the jobs directory
lists the file `<id>.json` and no entry holding another record with this ID,
`loadJobsFromDisk` leaves in the job map, under the job's ID, the saved record
with its Status reset to "queued" unless it was "done" or "error". -/
theorem roundtrip_over_text_layer (E : Env) (C : JsonCodec) (job : Job)
    (w : World) (jobs : List (String × Job)) (jobQueue : List String)
    (spawned : List (String × String)) (data : String) (names : List String)
    (hrender : C.render (jobToJson job) = .ok data)
    (hparse : C.parse data = .ok (jobToJson job))
    (hwrite : w.fs.writable (filepathJoin "/data/jobs" (job.ID ++ ".json")) = true)
    (hread : w.fs.readable (filepathJoin "/data/jobs" (job.ID ++ ".json")) = true)
    (hdir : E.osReadDir "/data/jobs" (saveJobToDisk (E.withJson C) job w).fs = .ok names)
    (hin : job.ID ++ ".json" ∈ names)
    (hother : ∀ n ∈ names, ∀ j,
      fileRecord (E.withJson C) (saveJobToDisk (E.withJson C) job w).fs "/data/jobs" n = some j →
      j.ID = job.ID → j = job) :
    mapLookup
        (loadJobsFromDisk (E.withJson C)
          ⟨jobs, jobQueue, spawned, (saveJobToDisk (E.withJson C) job w).fs⟩).1.jobs job.ID =
      some { job with
        Status := if job.Status ≠ "done" ∧ job.Status ≠ "error" then "queued"
          else job.Status } := by
  have hdir1 : (E.withJson C).osReadDir "/data/jobs" (saveJobToDisk (E.withJson C) job w).fs =
      .ok names := hdir
  unfold loadJobsFromDisk
  simp only [hdir1]
  exact loadLoop_lookup (E.withJson C) _ "/data/jobs" (job.ID ++ ".json") job
    (fileRecord_of_saved E C job w data hrender hparse hwrite hread) names _ hin hother

/-! ### Write-through of the job record -/

set_option maxRecDepth 100000 in
/-- C12 fails on the code as stated: the record `handleJob` creates is in the
job map but has no file on disk, and it still has none after the worker has
set its Status to "processing"; after `extractVideoMetadata` and after the
AudioFile reference is recorded the file, which held the record before, no
longer holds the current record. -/
theorem mutations_without_write_through :
    mapLookup (handleJob sampleRequest (fun _ => 0) 5 freshServer).2.jobs
        (uuidNewString (fun _ => 0)) =
      some (newJob (uuidNewString (fun _ => 0)) "https://youtu.be/abc123" 5) ∧
    (handleJob sampleRequest (fun _ => 0) 5 freshServer).2.fs.file
        (filepathJoin "/data/jobs" (uuidNewString (fun _ => 0) ++ ".json")) = none ∧
    isPersisted recordEnv (newJob (uuidNewString (fun _ => 0)) "https://youtu.be/abc123" 5)
        (handleJob sampleRequest (fun _ => 0) 5 freshServer).2.fs = false ∧
    ((workerReceive (handleJob sampleRequest (fun _ => 0) 5 freshServer).2).map
        (fun r => r.2.map (fun e => (e.2.Status, isPersisted recordEnv e.2 r.1.fs)))) =
      some (some ("processing", false)) ∧
    isPersisted recordEnv
        (updateJobStatusDetailed recordEnv sampleJob "fetching_info" 10 0 0 "" freshWorld).1
        (updateJobStatusDetailed recordEnv sampleJob "fetching_info" 10 0 0 "" freshWorld).2.fs =
      true ∧
    ((extractVideoMetadata recordEnv
        (updateJobStatusDetailed recordEnv sampleJob "fetching_info" 10 0 0 "" freshWorld).1
        sampleJob.URL
        (updateJobStatusDetailed recordEnv sampleJob "fetching_info" 10 0 0 "" freshWorld).2
      ).value?.map (fun r => r.1.Title)) = some "Silence" ∧
    ((extractVideoMetadata recordEnv
        (updateJobStatusDetailed recordEnv sampleJob "fetching_info" 10 0 0 "" freshWorld).1
        sampleJob.URL
        (updateJobStatusDetailed recordEnv sampleJob "fetching_info" 10 0 0 "" freshWorld).2
      ).value?.map (fun r => isPersisted recordEnv r.1
        (extractVideoMetadata recordEnv
          (updateJobStatusDetailed recordEnv sampleJob "fetching_info" 10 0 0 "" freshWorld).1
          sampleJob.URL
          (updateJobStatusDetailed recordEnv sampleJob "fetching_info" 10 0 0 "" freshWorld).2
        ).world.fs)) = some false ∧
    isPersisted recordEnv
        (updateJobStatusDetailed recordEnv sampleJob "downloading" 25 0 0 "" lectureWorld).1
        (updateJobStatusDetailed recordEnv sampleJob "downloading" 25 0 0 "" lectureWorld).2.fs =
      true ∧
    (publishAudio
        (updateJobStatusDetailed recordEnv sampleJob "downloading" 25 0 0 "" lectureWorld).1
        "/tmp/j1.wav" "j1.wav" "/data/j1.wav"
        (updateJobStatusDetailed recordEnv sampleJob "downloading" 25 0 0 "" lectureWorld).2
      ).1.AudioFile = "/files/j1.wav" ∧
    isPersisted recordEnv
        (publishAudio
          (updateJobStatusDetailed recordEnv sampleJob "downloading" 25 0 0 "" lectureWorld).1
          "/tmp/j1.wav" "j1.wav" "/data/j1.wav"
          (updateJobStatusDetailed recordEnv sampleJob "downloading" 25 0 0 "" lectureWorld).2).1
        (publishAudio
          (updateJobStatusDetailed recordEnv sampleJob "downloading" 25 0 0 "" lectureWorld).1
          "/tmp/j1.wav" "j1.wav" "/data/j1.wav"
          (updateJobStatusDetailed recordEnv sampleJob "downloading" 25 0 0 "" lectureWorld).2
        ).2.fs = false := by
  decide

theorem isPersisted_saveJobToDisk (E : Env) (job : Job) (w : World) (data : String)
    (hm : E.jsonMarshalIndent job = .ok data)
    (hw : w.fs.writable (filepathJoin "/data/jobs" (job.ID ++ ".json")) = true) :
    isPersisted E job (saveJobToDisk E job w).fs = true := by
  unfold isPersisted saveJobToDisk
  simp [hm, osWriteFile, hw]

/-- C12 as amended: when the JSON encoding and the disk write succeed, the
persisted file /data/jobs/<id>.json holds exactly the current in-memory record
of the job after `updateJobStatusDetailed` returns and after the completion
step of `processJob` and `processJobResume`. -/
theorem status_update_write_through (E : Env) (job : Job) (status : String) (p a t : Int)
    (msg text filename : String) (w : World)
    (hm : ∀ j : Job, ∃ data, E.jsonMarshalIndent j = .ok data)
    (hw : w.fs.writable (filepathJoin "/data/jobs" (job.ID ++ ".json")) = true) :
    isPersisted E (updateJobStatusDetailed E job status p a t msg w).1
      (updateJobStatusDetailed E job status p a t msg w).2.fs = true ∧
    isPersisted E (completeJob E job text filename w).1
      (completeJob E job text filename w).2.fs = true := by
  constructor
  · obtain ⟨data, hd⟩ := hm (updateJobStatusDetailed E job status p a t msg w).1
    exact isPersisted_saveJobToDisk E _ (w.log _) data hd hw
  · obtain ⟨data, hd⟩ := hm (completeJob E job text filename w).1
    exact isPersisted_saveJobToDisk E _ (w.log _) data hd hw

set_option maxRecDepth 100000 in
theorem status_update_write_through_witness :
    (∀ j : Job, ∃ data, recordEnv.jsonMarshalIndent j = .ok data) ∧
    freshWorld.fs.writable (filepathJoin "/data/jobs" (sampleJob.ID ++ ".json")) = true ∧
    isPersisted recordEnv
      (updateJobStatusDetailed recordEnv sampleJob "downloading" 25 0 0 "" freshWorld).1
      (updateJobStatusDetailed recordEnv sampleJob "downloading" 25 0 0 "" freshWorld).2.fs =
      true ∧
    isPersisted recordEnv (completeJob recordEnv sampleJob "hello" "j1.txt" freshWorld).1
      (completeJob recordEnv sampleJob "hello" "j1.txt" freshWorld).2.fs = true :=
  ⟨fun j => ⟨plainRender (jobToJson j), rfl⟩, by decide,
    status_update_write_through recordEnv sampleJob "downloading" 25 0 0 "" "hello" "j1.txt"
      freshWorld (fun j => ⟨plainRender (jobToJson j), rfl⟩) (by decide)⟩

/-! ### The values of Status in reachable states -/

theorem writtenStatuses_append (a b : List Event) :
    writtenStatuses (a ++ b) = writtenStatuses a ++ writtenStatuses b := by
  simp [writtenStatuses, statusWrites_append]

theorem TraceExtends.of_eq {w w1 : World} (h : w1.trace = w.trace) : TraceExtends w w1 :=
  ⟨[], by simp [h], by intro st hst; simp [writtenStatuses, statusWrites] at hst⟩

theorem TraceExtends.chain {a b c : World} (h1 : TraceExtends a b) (h2 : TraceExtends b c) :
    TraceExtends a c := by
  obtain ⟨t1, e1, k1⟩ := h1
  obtain ⟨t2, e2, k2⟩ := h2
  refine ⟨t1 ++ t2, by rw [e2, e1, List.append_assoc], ?_⟩
  intro st hst
  rw [writtenStatuses_append, List.mem_append] at hst
  rcases hst with hst | hst
  · exact k1 st hst
  · exact k2 st hst

theorem update_extends (E : Env) (job : Job) (status : String) (p a t : Int) (msg : String)
    (w : World) (hs : status ∈ lifecycleStatuses) :
    TraceExtends w (updateJobStatusDetailed E job status p a t msg w).2 := by
  refine ⟨_, update_trace E job status p a t msg w, ?_⟩
  intro st hst
  simp [writtenStatuses, statusWrites] at hst
  rw [hst]
  exact hs

theorem completeJob_extends (E : Env) (job : Job) (text filename : String) (w : World) :
    TraceExtends w (completeJob E job text filename w).2 := by
  refine ⟨_, completeJob_trace E job text filename w, ?_⟩
  decide

theorem downloadAudio_extends (E : Env) (jobID url : String) (w : World) :
    TraceExtends w (downloadAudio E jobID url w).world := by
  have h := downloadAudio_trace E jobID url w
  cases hd : downloadAudio E jobID url w with
  | panic r w1 =>
    rw [hd] at h
    exact ⟨_, h, by decide⟩
  | ret v w1 =>
    rw [hd] at h
    cases v with
    | ok f => exact ⟨_, h, by decide⟩
    | error err => exact ⟨_, h, by decide⟩

theorem saveTraces_statuses :
    ∀ t ∈ saveTraces, ∀ st ∈ writtenStatuses t, st ∈ lifecycleStatuses := by
  decide

theorem transcribeAndSave_extends (E : Env) (job : Job) (audioFile filename path : String)
    (w : World) :
    TraceExtends w (transcribeAndSave E job audioFile filename path w).world := by
  have h := transcribeAndSave_trace E job audioFile filename path w
  cases ht : transcribeAndSave E job audioFile filename path w with
  | finished job1 w1 =>
    rw [ht] at h
    obtain ⟨t, hmem, htr⟩ := h
    exact ⟨t, htr, saveTraces_statuses t hmem⟩
  | panicked r job1 w1 =>
    rw [ht] at h
    exact ⟨_, h, by decide⟩

theorem redownloadAudio_extends (E : Env) (job : Job) (audioFilename audioPath : String)
    (w : World) :
    TraceExtends w (redownloadAudio E job audioFilename audioPath w).world := by
  unfold redownloadAudio
  split
  · exact update_extends E job "error" 0 0 0 _ w (by decide)
  · simp only []
    have hu := update_extends E job "downloading" 25 0 0 "" w (by decide)
    have hd := downloadAudio_extends E
      (updateJobStatusDetailed E job "downloading" 25 0 0 "" w).1.ID
      (updateJobStatusDetailed E job "downloading" 25 0 0 "" w).1.URL
      (updateJobStatusDetailed E job "downloading" 25 0 0 "" w).2
    cases hdl : downloadAudio E
        (updateJobStatusDetailed E job "downloading" 25 0 0 "" w).1.ID
        (updateJobStatusDetailed E job "downloading" 25 0 0 "" w).1.URL
        (updateJobStatusDetailed E job "downloading" 25 0 0 "" w).2 with
    | panic r w1 =>
      rw [hdl] at hd
      exact hu.chain hd
    | ret v w1 =>
      rw [hdl] at hd
      cases v with
      | error err =>
        exact (hu.chain hd).chain (update_extends E _ "error" 0 0 0 _ w1 (by decide))
      | ok f =>
        refine ((hu.chain hd).chain (TraceExtends.of_eq (publishAudio_trace _ f _ _ w1))).chain
          (update_extends E _ "transcribing" 50 100 0 "" _ (by decide))

theorem resumeAudio_extends (E : Env) (job : Job) (w : World) :
    TraceExtends w (resumeAudio E job w).world := by
  unfold resumeAudio
  simp only []
  split
  · exact update_extends E job "transcribing" 50 100 0 "" w (by decide)
  · split
    · exact (TraceExtends.of_eq (publishAudio_trace job _ _ _ w)).chain
        (update_extends E _ "transcribing" 50 100 0 "" _ (by decide))
    · exact redownloadAudio_extends E job _ _ w

theorem processJobResumeBody_extends (E : Env) (job : Job) (w : World) :
    TraceExtends w (processJobResumeBody E job w).world := by
  have h := resumeAudio_extends E job w
  unfold processJobResumeBody
  cases hr : resumeAudio E job w with
  | panicked r job1 w1 =>
    rw [hr] at h
    exact h
  | ended job1 w1 =>
    rw [hr] at h
    exact h
  | ready job1 audioFile w1 =>
    rw [hr] at h
    simp only []
    cases existingTranscript w1.fs _ with
    | some data => exact h.chain (completeJob_extends E job1 data _ w1)
    | none => exact h.chain (transcribeAndSave_extends E job1 audioFile _ _ w1)

theorem processJobResume_extends (E : Env) (job : Job) (w : World) :
    TraceExtends w (processJobResume E job w).2 := by
  have h := processJobResumeBody_extends E job w
  unfold processJobResume
  cases hb : processJobResumeBody E job w with
  | finished job1 w1 =>
    rw [hb] at h
    exact h
  | panicked r job1 w1 =>
    rw [hb] at h
    exact h.chain (update_extends E job1 "error" 0 0 0 _ w1 (by decide))

theorem processJobTraces_statuses :
    ∀ t ∈ processJobTraces, ∀ st ∈ writtenStatuses t, st ∈ lifecycleStatuses := by
  decide

theorem processJob_extends (E : Env) (job : Job) (url : String) (w : World) :
    TraceExtends w (processJob E job url w).2 := by
  obtain ⟨t, hmem, htr⟩ := processJob_trace E job url w
  exact ⟨t, htr, processJobTraces_statuses t hmem⟩

theorem written_of_extends (fs : FileSys) (w1 : World) (h : TraceExtends ⟨fs, []⟩ w1)
    (st : String) (hst : st ∈ writtenStatuses w1.trace) : st ∈ assignedStatuses := by
  obtain ⟨t, htr, k⟩ := h
  rw [htr] at hst
  exact List.mem_cons_of_mem _ (k st (by simpa using hst))

theorem mem_mapStore (jobs : List (String × Job)) (id : String) (job : Job)
    (e : String × Job) (h : e ∈ mapStore jobs id job) : e = (id, job) ∨ e ∈ jobs := by
  unfold mapStore at h
  rcases List.mem_cons.1 h with h | h
  · exact Or.inl h
  · exact Or.inr (List.mem_filter.1 h).1

theorem statuses_mapStore (jobs : List (String × Job)) (id : String) (job : Job)
    (h : ∀ e ∈ jobs, e.2.Status ∈ assignedStatuses) (hj : job.Status ∈ assignedStatuses) :
    ∀ e ∈ mapStore jobs id job, e.2.Status ∈ assignedStatuses := by
  intro e he
  rcases mem_mapStore jobs id job e he with he | he
  · rw [he]
    exact hj
  · exact h e he

theorem loadJobFile_statuses (E : Env) (fs : FileSys) (jobsDir : String)
    (acc : List (String × Job) × List Job) (name : String)
    (h : ∀ e ∈ acc.1, e.2.Status ∈ assignedStatuses) :
    ∀ e ∈ (loadJobFile E fs jobsDir acc name).1, e.2.Status ∈ assignedStatuses := by
  rw [loadJobFile_eq]
  cases fileRecord E fs jobsDir name with
  | none => exact h
  | some job =>
    simp only []
    split
    · exact statuses_mapStore _ _ _ h (show "queued" ∈ assignedStatuses by decide)
    · next hc =>
      refine statuses_mapStore _ _ _ h ?_
      simp only [Bool.and_eq_true, bne_iff_ne, ne_eq, not_and, Decidable.not_not] at hc
      by_cases hd : job.Status = "done"
      · rw [hd]
        decide
      · rw [hc hd]
        decide

theorem loadLoop_statuses (E : Env) (fs : FileSys) (jobsDir : String) (names : List String) :
    ∀ acc : List (String × Job) × List Job, (∀ e ∈ acc.1, e.2.Status ∈ assignedStatuses) →
      ∀ e ∈ (names.foldl (loadJobFile E fs jobsDir) acc).1, e.2.Status ∈ assignedStatuses := by
  induction names with
  | nil => intro acc h; exact h
  | cons n rest ih =>
    intro acc h
    exact ih _ (loadJobFile_statuses E fs jobsDir acc n h)

theorem loadJobsFromDisk_statuses (E : Env) (s : Server)
    (h : ∀ e ∈ s.jobs, e.2.Status ∈ assignedStatuses) :
    ∀ e ∈ (loadJobsFromDisk E s).1.jobs, e.2.Status ∈ assignedStatuses := by
  unfold loadJobsFromDisk
  simp only []
  split
  · exact h
  · exact loadLoop_statuses E s.fs _ _ _ h

theorem handleJob_statuses (r : Request) (rnd : Nat → Nat) (now : Int) (s : Server)
    (h : ∀ e ∈ s.jobs, e.2.Status ∈ assignedStatuses) :
    ∀ e ∈ (handleJob r rnd now s).2.jobs, e.2.Status ∈ assignedStatuses := by
  unfold handleJob
  split
  · exact h
  · split
    · exact h
    · split
      · exact h
      · split
        · exact h
        · split
          · exact h
          · simp only [enqueueOrSpawn_jobs]
            exact statuses_mapStore _ _ _ h (show "queued" ∈ assignedStatuses by decide)

theorem workerReceive_statuses (s s1 : Server) (r : Option (String × Job))
    (hr : workerReceive s = some (s1, r))
    (h : ∀ e ∈ s.jobs, e.2.Status ∈ assignedStatuses) :
    ∀ e ∈ s1.jobs, e.2.Status ∈ assignedStatuses := by
  unfold workerReceive at hr
  split at hr
  · cases hr
  · split at hr
    · cases hr
      exact h
    · cases hr
      exact statuses_mapStore _ _ _ h (show "processing" ∈ assignedStatuses by decide)

/-- C14 fails on the code as stated: after a submission to a fresh server and
the reception of the job by the background worker, a reachable state, the job
has Status "processing", which is none of the seven values of the lifecycle. -/
theorem processing_status_reachable :
    Reachable silentEnv receivedState ∧
    receivedState.jobs.map (fun e => e.2.Status) = ["processing"] ∧
    "processing" ∉ lifecycleStatuses :=
  ⟨Reachable.receive submittedState receivedState
      (some (uuidNewString (fun _ => 0),
        { newJob (uuidNewString (fun _ => 0)) "https://youtu.be/abc123" 5 with
          Status := "processing" }))
      (Reachable.submit _ sampleRequest (fun _ => 0) 5 (Reachable.start emptyDisk))
      (by rfl),
    by decide, by decide⟩

/-- C14 as amended: in every state reachable from the start of the server by
submissions, receptions by the background worker and runs of `processJob` and
`processJobResume`, every job's Status is one of "queued", "processing",
"fetching_info", "downloading", "transcribing", "saving", "done", "error". -/
theorem reachable_statuses (E : Env) (s : Server) (h : Reachable E s) :
    ∀ e ∈ s.jobs, e.2.Status ∈ assignedStatuses := by
  induction h with
  | start fs =>
    exact loadJobsFromDisk_statuses E _ (by intro e he; cases he)
  | submit s r rnd now _ ih => exact handleJob_statuses r rnd now s ih
  | receive s s1 r _ hr ih => exact workerReceive_statuses s s1 r hr ih
  | processJobWrite s id job url fs st j1 fs1 _ _ hst hj ih =>
    refine statuses_mapStore _ _ _ ih ?_
    rw [hj]
    exact written_of_extends fs _ (processJob_extends E job url ⟨fs, []⟩) st hst
  | processJobReturn s id job url fs _ _ ih =>
    refine statuses_mapStore _ _ _ ih ?_
    exact processJob_final E (fun j => j.Status ∈ assignedStatuses)
      (fun _ _ _ _ => show "done" ∈ assignedStatuses by decide)
      (fun _ _ _ _ _ _ => show "error" ∈ assignedStatuses by decide) job url _
  | processJobResumeWrite s id job fs st j1 fs1 _ _ hst hj ih =>
    refine statuses_mapStore _ _ _ ih ?_
    rw [hj]
    exact written_of_extends fs _ (processJobResume_extends E job ⟨fs, []⟩) st hst
  | processJobResumeReturn s id job fs _ _ ih =>
    refine statuses_mapStore _ _ _ ih ?_
    exact processJobResume_final E (fun j => j.Status ∈ assignedStatuses)
      (fun _ _ _ _ => show "done" ∈ assignedStatuses by decide)
      (fun _ _ _ _ _ _ => show "error" ∈ assignedStatuses by decide) job _

set_option maxRecDepth 100000 in
theorem reachable_statuses_witness :
    Reachable silentEnv submittedState ∧
    (uuidNewString (fun _ => 0), newJob (uuidNewString (fun _ => 0)) "https://youtu.be/abc123" 5)
      ∈ submittedState.jobs ∧
    (newJob (uuidNewString (fun _ => 0)) "https://youtu.be/abc123" 5).Status ∈
      assignedStatuses :=
  ⟨Reachable.submit _ sampleRequest (fun _ => 0) 5 (Reachable.start emptyDisk), by decide,
    reachable_statuses silentEnv submittedState
      (Reachable.submit _ sampleRequest (fun _ => 0) 5 (Reachable.start emptyDisk))
      (uuidNewString (fun _ => 0), newJob (uuidNewString (fun _ => 0)) "https://youtu.be/abc123" 5)
      (by decide)⟩


/-! ### The text of strings -/

theorem char_eq_iff_toNat (c d : Char) : c = d ↔ c.toNat = d.toNat := by
  constructor
  · intro h
    rw [h]
  · intro h
    apply Char.ext
    apply UInt32.ext
    exact h

theorem hexVal_hexDigit (d : Nat) (h : d < 16) : hexVal (hexDigit d) = some d := by
  interval_cases d <;> rfl

theorem hexDigit_plain (d : Nat) (h : d < 16) :
    hexDigit d ≠ dquote ∧ hexDigit d ≠ bslash := by
  interval_cases d <;> decide

theorem hex4_escape (n : Nat) (h : n < 65536) :
    hex4 (hexDigit (n / 4096 % 16)) (hexDigit (n / 256 % 16)) (hexDigit (n / 16 % 16))
      (hexDigit (n % 16)) = some n := by
  unfold hex4
  rw [hexVal_hexDigit _ (Nat.mod_lt _ (by decide)), hexVal_hexDigit _ (Nat.mod_lt _ (by decide)),
    hexVal_hexDigit _ (Nat.mod_lt _ (by decide)), hexVal_hexDigit _ (Nat.mod_lt _ (by decide))]
  simp only [Option.some.injEq]
  omega

theorem scanString_plain (c : Char) (l : List Char) (hq : c ≠ dquote) (hb : c ≠ bslash) :
    scanString (c :: l) = (scanString l).map (fun r => (c :: r.1, r.2)) := by
  rw [scanString.eq_def]
  simp only [if_neg hq, if_neg hb]

theorem scanString_escaped (e : Char) (l : List Char) :
    scanString (bslash :: e :: l) = (scanString l).map (fun r => (bslash :: e :: r.1, r.2)) := by
  rw [scanString.eq_def]
  simp only [if_neg (show bslash ≠ dquote by decide), if_pos]

theorem scanString_escapeU (n : Nat) (l : List Char) :
    scanString (escapeU n ++ l) = (scanString l).map (fun r => (escapeU n ++ r.1, r.2)) := by
  have h1 := hexDigit_plain (n / 4096 % 16) (Nat.mod_lt _ (by decide))
  have h2 := hexDigit_plain (n / 256 % 16) (Nat.mod_lt _ (by decide))
  have h3 := hexDigit_plain (n / 16 % 16) (Nat.mod_lt _ (by decide))
  have h4 := hexDigit_plain (n % 16) (Nat.mod_lt _ (by decide))
  unfold escapeU
  simp only [List.cons_append, List.nil_append]
  rw [scanString_escaped, scanString_plain _ _ h1.1 h1.2, scanString_plain _ _ h2.1 h2.2,
    scanString_plain _ _ h3.1 h3.2, scanString_plain _ _ h4.1 h4.2]
  cases scanString l <;> rfl

theorem scanString_escapeRune (c : Char) (l : List Char) :
    scanString (jsonEscapeRune c ++ l) =
      (scanString l).map (fun r => (jsonEscapeRune c ++ r.1, r.2)) := by
  unfold jsonEscapeRune
  split
  · exact scanString_escaped c l
  · next hqb =>
    split
    · exact scanString_escaped _ l
    · split
      · exact scanString_escaped _ l
      · split
        · exact scanString_escaped _ l
        · split
          · exact scanString_escaped _ l
          · split
            · exact scanString_escaped _ l
            · split
              · exact scanString_escapeU _ l
              · exact scanString_plain c l (fun h => hqb (Or.inl h)) (fun h => hqb (Or.inr h))

theorem scanString_escapeUnit (u : GoUnit) (l : List Char) :
    scanString (jsonEscapeUnit u ++ l) =
      (scanString l).map (fun r => (jsonEscapeUnit u ++ r.1, r.2)) := by
  cases u with
  | rune c => exact scanString_escapeRune c l
  | invalid b => exact scanString_escapeU _ l

theorem scanString_quoted (s : List GoUnit) (rest : List Char) :
    scanString (s.flatMap jsonEscapeUnit ++ dquote :: rest) =
      some (s.flatMap jsonEscapeUnit, rest) := by
  induction s with
  | nil =>
    rw [scanString.eq_def]
    simp
  | cons u s ih =>
    rw [List.flatMap_cons, List.append_assoc, scanString_escapeUnit, ih]
    rfl

theorem unquoteAux_simple (e ch : Char) (l : List Char) (he : e ≠ 'u')
    (hs : simpleEscape e = some ch) :
    unquoteAux none (bslash :: e :: l) = (unquoteAux none l).map (fun r => ch :: r) := by
  rw [unquoteAux.eq_def]
  simp only [if_pos, if_neg he, hs, flushSurrogate]

theorem unquoteAux_escapeU (n : Nat) (l : List Char) (h : n < 0xD800) :
    unquoteAux none (escapeU n ++ l) = (unquoteAux none l).map (fun r => Char.ofNat n :: r) := by
  unfold escapeU
  simp only [List.cons_append, List.nil_append]
  rw [unquoteAux.eq_def]
  simp only [if_pos, hex4_escape n (show n < 65536 by omega), flushSurrogate]
  rw [if_neg (show ¬ (0xD800 ≤ n ∧ n < 0xDC00) by omega),
    if_neg (show ¬ (0xDC00 ≤ n ∧ n < 0xE000) by omega)]

theorem toNat_ofNat_small (n : Nat) (h : n < 0xD800) : (Char.ofNat n).toNat = n := by
  unfold Char.ofNat
  rw [dif_pos (Or.inl h)]
  unfold Char.ofNatAux Char.toNat
  simp only [UInt32.toNat]
  simp [BitVec.toNat_ofNatLt]

theorem eq_ofNat_of_toNat (c : Char) (n : Nat) (h : c.toNat = n) (hn : n < 0xD800) :
    c = Char.ofNat n := by
  rw [char_eq_iff_toNat, toNat_ofNat_small n hn, h]

theorem unquoteAux_plain (c : Char) (l : List Char) (hb : c ≠ bslash) (hq : c ≠ dquote)
    (hc : ¬ c.toNat < 32) :
    unquoteAux none (c :: l) = (unquoteAux none l).map (fun r => c :: r) := by
  rw [unquoteAux.eq_def]
  simp only [if_neg hb, if_neg (show ¬ (c.toNat < 32 ∨ c = dquote) from fun h => h.elim hc hq),
    flushSurrogate]

theorem unquoteAux_escapeRune (c : Char) (l : List Char) :
    unquoteAux none (jsonEscapeRune c ++ l) = (unquoteAux none l).map (fun r => c :: r) := by
  unfold jsonEscapeRune
  split
  · next h =>
    refine unquoteAux_simple c c l ?_ ?_
    · rcases h with h | h <;> rw [h] <;> decide
    · rcases h with h | h <;> rw [h] <;> decide
  · next hqb =>
    split
    · next h =>
      rw [eq_ofNat_of_toNat c 8 h (by decide)]
      exact unquoteAux_simple 'b' _ l (by decide) (by decide)
    · split
      · next h =>
        rw [eq_ofNat_of_toNat c 12 h (by decide)]
        exact unquoteAux_simple 'f' _ l (by decide) (by decide)
      · split
        · next h =>
          rw [eq_ofNat_of_toNat c 10 h (by decide)]
          exact unquoteAux_simple 'n' _ l (by decide) (by decide)
        · split
          · next h =>
            rw [eq_ofNat_of_toNat c 13 h (by decide)]
            exact unquoteAux_simple 'r' _ l (by decide) (by decide)
          · split
            · next h =>
              rw [eq_ofNat_of_toNat c 9 h (by decide)]
              exact unquoteAux_simple 't' _ l (by decide) (by decide)
            · split
              · next h =>
                have hlt : c.toNat < 0xD800 := by
                  rcases h with h | h | h | h | h | h
                  · omega
                  · rw [h]; decide
                  · rw [h]; decide
                  · rw [h]; decide
                  · omega
                  · omega
                rw [unquoteAux_escapeU _ l hlt, ← eq_ofNat_of_toNat c c.toNat rfl hlt]
              · next h =>
                refine unquoteAux_plain c l (fun hb => hqb (Or.inr hb)) (fun hq => hqb (Or.inl hq))
                  (fun hc => h (Or.inl hc))

theorem unquote_quoted (s : List Char) :
    unquote ((s.map GoUnit.rune).flatMap jsonEscapeUnit) = some s := by
  unfold unquote
  induction s with
  | nil => rfl
  | cons c s ih =>
    rw [List.map_cons, List.flatMap_cons]
    show unquoteAux none (jsonEscapeRune c ++ _) = _
    rw [unquoteAux_escapeRune, ih]
    rfl

/-! ### The text of numbers -/

theorem digitChar_toNat (d : Nat) (h : d < 10) : (digitChar d).toNat = 48 + d := by
  unfold digitChar
  exact toNat_ofNat_small _ (by omega)

theorem digitVal_digitChar (d : Nat) (h : d < 10) : digitVal (digitChar d) = d := by
  unfold digitVal
  rw [digitChar_toNat d h]
  omega

theorem isDigit_digitChar (d : Nat) (h : d < 10) : isDigit (digitChar d) = true := by
  unfold isDigit
  rw [digitChar_toNat d h]
  simp
  omega

theorem decimalValue_concat (l : List Char) (c : Char) :
    decimalValue (l ++ [c]) = decimalValue l * 10 + digitVal c := by
  simp [decimalValue, List.foldl_append]

theorem natDigitsAux_spec (fuel : Nat) :
    ∀ n, n < fuel →
      (∀ c ∈ natDigitsAux fuel n, isDigit c = true) ∧
      decimalValue (natDigitsAux fuel n) = n ∧
      (∃ d rest, natDigitsAux fuel n = digitChar d :: rest ∧ d < 10 ∧
        (d = 0 → rest = [])) := by
  induction fuel with
  | zero => intro n h; omega
  | succ fuel ih =>
    intro n h
    rw [natDigitsAux]
    split
    · next hlt =>
      refine ⟨?_, ?_, n, [], rfl, hlt, fun _ => rfl⟩
      · intro c hc
        rw [List.mem_singleton] at hc
        rw [hc]
        exact isDigit_digitChar n hlt
      · simp [decimalValue, digitVal_digitChar n hlt]
    · next hge =>
      have hdiv : n / 10 < fuel := by omega
      obtain ⟨h1, h2, d, rest, h3, h4, h5⟩ := ih (n / 10) hdiv
      have hmod : n % 10 < 10 := Nat.mod_lt _ (by decide)
      refine ⟨?_, ?_, d, rest ++ [digitChar (n % 10)], ?_, h4, ?_⟩
      · intro c hc
        rw [List.mem_append, List.mem_singleton] at hc
        rcases hc with hc | hc
        · exact h1 c hc
        · rw [hc]
          exact isDigit_digitChar _ hmod
      · rw [decimalValue_concat, h2, digitVal_digitChar _ hmod]
        omega
      · rw [h3]
        rfl
      · intro hd
        exfalso
        rw [h3, hd, h5 hd] at h2
        simp [decimalValue, digitVal_digitChar 0 (by decide)] at h2
        omega

theorem natDigits_spec (n : Nat) :
    (∀ c ∈ natDigits n, isDigit c = true) ∧ decimalValue (natDigits n) = n ∧
      (∃ d rest, natDigits n = digitChar d :: rest ∧ d < 10 ∧ (d = 0 → rest = [])) :=
  natDigitsAux_spec (n + 1) n (Nat.lt_succ_self n)

theorem takeWhile_digits (ds : List Char) (c : Char) (rest : List Char)
    (hds : ∀ x ∈ ds, isDigit x = true) (hc : isDigit c = false) :
    (ds ++ c :: rest).takeWhile isDigit = ds ∧ (ds ++ c :: rest).dropWhile isDigit = c :: rest := by
  induction ds with
  | nil => simp [List.takeWhile, List.dropWhile, hc]
  | cons d ds ih =>
    have hd := hds d (List.mem_cons_self _ _)
    have ih1 := ih (fun x hx => hds x (List.mem_cons_of_mem _ hx))
    simp [List.takeWhile, List.dropWhile, hd, ih1.1, ih1.2]

/-- A character after which a number has ended. -/
theorem parseFracExp_end (c : Char) (rest : List Char) (h1 : c ≠ '.') (h2 : c ≠ 'e')
    (h3 : c ≠ 'E') : parseFracExp (c :: rest) = some (true, c :: rest) := by
  unfold parseFracExp
  simp [h1, h2, h3]

theorem parseNumber_intText (n : Int) (c : Char) (rest : List Char) (hc : isDigit c = false)
    (h1 : c ≠ '.') (h2 : c ≠ 'e') (h3 : c ≠ 'E') :
    parseNumber (intText n ++ c :: rest) = some (.int n, c :: rest) := by
  obtain ⟨hall, hval, d, more, hshape, hd, hzero⟩ := natDigits_spec n.natAbs
  have htw := takeWhile_digits (natDigits n.natAbs) c rest hall hc
  have hne : natDigits n.natAbs ≠ [] := by
    rw [hshape]
    exact List.cons_ne_nil _ _
  have hlead : ¬ ((natDigits n.natAbs).head? = some '0' ∧ 1 < (natDigits n.natAbs).length) := by
    rw [hshape]
    rintro ⟨hh, hl⟩
    simp only [List.head?_cons, Option.some.injEq] at hh
    have hd0 : d = 0 := by
      have := congrArg Char.toNat hh
      rw [digitChar_toNat d hd] at this
      have h48 : ('0' : Char).toNat = 48 := rfl
      omega
    rw [hzero hd0] at hl
    simp at hl
  unfold parseNumber intText
  by_cases hneg : n < 0
  · rw [if_pos hneg]
    simp only [List.cons_append, List.head?_cons, decide_True, if_true, List.tail_cons]
    rw [htw.1, htw.2, if_neg hne, if_neg hlead, parseFracExp_end c rest h1 h2 h3]
    simp only [if_true, hval]
    have hn : -((n.natAbs : Nat) : Int) = n := by omega
    rw [hn]
  · rw [if_neg hneg]
    have hhead : (natDigits n.natAbs ++ c :: rest).head? ≠ some '-' := by
      rw [hshape]
      simp only [List.cons_append, List.head?_cons, ne_eq, Option.some.injEq]
      intro hh
      have := congrArg Char.toNat hh
      rw [digitChar_toNat d hd] at this
      have h45 : ('-' : Char).toNat = 45 := rfl
      omega
    simp only [hhead, decide_False, Bool.false_eq_true, if_false]
    rw [htw.1, htw.2, if_neg hne, if_neg hlead, parseFracExp_end c rest h1 h2 h3]
    simp only [if_true, hval]
    have hn : ((n.natAbs : Nat) : Int) = n := by omega
    rw [hn]

/-! ### The text of times -/

theorem centuryOfEra_spec (doe : Int) (h0 : 0 ≤ doe) (h1 : doe ≤ 146096) :
    0 ≤ centuryOfEra doe ∧ centuryOfEra doe ≤ 3 ∧ 0 ≤ doe - 36524 * centuryOfEra doe ∧
    doe - 36524 * centuryOfEra doe ≤ 36524 ∧
    (centuryOfEra doe < 3 → doe - 36524 * centuryOfEra doe ≤ 36523) := by
  unfold centuryOfEra
  split_ifs <;> omega

theorem yearOfCycle_spec (doq : Int) (h0 : 0 ≤ doq) (h1 : doq ≤ 1460) :
    0 ≤ yearOfCycle doq ∧ yearOfCycle doq ≤ 3 ∧ 0 ≤ doq - 365 * yearOfCycle doq ∧
    doq - 365 * yearOfCycle doq ≤ 365 ∧
    (doq - 365 * yearOfCycle doq = 365 → yearOfCycle doq = 3 ∧ doq = 1460) := by
  unfold yearOfCycle
  split_ifs <;> omega

theorem yearOfEra_spec (doe : Int) (h0 : 0 ≤ doe) (h1 : doe ≤ 146096) :
    0 ≤ yearOfEra doe ∧ yearOfEra doe ≤ 399 ∧ 0 ≤ dayOfYear doe ∧ dayOfYear doe ≤ 365 ∧
    yearOfEra doe * 365 + yearOfEra doe / 4 - yearOfEra doe / 100 + dayOfYear doe = doe ∧
    (dayOfYear doe = 365 →
      (yearOfEra doe + 1) % 4 = 0 ∧
        ((yearOfEra doe + 1) % 100 ≠ 0 ∨ (yearOfEra doe + 1) % 400 = 0)) := by
  have hc := centuryOfEra_spec doe h0 h1
  unfold yearOfEra dayOfYear
  simp only []
  generalize centuryOfEra doe = c at hc ⊢
  have hq : 0 ≤ (doe - 36524 * c) / 1461 ∧ (doe - 36524 * c) / 1461 ≤ 24 := by omega
  have hdoq : 0 ≤ doe - 36524 * c - 1461 * ((doe - 36524 * c) / 1461) ∧
      doe - 36524 * c - 1461 * ((doe - 36524 * c) / 1461) ≤ 1460 ∧
      ((doe - 36524 * c) / 1461 = 24 → c < 3 →
        doe - 36524 * c - 1461 * ((doe - 36524 * c) / 1461) ≤ 1459) := by omega
  generalize (doe - 36524 * c) / 1461 = q at hq hdoq ⊢
  have hyy := yearOfCycle_spec _ hdoq.1 hdoq.2.1
  generalize yearOfCycle (doe - 36524 * c - 1461 * q) = yy at hyy ⊢
  have e4 : (100 * c + 4 * q + yy) / 4 = 25 * c + q := by omega
  have e100 : (100 * c + 4 * q + yy) / 100 = c := by omega
  rw [e4, e100]
  refine ⟨by omega, by omega, by omega, by omega, by omega, ?_⟩
  intro h365
  omega

theorem monthDay_spec (doy : Int) (h0 : 0 ≤ doy) (h1 : doy ≤ 365) :
    0 ≤ (5 * doy + 2) / 153 ∧ (5 * doy + 2) / 153 ≤ 11 ∧
    1 ≤ doy - (153 * ((5 * doy + 2) / 153) + 2) / 5 + 1 ∧
    (((5 * doy + 2) / 153 = 11) →
      doy - (153 * ((5 * doy + 2) / 153) + 2) / 5 + 1 ≤ 29 ∧
      (doy - (153 * ((5 * doy + 2) / 153) + 2) / 5 + 1 = 29 → doy = 365)) ∧
    (((5 * doy + 2) / 153 = 1 ∨ (5 * doy + 2) / 153 = 3 ∨ (5 * doy + 2) / 153 = 6 ∨
        (5 * doy + 2) / 153 = 8) →
      doy - (153 * ((5 * doy + 2) / 153) + 2) / 5 + 1 ≤ 30) ∧
    doy - (153 * ((5 * doy + 2) / 153) + 2) / 5 + 1 ≤ 31 := by
  omega

theorem monthOfIndex_spec (mp : Int) (h0 : 0 ≤ mp) (h1 : mp ≤ 11) :
    1 ≤ monthOfIndex mp ∧ monthOfIndex mp ≤ 12 ∧
    (monthOfIndex mp ≤ 2 ↔ 10 ≤ mp) ∧
    (if monthOfIndex mp > 2 then monthOfIndex mp - 3 else monthOfIndex mp + 9) = mp ∧
    (monthOfIndex mp = 2 ↔ mp = 11) ∧
    ((monthOfIndex mp = 4 ∨ monthOfIndex mp = 6 ∨ monthOfIndex mp = 9 ∨ monthOfIndex mp = 11) ↔
      (mp = 1 ∨ mp = 3 ∨ mp = 6 ∨ mp = 8)) := by
  unfold monthOfIndex
  split_ifs <;> omega

theorem daysIn_bound (m y mp yoe era d doy : Int)
    (hm2 : m = 2 ↔ mp = 11)
    (hm30 : (m = 4 ∨ m = 6 ∨ m = 9 ∨ m = 11) ↔ (mp = 1 ∨ mp = 3 ∨ mp = 6 ∨ mp = 8))
    (hy : mp = 11 → y = yoe + era * 400 + 1)
    (h29 : mp = 11 → d ≤ 29 ∧ (d = 29 → doy = 365))
    (h30 : (mp = 1 ∨ mp = 3 ∨ mp = 6 ∨ mp = 8) → d ≤ 30)
    (h31 : d ≤ 31)
    (hleap : doy = 365 →
      (yoe + 1) % 4 = 0 ∧ ((yoe + 1) % 100 ≠ 0 ∨ (yoe + 1) % 400 = 0)) :
    d ≤ daysIn m y := by
  unfold daysIn
  split_ifs with h1 h2 h3
  · omega
  · have := hy (hm2.1 h1)
    have := h29 (hm2.1 h1)
    by_contra hd
    have hd29 : d = 29 := by omega
    have := hleap (this.2 hd29)
    omega
  · exact h30 (hm30.1 h3)
  · exact h31

theorem daysFromCivil_arith (z era yoe doy mp m y d : Int)
    (hz : era * 146097 + (yoe * 365 + yoe / 4 - yoe / 100 + doy) = z + 719468)
    (h1 : 0 ≤ yoe) (h2 : yoe ≤ 399)
    (hmp : (if m > 2 then m - 3 else m + 9) = mp)
    (hy : y = yoe + era * 400 + (if m ≤ 2 then 1 else 0))
    (hd : d = doy - (153 * mp + 2) / 5 + 1) :
    daysFromCivil y m d = z := by
  unfold daysFromCivil
  simp only []
  rw [hmp]
  have hy1 : (if m ≤ 2 then y - 1 else y) = yoe + era * 400 := by
    rw [hy]
    split_ifs <;> omega
  rw [hy1]
  have he : (yoe + era * 400) / 400 = era := by omega
  rw [he]
  have hyo : yoe + era * 400 - era * 400 = yoe := by omega
  rw [hyo, hd]
  omega

theorem civilFromDays_spec (z : Int) :
    1 ≤ (civilFromDays z).2.1 ∧ (civilFromDays z).2.1 ≤ 12 ∧
    1 ≤ (civilFromDays z).2.2 ∧
    (civilFromDays z).2.2 ≤ daysIn (civilFromDays z).2.1 (civilFromDays z).1 ∧
    daysFromCivil (civilFromDays z).1 (civilFromDays z).2.1 (civilFromDays z).2.2 = z := by
  have hdoe : 0 ≤ z + 719468 - (z + 719468) / 146097 * 146097 ∧
      z + 719468 - (z + 719468) / 146097 * 146097 ≤ 146096 := by omega
  have hy := yearOfEra_spec _ hdoe.1 hdoe.2
  have hm := monthDay_spec _ hy.2.2.1 hy.2.2.2.1
  have hi := monthOfIndex_spec _ hm.1 hm.2.1
  unfold civilFromDays
  simp only []
  refine ⟨hi.1, hi.2.1, hm.2.2.1, ?_, ?_⟩
  · refine daysIn_bound _ _ _ _ ((z + 719468) / 146097) _ _ hi.2.2.2.2.1 hi.2.2.2.2.2 ?_
      hm.2.2.2.1 hm.2.2.2.2.1 hm.2.2.2.2.2 hy.2.2.2.2.2
    intro h11
    rw [if_pos (hi.2.2.1.2 (by omega))]
  · exact daysFromCivil_arith z ((z + 719468) / 146097) _ _ _ _ _ _ (by omega) hy.1 hy.2.1
      hi.2.2.2.1 rfl rfl

theorem num2_pad2 (n : Nat) (h : n < 100) :
    num2 (digitChar (n / 10 % 10)) (digitChar (n % 10)) = some n := by
  unfold num2
  rw [isDigit_digitChar _ (Nat.mod_lt _ (by decide)), isDigit_digitChar _ (Nat.mod_lt _ (by decide)),
    digitVal_digitChar _ (Nat.mod_lt _ (by decide)), digitVal_digitChar _ (Nat.mod_lt _ (by decide))]
  simp only [Bool.and_self, if_true, Option.some.injEq]
  omega

theorem num4_pad4 (n : Nat) (h : n < 10000) :
    num4 (digitChar (n / 1000 % 10)) (digitChar (n / 100 % 10)) (digitChar (n / 10 % 10))
      (digitChar (n % 10)) = some n := by
  unfold num4
  rw [isDigit_digitChar _ (Nat.mod_lt _ (by decide)), isDigit_digitChar _ (Nat.mod_lt _ (by decide)),
    isDigit_digitChar _ (Nat.mod_lt _ (by decide)), isDigit_digitChar _ (Nat.mod_lt _ (by decide)),
    digitVal_digitChar _ (Nat.mod_lt _ (by decide)), digitVal_digitChar _ (Nat.mod_lt _ (by decide)),
    digitVal_digitChar _ (Nat.mod_lt _ (by decide)), digitVal_digitChar _ (Nat.mod_lt _ (by decide))]
  simp only [Bool.and_self, if_true, Option.some.injEq]
  omega

theorem fracDigits_spec (w : Nat) :
    ∀ n, n < 10 ^ w →
      (∀ c ∈ fracDigits w n, isDigit c = true) ∧ fracValue w (fracDigits w n) = n := by
  induction w with
  | zero =>
    intro n h
    simp only [pow_zero, Nat.lt_one_iff] at h
    subst h
    refine ⟨?_, rfl⟩
    intro c hc
    cases hc
  | succ w ih =>
    intro n h
    by_cases hn : n = 0
    · subst hn
      refine ⟨?_, rfl⟩
      intro c hc
      simp [fracDigits] at hc
    · have hpos : 0 < 10 ^ w := Nat.pow_pos (by decide)
      have hd : n / 10 ^ w < 10 := by
        rw [Nat.div_lt_iff_lt_mul hpos]
        rw [pow_succ] at h
        omega
      have hr := ih (n % 10 ^ w) (Nat.mod_lt _ hpos)
      rw [fracDigits, if_neg hn]
      constructor
      · intro c hc
        rcases List.mem_cons.1 hc with hc | hc
        · rw [hc]
          exact isDigit_digitChar _ hd
        · exact hr.1 c hc
      · rw [fracValue, digitVal_digitChar _ hd, hr.2]
        exact Nat.div_add_mod' n (10 ^ w)

theorem isDigit_false_of (c : Char) (h : c.toNat < 48 ∨ 57 < c.toNat) : isDigit c = false := by
  unfold isDigit
  rcases h with h | h
  · simp
    omega
  · simp
    omega

theorem parseFraction_format (nsec : Nat) (h : nsec < 1000000000) (z : Char) (zs : List Char)
    (hz : isDigit z = false) (hz1 : z ≠ '.') :
    parseFraction ((if (nsec : Int) = 0 then [] else '.' :: fracDigits 9 nsec) ++ z :: zs) =
      (nsec, z :: zs) := by
  by_cases hn : nsec = 0
  · subst hn
    simp only [Nat.cast_zero, if_true, List.nil_append]
    unfold parseFraction
    cases zs with
    | nil => rfl
    | cons d rest => simp [hz1]
  · have hn1 : ¬ ((nsec : Int) = 0) := by omega
    rw [if_neg hn1]
    have hs := fracDigits_spec 9 nsec (by simpa using h)
    have hshape : fracDigits 9 nsec =
        digitChar (nsec / 10 ^ 8) :: fracDigits 8 (nsec % 10 ^ 8) := by
      rw [fracDigits, if_neg hn]
    have hall : ∀ c ∈ fracDigits 8 (nsec % 10 ^ 8), isDigit c = true := by
      intro c hc
      exact hs.1 c (by rw [hshape]; exact List.mem_cons_of_mem _ hc)
    have hd0 : isDigit (digitChar (nsec / 10 ^ 8)) = true :=
      hs.1 _ (by rw [hshape]; exact List.mem_cons_self _ _)
    have htw := takeWhile_digits (fracDigits 8 (nsec % 10 ^ 8)) z zs hall hz
    unfold parseFraction
    rw [hshape]
    simp only [List.cons_append, hd0, and_self, if_true, htw.1, htw.2]
    rw [← hshape, hs.2]

theorem formatZone_spec (off : Int) (text : List Char) (h : formatZone off = some text)
    (hmin : off % 60 = 0) :
    parseZone text = some off ∧
      ∃ z zs, text = z :: zs ∧ isDigit z = false ∧ z ≠ '.' := by
  unfold formatZone at h
  split at h
  · next h0 =>
    cases h
    subst h0
    exact ⟨rfl, 'Z', [], rfl, by decide, by decide⟩
  · next h0 =>
    simp only [] at h
    split at h
    · cases h
    · next h24 =>
      cases h
      refine ⟨?_, _, _, rfl, ?_, ?_⟩
      · unfold parseZone pad2
        simp only [List.cons_append, List.nil_append]
        rw [num2_pad2 (off.natAbs / 60 / 60) (by omega),
          num2_pad2 (off.natAbs / 60 % 60) (by omega)]
        simp only []
        have hval : (off.natAbs / 60 / 60 * 60 + off.natAbs / 60 % 60) * 60 = off.natAbs := by
          omega
        have h23 : off.natAbs / 60 / 60 ≤ 23 := by omega
        have h59 : off.natAbs / 60 % 60 ≤ 59 := by omega
        rw [hval]
        by_cases hneg : off ≤ -60
        · simp only [if_pos hneg]
          simp only [h23, h59, and_self, or_true, if_true, Option.some.injEq]
          omega
        · simp only [if_neg hneg]
          simp only [h23, h59, and_self, true_or, if_true, Option.some.injEq]
          rw [if_neg (by decide)]
          omega
      · split_ifs <;> decide
      · split_ifs <;> decide

theorem parseRFC3339_text (Y M D H Mi S nsec : Nat) (off : Int) (zt : List Char)
    (hY : Y < 10000) (hM1 : 1 ≤ M) (hM2 : M ≤ 12) (hD1 : 1 ≤ D)
    (hD2 : (D : Int) ≤ daysIn M Y) (hD3 : D < 100) (hH : H ≤ 23) (hMi : Mi ≤ 59) (hS : S ≤ 59)
    (hn : nsec < 1000000000) (hz : parseZone zt = some off)
    (hzt : ∃ z zs, zt = z :: zs ∧ isDigit z = false ∧ z ≠ '.') :
    parseRFC3339 (pad4 Y ++ '-' :: pad2 M ++ '-' :: pad2 D ++ 'T' :: pad2 H ++ ':' :: pad2 Mi ++
        ':' :: pad2 S ++ (if (nsec : Int) = 0 then [] else '.' :: fracDigits 9 nsec) ++ zt) =
      some ((daysFromCivil Y M D * 86400 + H * 3600 + Mi * 60 + S - off) * 1000000000 + nsec) := by
  obtain ⟨z, zs, hzt1, hzd, hzp⟩ := hzt
  have hfrac := parseFraction_format nsec hn z zs hzd hzp
  rw [← hzt1] at hfrac
  simp only [pad4, pad2, List.cons_append, List.nil_append, List.append_assoc]
  unfold parseRFC3339
  simp only []
  rw [num4_pad4 Y hY, num2_pad2 M (by omega), num2_pad2 D hD3, num2_pad2 H (by omega),
    num2_pad2 Mi (by omega), num2_pad2 S (by omega)]
  simp only []
  rw [if_pos ⟨trivial, trivial, trivial, trivial, trivial, hM1, hM2, hD1, hD2, hH, hMi, hS⟩]
  rw [hfrac]
  simp only [hz]

theorem parseRFC3339_format (t off : Int) (text : List Char)
    (h : formatRFC3339 t off = some text) (hmin : off % 60 = 0) :
    parseRFC3339 text = some t := by
  unfold formatRFC3339 at h
  simp only [] at h
  split at h
  · cases h
  · next hyear =>
    split at h
    · cases h
    · next zt hzone =>
      have hzs := formatZone_spec off zt hzone hmin
      have hciv := civilFromDays_spec ((t / 1000000000 + off) / 86400)
      generalize civilFromDays ((t / 1000000000 + off) / 86400) = ymd at h hyear hciv
      obtain ⟨y, m, d⟩ := ymd
      simp only [] at h hyear hciv
      have hdin : d ≤ 31 := by
        have := hciv.2.2.2.1
        unfold daysIn at this
        split_ifs at this <;> omega
      have hy : ((y.natAbs : Nat) : Int) = y := by omega
      have hm : ((m.natAbs : Nat) : Int) = m := by omega
      have hd : ((d.natAbs : Nat) : Int) = d := by omega
      have hsod : 0 ≤ (t / 1000000000 + off) % 86400 ∧ (t / 1000000000 + off) % 86400 < 86400 := by
        omega
      have hns : 0 ≤ t % 1000000000 ∧ t % 1000000000 < 1000000000 := by omega
      have hnsec : (((t % 1000000000).natAbs : Nat) : Int) = t % 1000000000 := by omega
      have key := parseRFC3339_text y.natAbs m.natAbs d.natAbs
        ((t / 1000000000 + off) % 86400 / 3600).natAbs
        ((t / 1000000000 + off) % 86400 / 60 % 60).natAbs
        ((t / 1000000000 + off) % 86400 % 60).natAbs (t % 1000000000).natAbs off zt
        (by omega) (by omega) (by omega) (by omega) (by rw [hd, hm, hy]; exact hciv.2.2.2.1)
        (by omega) (by omega) (by omega) (by omega) (by omega) hzs.1 hzs.2
      rw [hnsec] at key
      cases h
      rw [key, hy, hm, hd, hciv.2.2.2.2]
      simp only [Option.some.injEq]
      have e1 : ((((t / 1000000000 + off) % 86400 / 3600).natAbs : Nat) : Int) =
          (t / 1000000000 + off) % 86400 / 3600 := by omega
      have e2 : ((((t / 1000000000 + off) % 86400 / 60 % 60).natAbs : Nat) : Int) =
          (t / 1000000000 + off) % 86400 / 60 % 60 := by omega
      have e3 : ((((t / 1000000000 + off) % 86400 % 60).natAbs : Nat) : Int) =
          (t / 1000000000 + off) % 86400 % 60 := by omega
      rw [e1, e2, e3]
      omega

/-! ### The text of an object -/

theorem skipWs_cons_of_not (c : Char) (l : List Char) (h : isWs c = false) :
    skipWs (c :: l) = c :: l := by
  unfold skipWs
  rw [List.dropWhile_cons_of_neg (by simp [h])]

theorem skipWs_cons_of_ws (c : Char) (l : List Char) (h : isWs c = true) :
    skipWs (c :: l) = skipWs l := by
  unfold skipWs
  rw [List.dropWhile_cons_of_pos h]

theorem scanString_plainText (l : List Char) (rest : List Char)
    (h : ∀ c ∈ l, isPlain c = true) : scanString (l ++ dquote :: rest) = some (l, rest) := by
  induction l with
  | nil =>
    rw [List.nil_append, scanString.eq_def]
    simp
  | cons c l ih =>
    have hc := h c (List.mem_cons_self _ _)
    unfold isPlain at hc
    simp only [Bool.and_eq_true, decide_eq_true_eq] at hc
    rw [List.cons_append, scanString_plain c _ hc.1.1 hc.1.2,
      ih (fun x hx => h x (List.mem_cons_of_mem _ hx))]
    rfl

theorem unquoteAux_plainText (l : List Char) (h : ∀ c ∈ l, isPlain c = true) :
    unquoteAux none l = some l := by
  induction l with
  | nil => rfl
  | cons c l ih =>
    have hc := h c (List.mem_cons_self _ _)
    unfold isPlain at hc
    simp only [Bool.and_eq_true, decide_eq_true_eq] at hc
    rw [unquoteAux_plain c l hc.1.2 hc.1.1 (by omega),
      ih (fun x hx => h x (List.mem_cons_of_mem _ hx))]
    rfl

theorem isPlain_of_isDigit (c : Char) (h : isDigit c = true) : isPlain c = true := by
  unfold isDigit at h
  simp only [Bool.and_eq_true, decide_eq_true_eq] at h
  unfold isPlain
  simp only [Bool.and_eq_true, decide_eq_true_eq]
  refine ⟨⟨?_, ?_⟩, by omega⟩
  · intro he
    rw [he] at h
    revert h
    decide
  · intro he
    rw [he] at h
    revert h
    decide

theorem isPlain_digitChar (d : Nat) (h : d < 10) : isPlain (digitChar d) = true :=
  isPlain_of_isDigit _ (isDigit_digitChar d h)

theorem formatZone_plain (off : Int) (text : List Char) (h : formatZone off = some text) :
    ∀ c ∈ text, isPlain c = true := by
  unfold formatZone at h
  split at h
  · cases h
    decide
  · simp only [] at h
    split at h
    · cases h
    · cases h
      intro c hc
      simp only [pad2, List.cons_append, List.nil_append, List.mem_cons, List.mem_singleton,
        List.not_mem_nil, or_false] at hc
      rcases hc with hc | hc | hc | hc | hc | hc
      · rw [hc]
        split_ifs <;> decide
      · rw [hc]
        exact isPlain_digitChar _ (Nat.mod_lt _ (by decide))
      · rw [hc]
        exact isPlain_digitChar _ (Nat.mod_lt _ (by decide))
      · rw [hc]
        decide
      · rw [hc]
        exact isPlain_digitChar _ (Nat.mod_lt _ (by decide))
      · rw [hc]
        exact isPlain_digitChar _ (Nat.mod_lt _ (by decide))

theorem formatRFC3339_plain (t off : Int) (text : List Char)
    (h : formatRFC3339 t off = some text) : ∀ c ∈ text, isPlain c = true := by
  unfold formatRFC3339 at h
  simp only [] at h
  split at h
  · cases h
  · split at h
    · cases h
    · next zt hzone =>
      have hz := formatZone_plain off zt hzone
      have hns : (t % 1000000000).natAbs < 10 ^ 9 := by omega
      have hf := (fracDigits_spec 9 _ hns).1
      cases h
      intro c hc
      simp only [pad4, pad2, List.cons_append, List.nil_append, List.append_assoc,
        List.mem_cons, List.mem_append] at hc
      rcases hc with hc | hc | hc | hc | hc | hc | hc | hc | hc | hc | hc | hc | hc | hc | hc |
        hc | hc | hc | hc | hc | hc
      all_goals first
        | (rw [hc]; exact isPlain_digitChar _ (Nat.mod_lt _ (by decide)))
        | (rw [hc]; decide)
        | exact hz c hc
        | skip
      split_ifs at hc
      · cases hc
      · rcases List.mem_cons.1 hc with hc | hc
        · rw [hc]
          decide
        · exact isPlain_of_isDigit c (hf c hc)

theorem isWs_false_of (c : Char) (h : 32 < c.toNat) : isWs c = false := by
  unfold isWs
  simp only [Bool.or_eq_false_iff, beq_eq_false_iff_ne, ne_eq]
  omega

theorem parseValue_str (f : Nat) (key : String) (s : String) (c : Char) (rest : List Char)
    (hkey : foldName key ≠ "created") :
    ∃ lit, parseValue (f + 1) (' ' :: (jsonQuote (goString s) ++ c :: rest)) =
        some (lit, c :: rest) ∧ litValue key lit = .str s := by
  refine ⟨.string ((goString s).flatMap jsonEscapeUnit) s.toList, ?_, ?_⟩
  · simp only [parseValue]
    rw [skipWs_cons_of_ws _ _ (by decide)]
    unfold jsonQuote
    rw [List.cons_append, skipWs_cons_of_not _ _ (by decide)]
    simp only [if_true]
    rw [List.append_assoc, List.singleton_append, scanString_quoted]
    simp only []
    unfold goString
    rw [unquote_quoted]
  · unfold litValue
    simp only [if_neg hkey]
    cases s
    rfl

theorem intText_head (n : Int) :
    ∃ h tl, intText n = h :: tl ∧ (h = '-' ∨ isDigit h = true) := by
  obtain ⟨_, _, d, more, hshape, hd, _⟩ := natDigits_spec n.natAbs
  unfold intText
  split
  · exact ⟨'-', _, rfl, Or.inl rfl⟩
  · exact ⟨digitChar d, more, hshape, Or.inr (isDigit_digitChar d hd)⟩

theorem isWs_false_of_digit (h : Char) (hd : h = '-' ∨ isDigit h = true) : isWs h = false := by
  rcases hd with hd | hd
  · rw [hd]
    decide
  · unfold isDigit at hd
    simp only [Bool.and_eq_true, decide_eq_true_eq] at hd
    exact isWs_false_of h (by omega)

theorem ne_dquote_of_digit (h : Char) (hd : h = '-' ∨ isDigit h = true) : h ≠ dquote := by
  rcases hd with hd | hd
  · rw [hd]
    decide
  · intro he
    rw [he] at hd
    revert hd
    decide

theorem parseValue_num (f : Nat) (key : String) (n : Int) (c : Char) (rest : List Char)
    (hn : isInt64 n = true) (hc : c = ',' ∨ c = newline) :
    ∃ lit, parseValue (f + 1) (' ' :: (intText n ++ c :: rest)) = some (lit, c :: rest) ∧
      litValue key lit = .num n := by
  refine ⟨.int n, ?_, ?_⟩
  · have hnum := parseNumber_intText n c rest (by rcases hc with h | h <;> rw [h] <;> decide)
      (by rcases hc with h | h <;> rw [h] <;> decide)
      (by rcases hc with h | h <;> rw [h] <;> decide)
      (by rcases hc with h | h <;> rw [h] <;> decide)
    obtain ⟨h, tl, hshape, hhd⟩ := intText_head n
    rw [hshape] at hnum ⊢
    rw [List.cons_append] at hnum ⊢
    rw [parseValue, skipWs_cons_of_ws _ _ (by decide),
      skipWs_cons_of_not _ _ (isWs_false_of_digit h hhd)]
    simp only []
    rw [if_neg (ne_dquote_of_digit h hhd), if_pos hhd]
    exact hnum
  · unfold litValue
    simp only [hn, if_true]

theorem parseValue_time (f : Nat) (key : String) (t off : Int) (text : List Char) (c : Char)
    (rest : List Char) (hkey : foldName key = "created")
    (htext : formatRFC3339 t off = some text) (hmin : off % 60 = 0) :
    ∃ lit, parseValue (f + 1) (' ' :: (dquote :: (text ++ [dquote]) ++ c :: rest)) =
        some (lit, c :: rest) ∧ litValue key lit = .time t := by
  have hplain := formatRFC3339_plain t off text htext
  refine ⟨.string text text, ?_, ?_⟩
  · simp only [parseValue]
    rw [skipWs_cons_of_ws _ _ (by decide), List.cons_append,
      skipWs_cons_of_not _ _ (by decide)]
    simp only [if_true]
    rw [List.append_assoc, List.singleton_append, scanString_plainText text _ hplain]
    simp only []
    unfold unquote
    rw [unquoteAux_plainText text hplain]
  · unfold litValue
    simp only [if_pos hkey, parseRFC3339_format t off text htext hmin]

theorem parseValue_member (zone : Int → Int) (f : Nat) (m : String × JsonValue)
    (v : List Char) (c : Char) (rest : List Char) (hok : MemberOk m)
    (hzone : ∀ t, m.2 = .time t → zone t % 60 = 0)
    (hv : renderValue zone m.2 = .ok v) (hc : c = ',' ∨ c = newline) :
    ∃ lit, parseValue (f + 1) (' ' :: (v ++ c :: rest)) = some (lit, c :: rest) ∧
      litValue m.1 lit = m.2 := by
  obtain ⟨key, val⟩ := m
  cases val with
  | str s =>
    have hv1 : v = jsonQuote (goString s) := (Except.ok.inj hv).symm
    rw [hv1]
    exact parseValue_str f key s c rest hok
  | num n =>
    have hv1 : v = intText n := (Except.ok.inj hv).symm
    rw [hv1]
    exact parseValue_num f key n c rest hok hc
  | time t =>
    have hv0 : (match formatRFC3339 t (zone t) with
        | none => Except.error "json: error calling MarshalJSON for type time.Time"
        | some text => Except.ok (dquote :: (text ++ [dquote]))) = Except.ok v := hv
    cases htext : formatRFC3339 t (zone t) with
    | none =>
      rw [htext] at hv0
      cases hv0
    | some text =>
      rw [htext] at hv0
      have hv1 : v = dquote :: (text ++ [dquote]) := (Except.ok.inj hv0).symm
      rw [hv1]
      exact parseValue_time f key t (zone t) text c rest hok htext (hzone t rfl)
  | null => exact absurd hok (fun h => h)
  | other => exact absurd hok (fun h => h)

theorem string_mk_toList (s : String) : String.mk s.toList = s := by
  cases s
  rfl

theorem memberLoop_key (value : List Char → Option (JsonLit × List Char)) (n : Nat)
    (key : String) (tail : List Char) :
    memberLoop value (n + 1)
        (newline :: ' ' :: ' ' :: (jsonQuote (goString key) ++ ':' :: ' ' :: tail)) =
      match value (' ' :: tail) with
      | none => none
      | some (lit, rest3) =>
        match skipWs rest3 with
        | d :: rest4 =>
          if d = ',' then
            (memberLoop value n rest4).map (fun r => ((key.toList, lit) :: r.1, r.2))
          else if d = rbrace then some ([(key.toList, lit)], rest4)
          else none
        | [] => none := by
  rw [memberLoop]
  rw [skipWs_cons_of_ws _ _ (by decide), skipWs_cons_of_ws _ _ (by decide),
    skipWs_cons_of_ws _ _ (by decide)]
  unfold jsonQuote
  rw [List.cons_append, skipWs_cons_of_not _ _ (by decide)]
  simp only [if_true]
  rw [List.append_assoc, List.singleton_append, scanString_quoted]
  simp only []
  unfold goString
  rw [unquote_quoted]
  simp only []
  rw [skipWs_cons_of_not _ _ (by decide)]
  simp only [if_true]

theorem memberLoop_comma (value : List Char → Option (JsonLit × List Char)) (n : Nat)
    (key : String) (v after : List Char) (lit : JsonLit)
    (hval : value (' ' :: (v ++ ',' :: after)) = some (lit, ',' :: after)) :
    memberLoop value (n + 1)
        (newline :: ((' ' :: ' ' :: (jsonQuote (goString key) ++ ':' :: ' ' :: v)) ++
          ',' :: after)) =
      (memberLoop value n after).map (fun r => ((key.toList, lit) :: r.1, r.2)) := by
  have h := memberLoop_key value n key (v ++ ',' :: after)
  rw [hval] at h
  simp only [] at h
  rw [skipWs_cons_of_not _ _ (by decide)] at h
  simp only [if_true] at h
  rw [← h]
  simp only [List.cons_append, List.append_assoc]

theorem memberLoop_last (value : List Char → Option (JsonLit × List Char)) (n : Nat)
    (key : String) (v rest : List Char) (lit : JsonLit)
    (hval : value (' ' :: (v ++ newline :: rbrace :: rest)) =
      some (lit, newline :: rbrace :: rest)) :
    memberLoop value (n + 1)
        (newline :: ((' ' :: ' ' :: (jsonQuote (goString key) ++ ':' :: ' ' :: v)) ++
          newline :: rbrace :: rest)) =
      some ([(key.toList, lit)], rest) := by
  have h := memberLoop_key value n key (v ++ newline :: rbrace :: rest)
  rw [hval] at h
  simp only [] at h
  rw [skipWs_cons_of_ws _ _ (by decide), skipWs_cons_of_not _ _ (by decide)] at h
  simp only [if_neg (show rbrace ≠ ',' by decide), if_true] at h
  rw [← h]
  simp only [List.cons_append, List.append_assoc]

theorem renderMember_eq (zone : Int → Int) (m : String × JsonValue) (line : List Char)
    (h : renderMember zone m = .ok line) :
    ∃ v, renderValue zone m.2 = .ok v ∧
      line = ' ' :: ' ' :: (jsonQuote (goString m.1) ++ ':' :: ' ' :: v) := by
  unfold renderMember at h
  cases hv : renderValue zone m.2 with
  | error err =>
    rw [hv] at h
    cases h
  | ok v =>
    rw [hv] at h
    exact ⟨v, rfl, (Except.ok.inj h).symm⟩

theorem renderMembers_cons (zone : Int → Int) (m : String × JsonValue)
    (ms : List (String × JsonValue)) (lines : List (List Char))
    (h : renderMembers zone (m :: ms) = .ok lines) :
    ∃ line rest, renderMember zone m = .ok line ∧ renderMembers zone ms = .ok rest ∧
      lines = line :: rest := by
  rw [renderMembers] at h
  cases hm : renderMember zone m with
  | error err =>
    rw [hm] at h
    cases h
  | ok line =>
    rw [hm] at h
    simp only [] at h
    cases hr : renderMembers zone ms with
    | error err =>
      rw [hr] at h
      cases h
    | ok rest =>
      rw [hr] at h
      exact ⟨line, rest, rfl, rfl, (Except.ok.inj h).symm⟩

theorem memberLoop_rendered (zone : Int → Int) (f : Nat) :
    ∀ (ms : List (String × JsonValue)) (lines : List (List Char)) (n : Nat),
      ms ≠ [] → renderMembers zone ms = .ok lines →
      (∀ m ∈ ms, MemberOk m ∧ ∀ t, m.2 = .time t → zone t % 60 = 0) →
      ms.length ≤ n →
      ∃ lits, memberLoop (parseValue (f + 1)) n
          (newline :: (joinLines lines ++ [newline, rbrace])) = some (lits, []) ∧
        lits.map (fun m => (String.mk m.1, litValue (String.mk m.1) m.2)) = ms := by
  intro ms
  induction ms with
  | nil => intro lines n h; exact absurd rfl h
  | cons m ms ih =>
    intro lines n _ hr hok hn
    obtain ⟨line, rest, hm, hrest, hlines⟩ := renderMembers_cons zone m ms lines hr
    obtain ⟨v, hv, hline⟩ := renderMember_eq zone m line hm
    have hmok := hok m (List.mem_cons_self _ _)
    obtain ⟨k, hk⟩ : ∃ k, n = k + 1 := ⟨n - 1, by simp only [List.length_cons] at hn; omega⟩
    subst hk
    subst hlines
    cases ms with
    | nil =>
      rw [renderMembers] at hrest
      cases hrest
      obtain ⟨lit, hval, hlit⟩ := parseValue_member zone f m v newline [rbrace] hmok.1 hmok.2 hv
        (Or.inr rfl)
      refine ⟨[(m.1.toList, lit)], ?_, ?_⟩
      · rw [hline]
        exact memberLoop_last _ k m.1 v [] lit hval
      · simp only [List.map_cons, List.map_nil, string_mk_toList, hlit]
    | cons m2 ms2 =>
      obtain ⟨l2, r2, _, _, hrest2⟩ := renderMembers_cons zone m2 ms2 rest hrest
      subst hrest2
      obtain ⟨lits, hloop, hmap⟩ := ih (l2 :: r2) k (List.cons_ne_nil _ _) hrest
        (fun x hx => hok x (List.mem_cons_of_mem _ hx))
        (by simp only [List.length_cons] at hn ⊢; omega)
      obtain ⟨lit, hval, hlit⟩ := parseValue_member zone f m v ','
        (newline :: (joinLines (l2 :: r2) ++ [newline, rbrace])) hmok.1 hmok.2 hv (Or.inl rfl)
      refine ⟨(m.1.toList, lit) :: lits, ?_, ?_⟩
      · have hstep := memberLoop_comma (parseValue (f + 1)) k m.1 v
          (newline :: (joinLines (l2 :: r2) ++ [newline, rbrace])) lit hval
        rw [hloop] at hstep
        have htext : newline :: (joinLines (line :: l2 :: r2) ++ [newline, rbrace]) =
            newline :: (' ' :: ' ' :: (jsonQuote (goString m.1) ++ ':' :: ' ' :: v) ++
              ',' :: newline :: (joinLines (l2 :: r2) ++ [newline, rbrace])) := by
          rw [hline]
          simp only [joinLines, List.cons_append, List.append_assoc]
        rw [htext, hstep]
        rfl
      · simp only [List.map_cons, string_mk_toList, hlit, hmap]

theorem renderMembers_length (zone : Int → Int) :
    ∀ (ms : List (String × JsonValue)) (lines : List (List Char)),
      renderMembers zone ms = .ok lines → lines.length = ms.length ∧ ∀ l ∈ lines, l ≠ [] := by
  intro ms
  induction ms with
  | nil =>
    intro lines h
    rw [renderMembers] at h
    cases h
    exact ⟨rfl, by intro l hl; cases hl⟩
  | cons m ms ih =>
    intro lines h
    obtain ⟨line, rest, hm, hrest, hlines⟩ := renderMembers_cons zone m ms lines h
    obtain ⟨v, _, hline⟩ := renderMember_eq zone m line hm
    have hr := ih rest hrest
    subst hlines
    refine ⟨by simp only [List.length_cons, hr.1], ?_⟩
    intro l hl
    rcases List.mem_cons.1 hl with hl | hl
    · rw [hl, hline]
      exact List.cons_ne_nil _ _
    · exact hr.2 l hl

theorem joinLines_length :
    ∀ lines : List (List Char), (∀ l ∈ lines, l ≠ []) → lines.length ≤ (joinLines lines).length := by
  intro lines
  induction lines with
  | nil => intro _; exact Nat.le_refl _
  | cons line rest ih =>
    intro h
    have hline : 1 ≤ line.length := by
      have := h line (List.mem_cons_self _ _)
      cases line with
      | nil => exact absurd rfl this
      | cons c l => simp only [List.length_cons]; omega
    cases rest with
    | nil => simpa [joinLines] using hline
    | cons l2 r2 =>
      have := ih (fun l hl => h l (List.mem_cons_of_mem _ hl))
      simp only [joinLines, List.length_append, List.length_cons] at this ⊢
      omega

theorem joinLines_head (line : List Char) (lines : List (List Char)) (a b c : Char)
    (l : List Char) (h : line = a :: b :: c :: l) :
    ∃ y, joinLines (line :: lines) = a :: b :: c :: y := by
  subst h
  cases lines with
  | nil => exact ⟨l, rfl⟩
  | cons l2 r2 => exact ⟨l ++ ',' :: newline :: joinLines (l2 :: r2), rfl⟩

theorem jsonParse_jsonRender (zone : Int → Int) (ms : List (String × JsonValue))
    (text : String) (hne : ms ≠ [])
    (hok : ∀ m ∈ ms, MemberOk m ∧ ∀ t, m.2 = .time t → zone t % 60 = 0)
    (hr : jsonRender zone ms = .ok text) : jsonParse text = .ok ms := by
  unfold jsonRender at hr
  cases hlines : renderMembers zone ms with
  | error err =>
    rw [hlines] at hr
    cases hr
  | ok lines =>
    rw [hlines] at hr
    have hlen := renderMembers_length zone ms lines hlines
    cases ms with
    | nil => exact absurd rfl hne
    | cons m ms1 =>
      obtain ⟨line, rest, hm, _, hshape⟩ := renderMembers_cons zone m ms1 lines hlines
      obtain ⟨v, _, hline⟩ := renderMember_eq zone m line hm
      subst hshape
      simp only [] at hr
      have htext : text = String.mk
          (lbrace :: newline :: (joinLines (line :: rest) ++ [newline, rbrace])) :=
        (Except.ok.inj hr).symm
      obtain ⟨y, hy⟩ := joinLines_head line rest ' ' ' ' dquote
        ((goString m.1).flatMap jsonEscapeUnit ++ [dquote] ++ ':' :: ' ' :: v) (by
          rw [hline]
          unfold jsonQuote
          simp only [List.cons_append, List.append_assoc])
      have hjl := joinLines_length (line :: rest) hlen.2
      obtain ⟨lits, hloop, hmap⟩ := memberLoop_rendered zone
        (lbrace :: newline :: (joinLines (line :: rest) ++ [newline, rbrace])).length
        (m :: ms1) (line :: rest)
        ((lbrace :: newline :: (joinLines (line :: rest) ++ [newline, rbrace])).length + 1)
        hne hlines hok (by
          rw [← hlen.1]
          simp only [List.length_cons, List.length_append] at hjl ⊢
          omega)
      unfold jsonParse
      rw [htext]
      show (match parseDocument
          (lbrace :: newline :: (joinLines (line :: rest) ++ [newline, rbrace])) with
        | none => Except.error "invalid character looking for beginning of value"
        | some ms => Except.ok (ms.map (fun m => (String.mk m.1, litValue (String.mk m.1) m.2))))
        = Except.ok (m :: ms1)
      have hdoc : parseDocument
          (lbrace :: newline :: (joinLines (line :: rest) ++ [newline, rbrace])) = some lits := by
        unfold parseDocument
        simp only []
        rw [skipWs_cons_of_not _ _ (by decide)]
        simp only [if_true]
        have hskip : skipWs (newline :: (joinLines (line :: rest) ++ [newline, rbrace])) =
            dquote :: (y ++ [newline, rbrace]) := by
          rw [hy, skipWs_cons_of_ws _ _ (by decide)]
          simp only [List.cons_append]
          rw [skipWs_cons_of_ws _ _ (by decide), skipWs_cons_of_ws _ _ (by decide),
            skipWs_cons_of_not _ _ (by decide)]
        rw [hskip]
        simp only [if_neg (show dquote ≠ rbrace by decide)]
        rw [hloop]
        simp only [skipWs, List.dropWhile_nil, if_true]
      rw [hdoc]
      simp only [hmap]


/-! ### Saving a job and loading it back, with the text of `encoding/json` -/

theorem mem_memberStr (name : String) (omitempty : Bool) (s : String) (m : String × JsonValue)
    (h : m ∈ memberStr name omitempty s) : m = (name, .str s) := by
  unfold memberStr at h
  split at h
  · cases h
  · exact List.mem_singleton.1 h

theorem mem_memberInt (name : String) (omitempty : Bool) (n : Int) (m : String × JsonValue)
    (h : m ∈ memberInt name omitempty n) : m = (name, .num n) := by
  unfold memberInt at h
  split at h
  · cases h
  · exact List.mem_singleton.1 h

theorem memberOk_str (zone : Int → Int) (name : String) (omitempty : Bool) (s : String)
    (m : String × JsonValue) (hname : foldName name ≠ "created")
    (h : m ∈ memberStr name omitempty s) :
    MemberOk m ∧ ∀ t, m.2 = .time t → zone t % 60 = 0 := by
  rw [mem_memberStr name omitempty s m h]
  exact ⟨hname, fun t ht => by cases ht⟩

theorem memberOk_int (zone : Int → Int) (name : String) (omitempty : Bool) (n : Int)
    (m : String × JsonValue) (hn : isInt64 n = true) (h : m ∈ memberInt name omitempty n) :
    MemberOk m ∧ ∀ t, m.2 = .time t → zone t % 60 = 0 := by
  rw [mem_memberInt name omitempty n m h]
  exact ⟨hn, fun t ht => by cases ht⟩

theorem jobToJson_members_ok (zone : Int → Int) (job : Job) (hints : intFieldsInRange job)
    (hzone : zone job.Created % 60 = 0) :
    ∀ m ∈ jobToJson job, MemberOk m ∧ ∀ t, m.2 = .time t → zone t % 60 = 0 := by
  intro m hm
  unfold jobToJson at hm
  simp only [List.mem_append, List.mem_singleton] at hm
  rcases hm with ((((((((((((((h | h) | h) | h) | h) | h) | h) | h) | h) | h) | h) | h) | h) |
    h) | h) | h
  · exact memberOk_str zone _ _ _ m (by decide) h
  · exact memberOk_str zone _ _ _ m (by decide) h
  · exact memberOk_str zone _ _ _ m (by decide) h
  · exact memberOk_str zone _ _ _ m (by decide) h
  · exact memberOk_str zone _ _ _ m (by decide) h
  · exact memberOk_str zone _ _ _ m (by decide) h
  · exact memberOk_int zone _ _ _ m hints.1 h
  · exact memberOk_int zone _ _ _ m hints.2.1 h
  · exact memberOk_int zone _ _ _ m hints.2.2.1 h
  · exact memberOk_str zone _ _ _ m (by decide) h
  · rw [h]
    refine ⟨show foldName "created" = "created" by decide, ?_⟩
    intro t ht
    cases ht
    exact hzone
  · exact memberOk_str zone _ _ _ m (by decide) h
  · exact memberOk_str zone _ _ _ m (by decide) h
  · exact memberOk_str zone _ _ _ m (by decide) h
  · exact memberOk_int zone _ _ _ m hints.2.2.2 h
  · exact memberOk_str zone _ _ _ m (by decide) h

theorem jobToJson_ne_nil (job : Job) : jobToJson job ≠ [] := by
  have h : jobToJson job = ("id", JsonValue.str job.ID) ::
      (memberStr "status" false job.Status ++
      memberStr "url" true job.URL ++
      memberStr "file" true job.File ++
      memberStr "audio_file" true job.AudioFile ++
      memberStr "text" true job.Text ++
      memberInt "progress" false job.Progress ++
      memberInt "audio_progress" false job.AudioProgress ++
      memberInt "transcript_progress" false job.TranscriptProgress ++
      memberStr "error" true job.Error ++
      [("created", .time job.Created)] ++
      memberStr "title" true job.Title ++
      memberStr "description" true job.Description ++
      memberStr "thumbnail" true job.Thumbnail ++
      memberInt "duration" true job.Duration ++
      memberStr "channel_name" true job.ChannelName) := by
    unfold jobToJson
    simp only [List.append_assoc]
    rfl
  rw [h]
  exact List.cons_ne_nil _ _

theorem jsonMarshalJob_goJson (zone : Int → Int) (job : Job) :
    jsonMarshalJob (goJson zone) job = jsonRender zone (jobToJson job) := by
  unfold jsonMarshalJob goJson
  simp only []

theorem goJson_parse (zone : Int → Int) (data : String) :
    (goJson zone).parse data = jsonParse data := by
  unfold goJson
  simp only []

theorem goJson_render (zone : Int → Int) (obj : List (String × JsonValue)) :
    (goJson zone).render obj = jsonRender zone obj := by
  unfold goJson
  simp only []

theorem goJson_roundtrip (zone : Int → Int) (job : Job) (data : String)
    (hints : intFieldsInRange job) (hzone : zone job.Created % 60 = 0)
    (henc : jsonMarshalJob (goJson zone) job = .ok data) :
    (goJson zone).render (jobToJson job) = .ok data ∧
      (goJson zone).parse data = .ok (jobToJson job) := by
  rw [jsonMarshalJob_goJson] at henc
  rw [goJson_render, goJson_parse]
  exact ⟨henc, jsonParse_jsonRender zone (jobToJson job) data (jobToJson_ne_nil job)
    (jobToJson_members_ok zone job hints hzone) henc⟩

set_option maxRecDepth 1000000 in
/-- C11 fails on the code as stated. A record whose Created carries a zone 30
seconds east of UTC is written with the zone `+00:00`, the seconds of the
offset being dropped, and `loadJobsFromDisk` yields a record whose Created is
30 seconds later. And the text written for a Go string that is the single
byte 0xff, which is not valid UTF-8, is the escape of U+FFFD, which reads back
as the character U+FFFD: a Text with that byte is not the Text loaded. -/
theorem saveJobToDisk_loadJobsFromDisk_changes_record :
    sampleJob.Created = 0 ∧
    mapLookup
        (loadJobsFromDisk (restartEnv.withJson (goJson (fun _ => 30)))
          ⟨[], [], [],
            (saveJobToDisk (restartEnv.withJson (goJson (fun _ => 30))) sampleJob
              freshWorld).fs⟩).1.jobs sampleJob.ID =
      some { sampleJob with Created := 30000000000 } ∧
    jsonQuote [GoUnit.invalid 255] = dquote :: (escapeU 0xFFFD ++ [dquote]) ∧
    parseValue 1 (jsonQuote [GoUnit.invalid 255]) =
      some (.string (escapeU 0xFFFD) [replacementChar], []) ∧
    litValue "text" (.string (escapeU 0xFFFD) [replacementChar]) =
      .str (String.mk [replacementChar]) ∧
    goString (String.mk [replacementChar]) ≠ [GoUnit.invalid 255] := by
  decide

/-- C11 as amended: for a job record whose string fields are valid UTF-8 (a
Lean `String`), whose integer fields are values of Go's `int` and whose
Created has a zone a whole number of minutes from UTC, when the JSON encoding
in `saveJobToDisk` succeeds, the job file can be written and read, and the
jobs directory lists the file `<id>.json` and no entry holding another record
with this ID, `loadJobsFromDisk` leaves in the job map, under the job's ID, a
record equal to the saved one in every field, Created as the same instant,
except Status, which is "queued" when the saved Status was neither "done" nor
"error" and is unchanged otherwise. The text written and read is that of
`encoding/json` (`goJson`). -/
theorem saveJobToDisk_loadJobsFromDisk_roundtrip (E : Env) (zone : Int → Int) (job : Job)
    (w : World) (jobs : List (String × Job)) (jobQueue : List String)
    (spawned : List (String × String)) (data : String) (names : List String)
    (hints : intFieldsInRange job)
    (hzone : zone job.Created % 60 = 0)
    (henc : jsonMarshalJob (goJson zone) job = .ok data)
    (hwrite : w.fs.writable (filepathJoin "/data/jobs" (job.ID ++ ".json")) = true)
    (hread : w.fs.readable (filepathJoin "/data/jobs" (job.ID ++ ".json")) = true)
    (hdir : E.osReadDir "/data/jobs"
      (saveJobToDisk (E.withJson (goJson zone)) job w).fs = .ok names)
    (hin : job.ID ++ ".json" ∈ names)
    (hother : ∀ n ∈ names, ∀ j,
      fileRecord (E.withJson (goJson zone))
        (saveJobToDisk (E.withJson (goJson zone)) job w).fs "/data/jobs" n = some j →
      j.ID = job.ID → j = job) :
    mapLookup
        (loadJobsFromDisk (E.withJson (goJson zone))
          ⟨jobs, jobQueue, spawned, (saveJobToDisk (E.withJson (goJson zone)) job w).fs⟩).1.jobs
        job.ID =
      some { job with
        Status := if job.Status ≠ "done" ∧ job.Status ≠ "error" then "queued"
          else job.Status } :=
  roundtrip_over_text_layer E (goJson zone) job w jobs jobQueue spawned data names
    (goJson_roundtrip zone job data hints hzone henc).1
    (goJson_roundtrip zone job data hints hzone henc).2 hwrite hread hdir hin hother

set_option maxRecDepth 1000000 in
theorem saveJobToDisk_loadJobsFromDisk_roundtrip_witness :
    intFieldsInRange quotedJob ∧
    (7200 : Int) % 60 = 0 ∧
    (jsonMarshalJob (goJson (fun _ => 7200)) quotedJob).toOption.isSome = true ∧
    restartEnv.osReadDir "/data/jobs"
        (saveJobToDisk (restartEnv.withJson (goJson (fun _ => 7200))) quotedJob freshWorld).fs =
      .ok ["j1.json", "notes.txt"] ∧
    mapLookup
        (loadJobsFromDisk (restartEnv.withJson (goJson (fun _ => 7200)))
          ⟨[], [], [],
            (saveJobToDisk (restartEnv.withJson (goJson (fun _ => 7200))) quotedJob
              freshWorld).fs⟩).1.jobs quotedJob.ID =
      some { quotedJob with
        Status := if quotedJob.Status ≠ "done" ∧ quotedJob.Status ≠ "error" then "queued"
          else quotedJob.Status } :=
  have henc : ∃ data, jsonMarshalJob (goJson (fun _ => 7200)) quotedJob = .ok data := by
    cases h : jsonMarshalJob (goJson (fun _ => 7200)) quotedJob with
    | ok data => exact ⟨data, rfl⟩
    | error err =>
      have hsome : (jsonMarshalJob (goJson (fun _ => 7200)) quotedJob).toOption.isSome = true := by
        decide
      rw [h] at hsome
      cases hsome
  ⟨⟨by decide, by decide, by decide, by decide⟩, by decide, by decide, rfl,
    henc.elim (fun data hdata =>
      saveJobToDisk_loadJobsFromDisk_roundtrip restartEnv (fun _ => 7200) quotedJob
        freshWorld [] [] [] data ["j1.json", "notes.txt"]
        ⟨by decide, by decide, by decide, by decide⟩ (by decide) hdata (by decide) (by decide)
        rfl (by decide)
        (by
          intro n hn j hj _
          have hrt := goJson_roundtrip (fun _ => 7200) quotedJob data
            ⟨by decide, by decide, by decide, by decide⟩ (by decide) hdata
          have h1 := fileRecord_of_saved restartEnv (goJson (fun _ => 7200)) quotedJob freshWorld
            data hrt.1 hrt.2 (by decide) (by decide)
          have h2 : fileRecord (restartEnv.withJson (goJson (fun _ => 7200)))
              (saveJobToDisk (restartEnv.withJson (goJson (fun _ => 7200))) quotedJob
                freshWorld).fs "/data/jobs" "notes.txt" = none := by decide
          simp only [List.mem_cons, List.mem_singleton, List.not_mem_nil, or_false] at hn
          rcases hn with h | h
          · subst h
            rw [show "j1.json" = quotedJob.ID ++ ".json" by decide, h1] at hj
            exact (Option.some.inj hj).symm
          · subst h
            rw [h2] at hj
            cases hj))⟩

end VTranscribe
